import Mathlib

/-!
# JPML polyphonic synthesizer: a shallow embedding of `jpml.c` / `notes.h`

The C globals become fields of explicit state records, machine integers are
`Nat` / `Int` reduced modulo their width at every assignment where the value
can leave its range, and undefined behaviour of the C program (division by
zero, out-of-bounds array access, a loop that never exits) is the value
`none` of an `Option` result.

Target facts used by the embedding (at90usb1286, avr-gcc): `int` is 16 bits
wide, `uint8_t` arithmetic wraps modulo 256, `uint16_t` modulo 65536.
-/

namespace JPML

/-! ## Tables of `notes.h` and `jpml.h` -/

/-- Table `note_step` of notes.h: phase increment per semitone, A0 .. C8. -/
def note_step : List Nat :=
  [3, 4, 4,
   4, 4, 4, 5, 5, 5, 6, 6, 6, 7, 7, 8,
   8, 9, 9, 10, 10, 11, 12, 12, 13, 14, 15, 16,
   17, 18, 19, 20, 21, 22, 24, 25, 27, 28, 30, 32,
   34, 36, 38, 40, 43, 45, 48, 51, 54, 57, 61, 64,
   68, 72, 76, 81, 86, 91, 96, 102, 108, 115, 122, 129,
   137, 145, 153, 163, 172, 183, 193, 205, 217, 230, 244, 258,
   274, 290, 307, 326, 345, 366, 387, 411, 435, 461, 488, 517,
   548]

/-- Table `sine` of jpml.h: one period of a sine wave in 256 samples. -/
def sine : List Nat :=
  [128,131,134,137,140,143,146,149,
   152,155,158,162,165,167,170,173,
   176,179,182,185,188,190,193,196,
   198,201,203,206,208,211,213,215,
   218,220,222,224,226,228,230,232,
   234,235,237,238,240,241,243,244,
   245,246,248,249,250,250,251,252,
   253,253,254,254,254,255,255,255,
   255,255,255,255,254,254,254,253,
   253,252,251,250,250,249,248,246,
   245,244,243,241,240,238,237,235,
   234,232,230,228,226,224,222,220,
   218,215,213,211,208,206,203,201,
   198,196,193,190,188,185,182,179,
   176,173,170,167,165,162,158,155,
   152,149,146,143,140,137,134,131,
   128,124,121,118,115,112,109,106,
   103,100,97,93,90,88,85,82,
   79,76,73,70,67,65,62,59,
   57,54,52,49,47,44,42,40,
   37,35,33,31,29,27,25,23,
   21,20,18,17,15,14,12,11,
   10,9,7,6,5,5,4,3,
   2,2,1,1,1,0,0,0,
   0,0,0,0,1,1,1,2,
   2,3,4,5,5,6,7,9,
   10,11,12,14,15,17,18,20,
   21,23,25,27,29,31,33,35,
   37,40,42,44,47,49,52,54,
   57,59,62,65,67,70,73,76,
   79,82,85,88,90,93,97,100,
   103,106,109,112,115,118,121,124]

/-- Waveform constant `SINE`. -/
def SINE : Nat := 0
/-- Waveform constant `TRIANGLE`. -/
def TRIANGLE : Nat := 1
/-- Waveform constant `SQUARE`. -/
def SQUARE : Nat := 2
/-- Waveform constant `SAWTOOTH`. -/
def SAWTOOTH : Nat := 3

/-- Note-table indices named in notes.h that the reference scale uses. -/
def C4 : Nat := 39
/-- Index of D4 in `note_step`. -/
def D4 : Nat := 41
/-- Index of E4 in `note_step`. -/
def E4 : Nat := 43
/-- Index of F4 in `note_step`. -/
def F4 : Nat := 44
/-- Index of G4 in `note_step`. -/
def G4 : Nat := 46
/-- Index of A4 in `note_step`. -/
def A4 : Nat := 48
/-- Index of B4 in `note_step`. -/
def B4 : Nat := 50

/-- Table `C_MAJOR`: the reference scale, indexed A, B, C, D, E, F, G. -/
def C_MAJOR : List Nat := [A4, B4, C4, D4, E4, F4, G4]
/-- Table `Cb_MAJOR`: letters to lower, in the order flats are added. -/
def Cb_MAJOR : List Nat := [1, 4, 0, 3, 6, 2, 5]
/-- Table `Cs_MAJOR`: letters to raise, in the order sharps are added. -/
def Cs_MAJOR : List Nat := [5, 2, 6, 3, 0, 4, 1]
/-- Table `flat_signatures`: start index into `Cb_MAJOR` per key letter. -/
def flat_signatures : List Nat := [3, 1, 6, 4, 2, 0, 5]
/-- Table `sharp_signatures`: start index into `Cs_MAJOR` per key letter. -/
def sharp_signatures : List Nat := [2, 4, 6, 1, 3, 5, 0]

/-- The sentinel 0xFF stored in `note` when a voice is off. -/
def OFF : Nat := 255

/-- Number of voices, `#define CHANNELS 3`. -/
def CHANNELS : Nat := 3

/-! ## Channel pool -/

/-- The record `struct Channel`. `tick` is the phase accumulator and
`time_until_release` the number of beat-ticks left. -/
structure Channel where
  note : Nat
  wave : Nat
  time_until_release : Nat
  tick : Nat
deriving DecidableEq, Repr

/-- The array `channels[CHANNELS]` together with the global
`occupied_channels`. -/
structure Pool where
  ch0 : Channel
  ch1 : Channel
  ch2 : Channel
  occupied_channels : Nat
deriving DecidableEq, Repr

/-- Read `channels[i]`; `none` outside the array. -/
def Pool.getChan (p : Pool) (i : Nat) : Option Channel :=
  match i with
  | 0 => some p.ch0
  | 1 => some p.ch1
  | 2 => some p.ch2
  | _ => none

/-- Write `channels[i]`; `none` outside the array (an out-of-bounds store). -/
def Pool.setChan (p : Pool) (i : Nat) (c : Channel) : Option Pool :=
  match i with
  | 0 => some { p with ch0 := c }
  | 1 => some { p with ch1 := c }
  | 2 => some { p with ch2 := c }
  | _ => none

/-- The three slots in index order. -/
def Pool.toList (p : Pool) : List Channel := [p.ch0, p.ch1, p.ch2]

/-- The index expression of `channel_play`:
`(occupied_channels & 1) * (1 + (occupied_channels & 3)/3)`. -/
def free_channel (occ : Nat) : Nat := (occ &&& 1) * (1 + (occ &&& 3) / 3)

/-- The guard `if(~occupied_channels)`: the operand is promoted to `int`
before the complement, so the tested value is `-occ - 1`. -/
def not_occupied_guard (occ : Nat) : Bool := decide (-(occ : Int) - 1 ≠ 0)

/-- Function `channel_play(uint8_t note, uint8_t duration)`. The arguments are
converted to `uint8_t` at the call. The store is `none` only if the computed
index left the array. -/
def channel_play (p : Pool) (note duration : Nat) : Option Pool :=
  if not_occupied_guard p.occupied_channels then
    let fc := free_channel p.occupied_channels
    match p.getChan fc with
    | none => none
    | some c =>
      match p.setChan fc { c with note := note % 256,
                                   time_until_release := duration % 256,
                                   tick := 0 } with
      | none => none
      | some q =>
        some { q with occupied_channels := (q.occupied_channels ||| (1 <<< fc)) % 256 }
  else some p

/-- The value `~(1 << i)` and-ed into the 8-bit mask: the complement is taken
on a 16-bit `int`, the result of the `&=` is stored back as `uint8_t`. -/
def clear_bit (occ i : Nat) : Nat := (occ &&& (65535 ^^^ ((1 <<< i) % 65536))) % 256

/-- Function `channel_stop(uint8_t channel)`. -/
def channel_stop (p : Pool) (channel : Nat) : Option Pool :=
  match p.getChan channel with
  | none => none
  | some c =>
    match p.setChan channel { c with note := OFF } with
    | none => none
    | some q => some { q with occupied_channels := clear_bit q.occupied_channels channel }

/-- Function `channel_set_wave(uint8_t channel, uint8_t wave)`. -/
def channel_set_wave (p : Pool) (channel wave : Nat) : Option Pool :=
  match p.getChan channel with
  | none => none
  | some c => p.setChan channel { c with wave := wave % 256 }

/-- The allocation policy in the words of the specification: the
lowest-numbered slot whose occupancy bit is clear, and the highest-numbered
slot when all three are set. -/
def policy_slot (occ : Nat) : Nat :=
  match (List.range CHANNELS).find? (fun i => !occ.testBit i) with
  | some i => i
  | none => CHANNELS - 1

/-- The pool in which every voice is off and the mask is empty. -/
def silent_channel : Channel := { note := OFF, wave := SINE, time_until_release := 0, tick := 0 }

/-- Pool with three silent channels and no occupancy bit. -/
def empty_pool : Pool :=
  { ch0 := silent_channel, ch1 := silent_channel, ch2 := silent_channel, occupied_channels := 0 }

/-- Bit `i` of an occupancy mask. -/
def mask_bit (occ i : Nat) : Bool := occ.testBit i

/-- The occupancy invariant: bit `i` of the mask is set exactly when slot `i`
holds a note, and no bit above bit 2 is set. -/
def Pool.consistent (p : Pool) : Prop :=
  (mask_bit p.occupied_channels 0 = true ↔ p.ch0.note ≠ OFF) ∧
  (mask_bit p.occupied_channels 1 = true ↔ p.ch1.note ≠ OFF) ∧
  (mask_bit p.occupied_channels 2 = true ↔ p.ch2.note ≠ OFF) ∧
  p.occupied_channels < 8


/-! ## Waveform generator: the timer-1 overflow interrupt -/

/-- Hardware and interrupt-visible flags next to the pool. `OCR1A` and `OCR3A`
are the two duty-cycle registers. -/
structure Wave where
  pool : Pool
  pwm_in_use : Nat
  tick_scaler : Nat
  OCR1A : Nat
  OCR3A : Nat
deriving DecidableEq, Repr

/-- The phase after `tick += note_step[note]; tick &= 511;` (the sum is a
`uint16_t`); `none` when `note` is not an index of `note_step`. -/
def advance_tick (c : Channel) : Option Nat :=
  match note_step[c.note]? with
  | none => none
  | some step => some (((c.tick + step) % 65536) &&& 511)

/-- The sample added to `combined_ticks` for waveform `wave` at phase `tick`,
following the if-chain of the interrupt routine. -/
def wave_sample (wave tick : Nat) : Option Nat :=
  if wave = SINE then sine[tick >>> 1]?
  else if wave = SQUARE then some (if tick &&& 256 ≠ 0 then 255 else 0)
  else if wave = TRIANGLE then
    let x := (tick &&& 255) % 256
    some (if tick &&& 256 ≠ 0 then ((-(x : Int) - 1) % 256).toNat else x)
  else some (tick >>> 1)

/-- One iteration of `for(i=0;i<CHANNELS;i++)` in the interrupt routine, on the
triple (pool, polyphony, combined_ticks). -/
def mix_channel (i : Nat) (acc : Pool × Nat × Nat) : Option (Pool × Nat × Nat) :=
  match acc.1.getChan i with
  | none => none
  | some c =>
    if c.note ≠ OFF then
      match advance_tick c with
      | none => none
      | some t =>
        match wave_sample c.wave t, acc.1.setChan i { c with tick := t } with
        | some smp, some q => some (q, acc.2.1 + 1, acc.2.2 + smp)
        | _, _ => none
    else some acc

/-- The mixing pass: the loop over the three channels followed by the update
of the duty cycle when `polyphony` is non-zero. -/
def mixing_pass (w : Wave) : Option Wave :=
  match mix_channel 0 (w.pool, 0, 0) with
  | none => none
  | some a0 =>
    match mix_channel 1 a0 with
    | none => none
    | some a1 =>
      match mix_channel 2 a1 with
      | none => none
      | some (q, polyphony, combined_ticks) =>
        if polyphony ≠ 0 then
          some { w with pool := q, OCR1A := combined_ticks / polyphony,
                        OCR3A := combined_ticks / polyphony }
        else some { w with pool := q }

/-- The handler `ISR(TIMER1_OVF_vect)`. -/
def TIMER1_OVF (w : Wave) : Option Wave :=
  if w.pwm_in_use ≠ 0 then
    match (if w.tick_scaler = 0 then mixing_pass w else some w) with
    | none => none
    | some w1 => some { w1 with tick_scaler := ((w1.tick_scaler + 1) % 256) &&& 7 }
  else some w

/-- The sample a sounding channel contributes on a mixing pass: its waveform
evaluated at its advanced phase. -/
def channel_sample (c : Channel) : Option Nat :=
  match advance_tick c with
  | none => none
  | some t => wave_sample c.wave t

/-- The channels of the pool whose note is not off, in slot order. -/
def Pool.sounding (p : Pool) : List Channel := p.toList.filter (fun c => decide (c.note ≠ OFF))

/-- A note value the interrupt routine can process: off, or an index of
`note_step`. -/
def valid_note (n : Nat) : Prop := n = OFF ∨ n < 88

/-! ## Duration strings -/

/-- A `char*` is the list of the bytes it points at. The list may end before the
terminator, which is then implied: a read at or past the end of the list
yields 0. It may also spell the terminator out and go on with the bytes that
lie behind it in memory. -/
def char_at (str : List Char) (i : Nat) : Char := str.getD i (Char.ofNat 0)

/-- Characters `'0'` .. `'9'`. -/
def is_digit (c : Char) : Bool := decide ('0' ≤ c) && decide (c ≤ '9')

/-- The white space skipped by `atoi` (the `isspace` set). -/
def is_space (c : Char) : Bool :=
  c = ' ' || c = '\t' || c = '\n' || c = '\r' || c = Char.ofNat 11 || c = Char.ofNat 12

/-- Accumulate the leading decimal digits of a string. -/
def atoi_digits : Nat → List Char → Nat
  | acc, [] => acc
  | acc, c :: cs => if is_digit c then atoi_digits (10 * acc + (c.toNat - 48)) cs else acc

/-- Skip the leading white space of a string. -/
def skip_space : List Char → List Char
  | [] => []
  | c :: cs => if is_space c then skip_space cs else c :: cs

/-- The C library function `atoi`: optional white space, an optional sign, then
decimal digits up to the first other character. The result is the mathematical
value; each caller reduces it to the width of the variable it assigns. -/
def atoi (str : List Char) : Int :=
  match skip_space str with
  | '-' :: cs => -((atoi_digits 0 cs : Nat) : Int)
  | '+' :: cs => ((atoi_digits 0 cs : Nat) : Int)
  | cs => ((atoi_digits 0 cs : Nat) : Int)

/-- Conversion of an `int` to `uint32_t`. -/
def to_u32 (x : Int) : Nat := (x % 4294967296).toNat
/-- Conversion of an `int` to `uint16_t`. -/
def to_u16 (x : Int) : Nat := (x % 65536).toNat
/-- Conversion of an `int` to `uint8_t`. -/
def to_u8 (x : Int) : Nat := (x % 256).toNat
/-- Conversion of an `int` to `int8_t` (two's complement wrap). -/
def to_i8 (x : Int) : Int := (x + 128) % 256 - 128

/-- Locals of `string_to_note_length` that live across loop iterations.
`current_number_string` holds the characters stored so far, so its length is
`current_number_position`; the array has room for four characters. -/
structure NoteLen where
  fraction : Nat
  no_numbers_set : Nat
  current_number_string : List Char
  n : Nat
deriving DecidableEq, Repr

/-- One iteration of the `while(str[i]!='\0')` loop of `string_to_note_length`.
A store at position 4 or beyond of `current_number_string` is out of bounds. -/
def note_length_step (st : NoteLen) (c : Char) : Option NoteLen :=
  if c = '/' then
    if st.current_number_string.length < 4 then
      let n := to_u32 (atoi st.current_number_string)
      some { fraction := (st.fraction + 1) % 256,
             no_numbers_set := st.no_numbers_set,
             current_number_string := [],
             n := if n = 0 then 1 else n }
    else none
  else if is_digit c then
    if st.current_number_string.length < 4 then
      some { st with no_numbers_set := 0,
                     current_number_string := st.current_number_string ++ [c] }
    else none
  else some st

/-- The whole loop, over the characters before the terminator. -/
def note_length_loop : List Char → NoteLen → Option NoteLen
  | [], st => some st
  | c :: cs, st =>
    match note_length_step st c with
    | none => none
    | some st1 => note_length_loop cs st1

/-- The values of `n` and `d` in `string_to_note_length` when the statement
`n*=32` is reached. The index `i` is a `uint8_t`, so a string whose terminator
lies at index 256 or beyond is never left by the loop; the shift
`1 << fraction` is a 16-bit `int` shift, undefined from 15 on. Both are `none`,
as is a store past the end of `current_number_string`. -/
def note_length_operands (str : List Char) : Option (Nat × Nat) :=
  let body := str.takeWhile (fun c => c ≠ Char.ofNat 0)
  if body.length < 256 then
    match note_length_loop body { fraction := 0, no_numbers_set := 1,
                                  current_number_string := [], n := 1 } with
    | none => none
    | some st =>
      if st.current_number_string.length < 4 then
        if st.fraction ≠ 0 then
          if st.no_numbers_set ≠ 0 then
            (if st.fraction < 15 then some (1, 1 <<< st.fraction) else none)
          else some (st.n, to_u32 (atoi st.current_number_string))
        else some (to_u32 (atoi st.current_number_string), 1)
      else none
  else none

/-- Function `string_to_note_length`: `n*=32; return n/d;` on `uint32_t`
operands with a `uint16_t` result. A zero denominator is a division by zero
(`none`). -/
def string_to_note_length (str : List Char) : Option Nat :=
  match note_length_operands str with
  | none => none
  | some (n, d) =>
    if d = 0 then none else some ((((n * 32) % 4294967296) / d) % 65536)

/-! ## Tempo -/

/-- Function `calculate_tempo_32nd`: `153750/bpm`, a division by zero for
`bpm = 0`. -/
def calculate_tempo_32nd (bpm : Nat) : Option Nat :=
  if bpm = 0 then none else some (153750 / bpm)

/-- Function `set_tempo`: the new value of `bpmLimit`. -/
def set_tempo (bpm : Nat) : Option Nat := calculate_tempo_32nd (bpm % 65536)

/-- The value of `i` when the copy loop `for(i=0;i<15;i++)` of the `Q:` handler
stops: the offset of the first `'='` or terminator after the tag, at most 15. -/
def tempo_base_end (line : List Char) : Nat → Nat → Nat
  | 0, i => i
  | fuel + 1, i =>
    if i < 15 then
      if char_at line (i + 2) = '=' ∨ char_at line (i + 2) = Char.ofNat 0 then i
      else tempo_base_end line fuel (i + 1)
    else i

/-- The loop `while(note_length<8){ note_length <<= 1; tempo >>= 1; }` on
`uint16_t` operands, run for at most `fuel` tests of the condition. -/
def tempo_scale_up : Nat → Nat → Nat → Option (Nat × Nat)
  | 0, _, _ => none
  | fuel + 1, note_length, tempo =>
    if note_length < 8 then
      tempo_scale_up fuel ((note_length <<< 1) % 65536) (tempo >>> 1)
    else some (note_length, tempo)

/-- The loop `while(note_length>8){ note_length >>= 1; tempo <<= 1; }` on
`uint16_t` operands, run for at most `fuel` tests of the condition. -/
def tempo_scale_down : Nat → Nat → Nat → Option (Nat × Nat)
  | 0, _, _ => none
  | fuel + 1, note_length, tempo =>
    if note_length > 8 then
      tempo_scale_down fuel (note_length >>> 1) ((tempo <<< 1) % 65536)
    else some (note_length, tempo)

/-- The adjustment of the tempo to its quarter-note equivalent. A 16-bit
`note_length` other than 0 leaves either loop within 17 tests, so a run that
uses up 17 tests never leaves the loop. -/
def normalise_tempo (note_length tempo : Nat) : Option (Nat × Nat) :=
  if note_length < 8 then tempo_scale_up 17 note_length tempo
  else if note_length > 8 then tempo_scale_down 17 note_length tempo
  else some (note_length, tempo)

/-- The `case('Q')` branch of `abc_load_file` on the line in `readlinebuffer`
(tag included): the value assigned to `bpmLimit`. -/
def tempo_header (line : List Char) : Option Nat :=
  let i := tempo_base_end line 15 0
  let note_length_string := (line.drop 2).take i
  let base : Option (Nat × Nat) :=
    if char_at line (i + 2) = '=' then
      match string_to_note_length note_length_string with
      | none => none
      | some nl => some (nl, i + 1)
    else some (8, 0)
  match base with
  | none => none
  | some (note_length, j) =>
    let tempo := to_u16 (atoi (line.drop (j + 2)))
    match normalise_tempo note_length tempo with
    | none => none
    | some (_, tempo1) => calculate_tempo_32nd tempo1

/-! ## Key signatures -/

/-- The skip loop of `changeKey`,
`while(keystring[j]<'A' || keystring[j]>'G'){ j++; if(keystring[j]=='\0') return; }`
with `j` a `uint8_t`. Result `some (some j)`: the loop was left at index `j`;
`some none`: the function returned early; `none`: `fuel` tests were used up. -/
def key_letter_index (keystring : List Char) : Nat → Nat → Option (Option Nat)
  | 0, _ => none
  | fuel + 1, j =>
    if char_at keystring j < 'A' ∨ char_at keystring j > 'G' then
      if char_at keystring ((j + 1) % 256) = Char.ofNat 0 then some none
      else key_letter_index keystring fuel ((j + 1) % 256)
    else some (some j)

/-- The loop `for(i=0;i<7;i++) key_signature[i]=C_MAJOR[i];`. -/
def reset_key (key_signature : List Nat) : List Nat :=
  (List.range 7).foldl (fun ks i => ks.set i (C_MAJOR.getD i 0)) key_signature

/-- The loops `for(i = start; i!=0xFF; i--) key_signature[order[i]] += delta;`
of `changeKey` with `i` and the entries `uint8_t`; `delta` is 255 for the
decrement and 1 for the increment. An index outside a table is `none`. -/
def shift_letters (order : List Nat) (delta : Nat) : Nat → Nat → List Nat → Option (List Nat)
  | 0, _, _ => none
  | fuel + 1, i, ks =>
    if i = 255 then some ks
    else
      match order[i]? with
      | none => none
      | some letter =>
        match ks[letter]? with
        | none => none
        | some v => shift_letters order delta fuel ((i + 255) % 256)
                      (ks.set letter ((v + delta) % 256))

/-- The part of `changeKey` after the skip loop: the reset to C major and the
flat or sharp loop chosen by the key letter `key = keystring[j]` and by
`modifier = keystring[j+1]`. -/
def apply_key (key modifier : Char) (key_signature : List Nat) : Option (List Nat) :=
  let ks := reset_key key_signature
  if key = 'C' ∧ modifier ≠ 'b' ∧ modifier ≠ '#' then some ks
  else if modifier = 'b' ∨ (key = 'F' ∧ modifier ≠ '#') then
    match flat_signatures[key.toNat - 65]? with
    | none => none
    | some start => shift_letters Cb_MAJOR 255 256 start ks
  else
    match sharp_signatures[key.toNat - 65]? with
    | none => none
    | some start => shift_letters Cs_MAJOR 1 256 start ks

/-- Function `changeKey`: the new content of `key_signature`. The index `j`
ranges over 256 values and the string is not written, so a skip loop that has
not stopped within 256 tests repeats for ever (`none`). -/
def changeKey (keystring : List Char) (key_signature : List Nat) : Option (List Nat) :=
  match key_letter_index keystring 256 0 with
  | none => none
  | some none => some key_signature
  | some (some j) => apply_key (char_at keystring j) (char_at keystring (j + 1)) key_signature

/-! ## Instruction tags -/

/-- The digit search of `parse_lf_tag`,
`while(tagstring[i]<'0' || tagstring[i]>'9'){ i++; if(tagstring[i]=='\0') return; }`
with `i` an `int8_t`. Result `some (some i)`: a digit stands at index `i`;
`some none`: the function returned; `none`: `i` left the range of `int8_t`. -/
def digit_index (tagstring : List Char) : Nat → Nat → Option (Option Nat)
  | 0, _ => none
  | fuel + 1, i =>
    if char_at tagstring i < '0' ∨ char_at tagstring i > '9' then
      if i + 1 > 127 then none
      else if char_at tagstring (i + 1) = Char.ofNat 0 then some none
      else digit_index tagstring fuel (i + 1)
    else some (some i)

/-- The text compared against the first eight characters of a tag. -/
def lf_wave : List Char := ['l', 'f', '-', 'w', 'a', 'v', 'e', ':']

/-- Function `parse_lf_tag`: the pool after the call. -/
def parse_lf_tag (tagstring : List Char) (p : Pool) : Option Pool :=
  if (List.range 8).all (fun i => lf_wave.getD i ' ' = char_at tagstring i) then
    match digit_index tagstring 128 8 with
    | none => none
    | some none => some p
    | some (some i) =>
      let channel := (char_at tagstring i).toNat - 48
      match (if i + 1 > 127 then none else digit_index tagstring 128 (i + 1)) with
      | none => none
      | some none => some p
      | some (some k) =>
        let wave := (char_at tagstring k).toNat - 48
        match p.getChan channel with
        | none => none
        | some c => p.setChan channel { c with wave := wave }
  else some p


/-! ## Sequencer -/

/-- Value `ABC_STOPPED` of `abc_playing`. -/
def ABC_STOPPED : Nat := 0
/-- Value `ABC_PLAYING` of `abc_playing`. -/
def ABC_PLAYING : Nat := 1
/-- Value `ABC_FINISHING` of `abc_playing`. -/
def ABC_FINISHING : Nat := 2

/-- Bit `rest` of `note_flags`. -/
def rest : Nat := 128
/-- Bit `natural` of `note_flags`. -/
def natural : Nat := 64
/-- Bit `chord` of `note_flags`. -/
def chord : Nat := 32

/-- One call of `channel_play` made by the sequencer: the beat-tick on which
it was made and the two arguments as received (`uint8_t`). -/
structure Commit where
  beat : Nat
  note : Nat
  duration : Nat
deriving DecidableEq, Repr

/-- The globals of jpml.c. `readlinebuffer` is `none` for the null pointer and
`file` holds the lines `f_gets` has yet to return. The last two fields are
observers that no modelled code reads: `beat` counts the beat-ticks run and
`played` records the calls of `channel_play` made by `playNoteIfAvailable`. -/
structure State where
  hw : Wave
  bpmCounter : Nat
  bpmLimit : Nat
  next_note : Nat
  length : Nat
  time_until_next_note : Nat
  accidental_shift : Int
  numstring : List Char
  number_mode : Int
  abc_playing : Nat
  note_flags : Nat
  default_note_length : Nat
  key_signature : List Nat
  readlinebuffer : Option (List Char)
  readline_index : Nat
  file : List (List Char)
  beat : Nat
  played : List Commit
deriving DecidableEq, Repr

/-- Function `pwm_init`, as far as the modelled flags and registers go. -/
def pwm_init (w : Wave) : Wave := { w with OCR1A := 0, OCR3A := 0, pwm_in_use := 1 }

/-- Function `pwm_stop`. -/
def pwm_stop (w : Wave) : Wave := if w.pwm_in_use ≠ 0 then { w with pwm_in_use := 0 } else w

/-- Function `abc_stop`. -/
def abc_stop (s : State) : State := { s with abc_playing := 0, hw := pwm_stop s.hw }

/-- Function `playNoteIfAvailable`: the return value and the state after. -/
def playNoteIfAvailable (s : State) : Option (Bool × State) :=
  if s.note_flags &&& rest ≠ 0 ∨ s.next_note ≠ 255 then
    let t := if s.note_flags &&& rest ≠ 0 then s.length % 65536
             else (if s.length < s.time_until_next_note then s.length % 65536
                   else s.time_until_next_note)
    let note := to_u8 ((s.next_note : Int) + s.accidental_shift)
    let duration := s.length % 256
    match channel_play s.hw.pool note duration with
    | none => none
    | some q =>
      let s1 := { s with time_until_next_note := t,
                         hw := { s.hw with pool := q },
                         played := s.played ++ [{ beat := s.beat, note := note,
                                                  duration := duration }] }
      if s1.note_flags &&& chord = 0 then some (true, s1)
      else some (false, { s1 with next_note := 255,
                                  accidental_shift := 0,
                                  note_flags := s1.note_flags &&& (255 ^^^ (rest ||| natural)),
                                  length := s1.default_note_length })
  else some (false, s)

/-- The if/else of the countdown loop of `abc_play` for slot `i`: release the
slot when its `time_until_release` is 0, decrement it otherwise. -/
def countdown_pool (i : Nat) (p : Pool) : Option Pool :=
  match p.getChan i with
  | none => none
  | some c =>
    if c.time_until_release = 0 then
      match p.setChan i { c with note := OFF } with
      | none => none
      | some q => some { q with occupied_channels := clear_bit q.occupied_channels i }
    else p.setChan i { c with time_until_release := c.time_until_release - 1 }

/-- One iteration of the countdown loop of `abc_play` for slot `i`: the if/else
on the slot, then the test that stops the song. -/
def countdown_slot (i : Nat) (s : State) : Option State :=
  match countdown_pool i s.hw.pool with
  | none => none
  | some q =>
    if q.occupied_channels = 0 ∧ s.abc_playing = ABC_FINISHING then
      some (abc_stop { s with hw := { s.hw with pool := q } })
    else some { s with hw := { s.hw with pool := q } }

/-- The countdown loop `for(i=0;i<CHANNELS;i++)` of `abc_play`. -/
def countdown (s : State) : Option State :=
  match countdown_slot 0 s with
  | none => none
  | some s0 =>
    match countdown_slot 1 s0 with
    | none => none
    | some s1 => countdown_slot 2 s1

/-- The character `readlinebuffer[readline_index]`. A read through the null
pointer yields 0. -/
def current_char (s : State) : Char := char_at (s.readlinebuffer.getD []) s.readline_index

/-- Store `c` at `numstring[i]`; `none` outside the 16 characters. -/
def store_numstring (numstring : List Char) (i : Nat) (c : Char) : Option (List Char) :=
  if i < 16 ∧ i < numstring.length then some (numstring.set i c) else none

/-- The line buffer after `f_gets` has stored `line` and its terminator in it:
the bytes behind the terminator are those an earlier, longer line left. -/
def f_gets_into (buffer line : List Char) : List Char :=
  line ++ Char.ofNat 0 :: buffer.drop (line.length + 1)

/-- The do-while loop of `abc_play` that fetches the next line and applies
`K:` and `I:` lines, by recursion on the lines `f_gets` has yet to return. At
the end of the file `f_gets` returns the null pointer; the test
`readlinebuffer[1]==':'` then reads address 1, taken to hold 0. -/
def read_next_line : List (List Char) → State → Option State
  | [], s => some { s with readlinebuffer := none, readline_index := 65535, file := [] }
  | line :: more, s =>
    let buffer := f_gets_into (s.readlinebuffer.getD []) line
    let s1 := { s with readlinebuffer := some buffer, readline_index := 65535, file := more }
    if char_at buffer 1 = ':' then
      let s2 : Option State :=
        if char_at buffer 0 = 'K' then
          match changeKey (buffer.drop 2) s1.key_signature with
          | none => none
          | some ks => some { s1 with key_signature := ks }
        else if char_at buffer 0 = 'I' then
          match parse_lf_tag (buffer.drop 2) s1.hw.pool with
          | none => none
          | some q => some { s1 with hw := { s1.hw with pool := q } }
        else some s1
      match s2 with
      | none => none
      | some s3 => read_next_line more s3
    else some s1

/-- The statement `playNoteOrBreak` followed by the rest `k` of its branch:
`true` in the result means that the scan loop is left by `break`. -/
def play_or_break (s : State) (k : State → Option State) : Option (Bool × State) :=
  match playNoteIfAvailable s with
  | none => none
  | some (true, s1) => some (true, s1)
  | some (false, s1) =>
    match k s1 with
    | none => none
    | some s2 => some (false, s2)

/-- The body of the scan loop `while(1)` of `abc_play` up to, and without, the
final `readline_index++`; `true` in the result means `break`. The product
`string_to_note_length(numstring) * default_note_length` is an `unsigned int`
(16 bits); `length*=1.5` is exact on the values that can occur and is taken
as the rounded-down `3*length/2`. -/
def scan_char (s : State) : Option (Bool × State) :=
  let c := current_char s
  if '/' ≤ c ∧ c ≤ '9' then
    let nm := if s.number_mode = 0 then to_i8 s.readline_index else s.number_mode
    let idx := to_u16 ((s.readline_index : Int) - nm)
    match store_numstring s.numstring idx c with
    | none => none
    | some ns1 =>
      match store_numstring ns1 ((idx + 1) % 65536) (Char.ofNat 0) with
      | none => none
      | some ns2 => some (false, { s with number_mode := nm, numstring := ns2 })
  else if s.number_mode ≠ 0 then
    match string_to_note_length s.numstring with
    | none => none
    | some v =>
      let l0 := ((v * s.default_note_length) % 65536) >>> 5
      let l1 := if l0 = 0 then 1 else l0
      let l2 := if s.note_flags &&& rest ≠ 0 then (l1 * 3) / 2 else l1
      some (false, { s with number_mode := 0, length := l2,
                            readline_index := (s.readline_index + 65535) % 65536 })
  else if 'A' ≤ c ∧ c ≤ 'G' then
    play_or_break s (fun s1 =>
      match (if s1.note_flags &&& natural ≠ 0 then C_MAJOR else s1.key_signature)[c.toNat - 65]? with
      | none => none
      | some v => some { s1 with next_note := v })
  else if 'a' ≤ c ∧ c ≤ 'g' then
    play_or_break s (fun s1 =>
      match (if s1.note_flags &&& natural ≠ 0 then C_MAJOR else s1.key_signature)[c.toNat - 97]? with
      | none => none
      | some v => some { s1 with next_note := (v + 12) % 256 })
  else if c = ',' then
    some (false, if s.next_note ≠ 255 then { s with next_note := (s.next_note + 244) % 256 } else s)
  else if c = '\'' then
    some (false, if s.next_note ≠ 255 then { s with next_note := (s.next_note + 12) % 256 } else s)
  else if c = '_' then
    play_or_break s (fun s1 => some { s1 with accidental_shift := to_i8 (s1.accidental_shift - 1) })
  else if c = '^' then
    play_or_break s (fun s1 => some { s1 with accidental_shift := to_i8 (s1.accidental_shift + 1) })
  else if c = '=' then
    play_or_break s (fun s1 => some { s1 with note_flags := s1.note_flags ||| natural })
  else if c = Char.ofNat 0 ∨ c = '%' then
    match read_next_line s.file s with
    | none => none
    | some s1 =>
      if s1.readlinebuffer.isNone then some (true, { s1 with abc_playing := ABC_FINISHING })
      else some (false, s1)
  else if c = ' ' ∨ c = '|' then
    play_or_break s (fun s1 => some s1)
  else if c = '[' then
    play_or_break s (fun s1 => some { s1 with note_flags := s1.note_flags ||| chord })
  else if c = ']' then
    play_or_break
      { s with note_flags := (if s.note_flags &&& chord ≠ 0 then s.note_flags &&& (255 ^^^ chord)
                              else s.note_flags),
               readline_index := (s.readline_index + 1) % 65536 }
      (fun s1 => some s1)
  else if c = 'z' ∨ c = 'x' then
    play_or_break s (fun s1 => some { s1 with note_flags := s1.note_flags ||| rest })
  else if c = '-' then some (false, s)
  else play_or_break s (fun s1 => some s1)

/-- The scan loop `while(1)` of `abc_play`, run for at most `fuel` iterations. -/
def scan_loop : Nat → State → Option State
  | 0, _ => none
  | fuel + 1, s =>
    match scan_char s with
    | none => none
    | some (true, s1) => some s1
    | some (false, s1) =>
      scan_loop fuel { s1 with readline_index := (s1.readline_index + 1) % 65536 }

/-- The initialisation of the temporary variables at the start of a scan pass. -/
def scan_init (s : State) : State :=
  { s with time_until_next_note := 255, note_flags := 0, accidental_shift := 0,
           numstring := s.numstring.set 0 (Char.ofNat 0), length := s.default_note_length,
           next_note := 255, number_mode := 0 }

/-- One beat-tick: the body of `if(bpmCounter>bpmLimit)` in `abc_play`, with at
most `fuel` iterations of the scan loop. -/
def beat_tick (fuel : Nat) (s : State) : Option State :=
  match countdown { s with beat := s.beat + 1 } with
  | none => none
  | some s1 =>
    let s2 : Option State :=
      if s1.abc_playing = ABC_PLAYING ∧ s1.time_until_next_note = 0 then
        scan_loop fuel (scan_init s1)
      else some { s1 with time_until_next_note := (s1.time_until_next_note + 65535) % 65536 }
    match s2 with
    | none => none
    | some s3 => some { s3 with bpmCounter := 0 }

/-- The entry of `abc_play`: `pwm_init(); abc_playing = ABC_PLAYING;`. -/
def abc_play_start (s : State) : State :=
  { s with hw := pwm_init s.hw, abc_playing := ABC_PLAYING }

/-- The loop `while(abc_playing)` of `abc_play`, one beat-tick per iteration
that finds `bpmCounter>bpmLimit`, for at most `ticks` beat-ticks. -/
def abc_play_loop (fuel : Nat) : Nat → State → Option State
  | 0, s => if s.abc_playing = 0 then some s else none
  | ticks + 1, s =>
    if s.abc_playing = 0 then some s
    else
      match beat_tick fuel s with
      | none => none
      | some s1 => abc_play_loop fuel ticks s1

/-- Function `abc_play` with bounds on the scan iterations per pass and on the
number of beat-ticks. -/
def abc_play (fuel ticks : Nat) (s : State) : Option State :=
  abc_play_loop fuel ticks (abc_play_start s)

/-- The globals as initialised by the C program, with the given line in the
line buffer and the given lines left in the file. -/
def initial_state (line : List Char) (file : List (List Char)) : State :=
  { hw := { pool := empty_pool, pwm_in_use := 0, tick_scaler := 0, OCR1A := 0, OCR3A := 0 },
    bpmCounter := 0, bpmLimit := 1708, next_note := 0, length := 0,
    time_until_next_note := 0, accidental_shift := 0,
    numstring := List.replicate 16 (Char.ofNat 0), number_mode := 0,
    abc_playing := ABC_STOPPED, note_flags := 0, default_note_length := 8,
    key_signature := [A4, B4, C4, D4, E4, F4, G4],
    readlinebuffer := some line, readline_index := 0, file := file,
    beat := 0, played := [] }

/-! ## Operation sequences on the pool -/

/-- An operation on the channel pool: a call of `channel_play`, a call of
`channel_stop`, or one run of the countdown loop of a beat-tick. -/
inductive PoolOp where
  | play (note duration : Nat)
  | stop (channel : Nat)
  | tick
deriving DecidableEq, Repr

/-- The operations the occupancy invariant is stated for: pitches that index
the note table and slots inside the array. -/
def PoolOp.admissible : PoolOp → Prop
  | .play note _ => note ≤ 87
  | .stop channel => channel ≤ 2
  | .tick => True

/-- Run one pool operation on the globals. -/
def apply_op (s : State) : PoolOp → Option State
  | .play note duration =>
    match channel_play s.hw.pool note duration with
    | none => none
    | some q => some { s with hw := { s.hw with pool := q } }
  | .stop channel =>
    match channel_stop s.hw.pool channel with
    | none => none
    | some q => some { s with hw := { s.hw with pool := q } }
  | .tick => countdown s

/-- Run a sequence of pool operations, first to last. -/
def apply_ops : List PoolOp → State → Option State
  | [], s => some s
  | op :: ops, s =>
    match apply_op s op with
    | none => none
    | some s1 => apply_ops ops s1

/-! ## Decimal numerals, for stating results on duration strings -/

/-- The string that writes the digits `ds`, most significant first. -/
def digit_string (ds : List Nat) : List Char := ds.map Nat.digitChar

/-- The number written by the decimal digits `ds`, most significant first. -/
def digit_value (ds : List Nat) : Nat := Nat.ofDigits 10 ds.reverse

/-- A numeral of one to three decimal digits. -/
def short_numeral (ds : List Nat) : Prop :=
  (∀ d ∈ ds, d < 10) ∧ 1 ≤ ds.length ∧ ds.length ≤ 3

/-! ## Key names, for stating results on key signatures -/

/-- The sharp keys in the order of the circle of fifths. -/
def sharp_keys : List String := ["G", "D", "A", "E", "B", "F#", "C#"]

/-- The flat keys in the order of the circle of fifths. -/
def flat_keys : List String := ["F", "Bb", "Eb", "Ab", "Db", "Gb", "Cb"]

/-- The order in which sharps are added to a key signature. -/
def sharp_order : List Char := ['F', 'C', 'G', 'D', 'A', 'E', 'B']

/-- The order in which flats are added to a key signature. -/
def flat_order : List Char := ['B', 'E', 'A', 'D', 'G', 'C', 'F']

/-- The reference scale with the pitch of each of the given letters moved by
`delta` semitones, indexed A, B, C, D, E, F, G. -/
def shifted_scale (delta : Int) (letters : List Char) : List Nat :=
  (List.range 7).map (fun i =>
    if Char.ofNat (65 + i) ∈ letters then ((C_MAJOR.getD i 0 : Int) + delta).toNat
    else C_MAJOR.getD i 0)

/-- A C string: no terminator among its characters. -/
def is_cstring (str : List Char) : Prop := ∀ c ∈ str, c ≠ Char.ofNat 0

/-- The string has a letter `A` .. `G` at an index below `bound`. -/
def has_key_letter_before (bound : Nat) (str : List Char) : Prop :=
  ∃ i, i < bound ∧ i < str.length ∧ 'A' ≤ char_at str i ∧ char_at str i ≤ 'G'

/-- A key string of 256 blanks followed by the letter G. -/
def long_junk_key : List Char := List.replicate 256 ' ' ++ ['G']

/-- A state of the interrupt-visible globals on a mixing pass (`pwm_in_use`
set, `tick_scaler` 0) with the given three channels and duty cycle 77. -/
def mixing_wave (c0 c1 c2 : Channel) (occ : Nat) : Wave :=
  { pool := { ch0 := c0, ch1 := c1, ch2 := c2, occupied_channels := occ },
    pwm_in_use := 1, tick_scaler := 0, OCR1A := 77, OCR3A := 77 }

/-! ## File loading and harnesses for the sequencer claims -/

/-- One iteration of the initialisation loop at the head of `abc_load_file`. -/
def init_channel (i : Nat) (p : Pool) : Option Pool :=
  p.setChan i { note := OFF, wave := SINE, time_until_release := 0, tick := 0 }

/-- The head of `abc_load_file`, before the file is opened: the loop
`for(i=0;i<CHANNELS;i++)` over the four fields of each channel, then
`time_until_next_note=0`. -/
def abc_load_init (s : State) : Option State :=
  match init_channel 0 s.hw.pool with
  | none => none
  | some q0 =>
    match init_channel 1 q0 with
    | none => none
    | some q1 =>
      match init_channel 2 q1 with
      | none => none
      | some q2 => some { s with hw := { s.hw with pool := q2 }, time_until_next_note := 0 }

/-- The countdown loop of `n` successive beat-ticks, with no allocation in
between. -/
def countdown_n : Nat → State → Option State
  | 0, s => some s
  | n + 1, s =>
    match countdown s with
    | none => none
    | some s1 => countdown_n n s1

/-- The one-sided occupancy invariant: a slot whose note is not off has its
bit set, and no bit above bit 2 is set. -/
def Pool.marked (p : Pool) : Prop :=
  (p.ch0.note ≠ OFF → mask_bit p.occupied_channels 0 = true) ∧
  (p.ch1.note ≠ OFF → mask_bit p.occupied_channels 1 = true) ∧
  (p.ch2.note ≠ OFF → mask_bit p.occupied_channels 2 = true) ∧
  p.occupied_channels < 8

/-- Commit the members of a chord one after the other: before each call of
`playNoteIfAvailable` the pending pitch and the pending length are set to the
values the scan has read for that member. -/
def commit_members : List (Nat × Nat) → State → Option State
  | [], s => some s
  | (pitch, len) :: more, s =>
    match playNoteIfAvailable { s with next_note := pitch, length := len } with
    | none => none
    | some (_, s1) => commit_members more s1

/-- The globals at the start of playback (`initial_state` after `pwm_init` and
`abc_playing = ABC_PLAYING`) with the given line in the buffer. -/
def playing_state (line : List Char) (file : List (List Char)) : State :=
  abc_play_start (initial_state line file)

/-- A pool in which three voices sound and all three occupancy bits are set. -/
def full_pool : Pool :=
  { ch0 := ⟨48, 1, 8, 100⟩, ch1 := ⟨50, 2, 16, 200⟩, ch2 := ⟨39, 3, 4, 300⟩,
    occupied_channels := 7 }

/-- The bytes at `tagstring` when the line "I:lf-wave:" has been read, without
a newline, into a buffer whose earlier content had the digits 0 and 3 at the
two positions behind the new terminator. -/
def stale_tag : List Char := lf_wave ++ [Char.ofNat 0, '0', '3']

/-- The globals during a scan pass when a rest has been read and no pitch is
pending: `z` seen, default length 8, empty pool. -/
def rest_pending_state : State :=
  { scan_init (playing_state "z ".toList []) with note_flags := rest, readline_index := 1 }

/-- The globals during a scan pass when the note A4 has been read and awaits
its commit. -/
def note_pending_state : State :=
  { scan_init (playing_state "A ".toList []) with next_note := A4, readline_index := 1 }

/-- The globals during playback right after `channel_play(A4, d)` on the empty
pool. -/
def allocated_state (d : Nat) : State :=
  { playing_state [] [] with
    hw := { (playing_state [] []).hw with pool := (channel_play empty_pool A4 d).getD empty_pool } }

/-- The globals during a scan pass inside a chord when the member C4 with
length 16 has been read and awaits its commit ("[C2" read, default length 8). -/
def chord_member_state : State :=
  { scan_init (playing_state "[C2E]".toList []) with
    next_note := C4, length := 16, note_flags := chord, readline_index := 3 }

/-- The globals during a scan pass over "A B2 " when the numeral run "2" that
started at index 3 is complete and the blank at index 4 is the current
character. -/
def numeral_done_state : State :=
  { scan_init (playing_state "A B2 ".toList []) with
    next_note := B4, numstring := '2' :: List.replicate 15 (Char.ofNat 0), number_mode := 3,
    readline_index := 4 }

/-- The pending length and the default note length both fit 16 bits. -/
def State.lengths_16bit (s : State) : Prop :=
  s.length < 65536 ∧ s.default_note_length < 65536

/-! ## End of playback -/

/-- The beat-ticks an occupied slot has left: `time_until_release` of a channel
that holds a note, 0 for a channel that is off. -/
def Channel.remaining (c : Channel) : Nat :=
  if c.note ≠ OFF then c.time_until_release else 0

/-- The largest `time_until_release` among the occupied slots of the pool, 0
when no slot is occupied. -/
def Pool.max_remaining (p : Pool) : Nat :=
  max p.ch0.remaining (max p.ch1.remaining p.ch2.remaining)

/-- The channel after the if/else of the countdown loop: released when its
count is 0, decremented otherwise. -/
def Channel.counted (c : Channel) : Channel :=
  if c.time_until_release = 0 then { c with note := OFF }
  else { c with time_until_release := c.time_until_release - 1 }

/-- The state after at most `n` iterations of the loop `while(abc_playing)` of
`abc_play` that find `bpmCounter>bpmLimit`: the loop as in `abc_play_loop`,
with the state reached returned when the `n` beat-ticks are used up. -/
def abc_play_steps (fuel : Nat) : Nat → State → Option State
  | 0, s => some s
  | n + 1, s =>
    if s.abc_playing = 0 then some s
    else
      match beat_tick fuel s with
      | none => none
      | some s1 => abc_play_steps fuel n s1

/-- The globals after the last line of a song has been read while the notes
A4 (3 beat-ticks left) and C4 (5 beat-ticks left) still sound in slots 0 and
1: state `ABC_FINISHING`. -/
def finishing_state : State :=
  { playing_state [] [] with
    abc_playing := ABC_FINISHING,
    hw := { (playing_state [] []).hw with
            pool := { ch0 := ⟨48, 0, 3, 0⟩, ch1 := ⟨39, 0, 5, 0⟩, ch2 := silent_channel,
                      occupied_channels := 3 } } }

/-! ## Phase advance -/

/-- The channel after the phase advance of a mixing pass, in the words of the
specification: a channel that holds a note has its phase moved on by the step
of its pitch, modulo 512; a channel that is off is left as it is. -/
def Channel.advanced (c : Channel) : Channel :=
  if c.note ≠ OFF then { c with tick := (c.tick + note_step.getD c.note 0) % 512 } else c

/-! ## Long notes -/

/-- The globals during a scan pass over "A32 " when the note A4 with the
length 256 (the run "32" at default note length 8) awaits its commit at the
blank. -/
def long_note_state : State :=
  { scan_init (playing_state "A32 ".toList []) with
    next_note := A4, length := 256, readline_index := 3 }

/-! ## Numeral runs -/

/-- The state after at most `n` iterations of the scan loop `while(1)` of
`abc_play`: the loop as in `scan_loop`, with the state reached returned when
the `n` iterations are used up. -/
def scan_steps : Nat → State → Option State
  | 0, s => some s
  | n + 1, s =>
    match scan_char s with
    | none => none
    | some (true, s1) => some s1
    | some (false, s1) =>
      scan_steps n { s1 with readline_index := (s1.readline_index + 1) % 65536 }

/-! ## Theorems -/

/-- The guard of `channel_play` holds for every mask. -/
theorem not_occupied_guard_true (occ : Nat) : not_occupied_guard occ = true := by
  simp only [not_occupied_guard, decide_eq_true_eq]
  omega

/-- The index computed by `channel_play` is inside the array. -/
theorem free_channel_le (occ : Nat) : free_channel occ ≤ 2 := by
  unfold free_channel
  have h1 : occ &&& 1 ≤ 1 := Nat.and_le_right
  have h3 : occ &&& 3 ≤ 3 := Nat.and_le_right
  have h4 : (occ &&& 3) / 3 ≤ 1 := by omega
  calc (occ &&& 1) * (1 + (occ &&& 3) / 3) ≤ 1 * (1 + 1) := Nat.mul_le_mul h1 (by omega)
    _ = 2 := by norm_num

/-- The three possible values of the index. -/
theorem free_channel_cases (occ : Nat) :
    free_channel occ = 0 ∨ free_channel occ = 1 ∨ free_channel occ = 2 := by
  have := free_channel_le occ
  omega

/-- On the eight masks the index expression is the policy slot. -/
theorem free_channel_eq_policy : ∀ occ < 8, free_channel occ = policy_slot occ := by decide

/-- C1: for each of the eight occupancy masks the index expression of
`channel_play` equals the slot of the allocation policy (the lowest-numbered
slot whose bit is clear, slot 2 when all three bits are set), and
`channel_play` stores the pitch, the duration and phase 0 in that slot. -/
theorem channel_play_allocates_policy_slot (p : Pool) (note duration : Nat)
    (h : p.occupied_channels < 8) :
    free_channel p.occupied_channels = policy_slot p.occupied_channels ∧
    ∃ q, channel_play p note duration = some q ∧
      (q.getChan (policy_slot p.occupied_channels)).map
        (fun c => (c.note, c.time_until_release, c.tick)) = some (note % 256, duration % 256, 0) := by
  have hp := free_channel_eq_policy p.occupied_channels h
  refine ⟨hp, ?_⟩
  rw [← hp]
  rcases free_channel_cases p.occupied_channels with h0 | h0 | h0 <;>
    simp [channel_play, not_occupied_guard_true, h0, Pool.getChan, Pool.setChan]

/-- Witness for C1: with all three slots occupied (mask 7) the note goes to
slot 2. -/
theorem channel_play_allocates_policy_slot_witness :
    (7 : Nat) < 8 ∧ free_channel 7 = 2 ∧ policy_slot 7 = 2 ∧
    ∃ q, channel_play { ch0 := ⟨48, 0, 3, 17⟩, ch1 := ⟨50, 1, 2, 9⟩, ch2 := ⟨39, 2, 1, 5⟩,
                        occupied_channels := 7 } 43 8 = some q ∧
      (q.getChan 2).map (fun c => (c.note, c.time_until_release, c.tick)) = some (43, 8, 0) :=
  ⟨by decide, by decide, by decide,
   (channel_play_allocates_policy_slot
      { ch0 := ⟨48, 0, 3, 17⟩, ch1 := ⟨50, 1, 2, 9⟩, ch2 := ⟨39, 2, 1, 5⟩,
        occupied_channels := 7 } 43 8 (by decide)).2⟩

/-- Bits of the mask after the `|=` of `channel_play`, for the eight masks. -/
theorem play_mask_bits : ∀ occ < 8, ∀ i < 3,
    mask_bit ((occ ||| (1 <<< free_channel occ)) % 256) i
      = (mask_bit occ i || decide (i = free_channel occ)) := by decide

/-- The mask stays below 8 under the `|=` of `channel_play`. -/
theorem play_mask_lt : ∀ occ < 8, (occ ||| (1 <<< free_channel occ)) % 256 < 8 := by decide

/-- Bits of the mask after `&= ~(1 << i)`, for the eight masks and three slots. -/
theorem clear_bit_bits : ∀ occ < 8, ∀ i < 3, ∀ j < 3,
    mask_bit (clear_bit occ i) j = (mask_bit occ j && decide (j ≠ i)) := by decide

/-- The mask stays below 8 under `&= ~(1 << i)`. -/
theorem clear_bit_lt : ∀ occ < 8, ∀ i < 3, clear_bit occ i < 8 := by decide

/-- `channel_play` with a pitch of the note table keeps the occupancy invariant. -/
theorem channel_play_consistent (p : Pool) (note duration : Nat)
    (hc : p.consistent) (hn : note ≤ 87) :
    ∃ q, channel_play p note duration = some q ∧ q.consistent := by
  obtain ⟨c0, c1, c2, occ⟩ := p
  obtain ⟨h0, h1, h2, hlt⟩ := hc
  simp only at h0 h1 h2 hlt
  have hb := play_mask_bits occ hlt
  have hl := play_mask_lt occ hlt
  have hnote : note % 256 ≠ OFF := by
    rw [Nat.mod_eq_of_lt (by omega)]; unfold OFF; omega
  rcases free_channel_cases occ with hf | hf | hf <;>
    simp [channel_play, not_occupied_guard_true, hf, Pool.getChan, Pool.setChan,
      Pool.consistent] <;>
    rw [hf] at hb hl <;>
    simp_all [hb 0, hb 1, hb 2]

/-- `channel_stop` on a slot of the array keeps the occupancy invariant. -/
theorem channel_stop_consistent (p : Pool) (channel : Nat)
    (hc : p.consistent) (hn : channel ≤ 2) :
    ∃ q, channel_stop p channel = some q ∧ q.consistent := by
  obtain ⟨c0, c1, c2, occ⟩ := p
  obtain ⟨h0, h1, h2, hlt⟩ := hc
  simp only at h0 h1 h2 hlt
  have hb := clear_bit_bits occ hlt
  have hl := clear_bit_lt occ hlt
  interval_cases channel <;>
    simp [channel_stop, Pool.getChan, Pool.setChan, Pool.consistent] <;>
    simp_all [hb 0, hb 1, hb 2, hl 0, hl 1, hl 2]

/-- `abc_stop` leaves the pool alone. -/
theorem abc_stop_pool (s : State) : (abc_stop s).hw.pool = s.hw.pool := by
  unfold abc_stop pwm_stop
  split <;> rfl

/-- The if/else of the countdown loop keeps the occupancy invariant. -/
theorem countdown_pool_consistent (i : Nat) (p : Pool)
    (hc : p.consistent) (hi : i ≤ 2) :
    ∃ q, countdown_pool i p = some q ∧ q.consistent := by
  obtain ⟨c0, c1, c2, occ⟩ := p
  obtain ⟨h0, h1, h2, hlt⟩ := hc
  simp only at h0 h1 h2 hlt
  have hb := clear_bit_bits occ hlt
  have hl := clear_bit_lt occ hlt
  interval_cases i <;>
    simp only [countdown_pool, Pool.getChan, Pool.setChan] <;>
    split_ifs <;>
    refine ⟨_, rfl, ?_⟩ <;>
    simp_all [Pool.consistent, hb 0, hb 1, hb 2, hl 0, hl 1, hl 2]

/-- One iteration of the countdown loop keeps the occupancy invariant. -/
theorem countdown_slot_consistent (i : Nat) (s : State)
    (hc : s.hw.pool.consistent) (hi : i ≤ 2) :
    ∃ s1, countdown_slot i s = some s1 ∧ s1.hw.pool.consistent := by
  obtain ⟨q, hq, hqc⟩ := countdown_pool_consistent i s.hw.pool hc hi
  simp only [countdown_slot, hq]
  split_ifs
  · exact ⟨_, rfl, by rw [abc_stop_pool]; exact hqc⟩
  · exact ⟨_, rfl, hqc⟩

/-- The countdown loop keeps the occupancy invariant. -/
theorem countdown_consistent (s : State) (hc : s.hw.pool.consistent) :
    ∃ s1, countdown s = some s1 ∧ s1.hw.pool.consistent := by
  obtain ⟨a, ha, hca⟩ := countdown_slot_consistent 0 s hc (by omega)
  obtain ⟨b, hb, hcb⟩ := countdown_slot_consistent 1 a hca (by omega)
  obtain ⟨c, hcc, hccc⟩ := countdown_slot_consistent 2 b hcb (by omega)
  exact ⟨c, by simp [countdown, ha, hb, hcc], hccc⟩

/-- Every admissible pool operation keeps the occupancy invariant. -/
theorem apply_op_consistent (s : State) (op : PoolOp)
    (hc : s.hw.pool.consistent) (ha : op.admissible) :
    ∃ s1, apply_op s op = some s1 ∧ s1.hw.pool.consistent := by
  cases op with
  | play note duration =>
    obtain ⟨q, hq, hqc⟩ := channel_play_consistent s.hw.pool note duration hc ha
    simp only [apply_op, hq]
    exact ⟨_, rfl, hqc⟩
  | stop channel =>
    obtain ⟨q, hq, hqc⟩ := channel_stop_consistent s.hw.pool channel hc ha
    simp only [apply_op, hq]
    exact ⟨_, rfl, hqc⟩
  | tick => exact countdown_consistent s hc

/-- Every sequence of admissible pool operations keeps the occupancy invariant. -/
theorem apply_ops_consistent (ops : List PoolOp) (s : State)
    (hc : s.hw.pool.consistent) (ha : ∀ op ∈ ops, op.admissible) :
    ∃ s1, apply_ops ops s = some s1 ∧ s1.hw.pool.consistent := by
  induction ops generalizing s with
  | nil => exact ⟨s, rfl, hc⟩
  | cons op ops ih =>
    obtain ⟨s1, h1, hc1⟩ := apply_op_consistent s op hc (ha op (List.mem_cons_self _ _))
    obtain ⟨s2, h2, hc2⟩ := ih s1 hc1 (fun o ho => ha o (List.mem_cons_of_mem _ ho))
    exact ⟨s2, by simp only [apply_ops, h1]; exact h2, hc2⟩

/-- The empty pool satisfies the occupancy invariant. -/
theorem empty_pool_consistent : empty_pool.consistent := by
  simp [Pool.consistent, empty_pool, silent_channel, mask_bit]

/-- C2: starting from the pool with all three slots off and an empty mask,
every sequence of `channel_play` (pitch 0..87, any duration), `channel_stop`
(slot 0..2) and countdown steps runs to completion and ends in a pool where
bit `i` of `occupied_channels` is set exactly when `channels[i].note != 0xFF`,
for `i` = 0, 1, 2, with no bit above bit 2 set. -/
theorem occupancy_invariant (s : State) (ops : List PoolOp)
    (h0 : s.hw.pool = empty_pool) (ha : ∀ op ∈ ops, op.admissible) :
    ∃ s1, apply_ops ops s = some s1 ∧
      (s1.hw.pool.occupied_channels.testBit 0 = true ↔ s1.hw.pool.ch0.note ≠ 255) ∧
      (s1.hw.pool.occupied_channels.testBit 1 = true ↔ s1.hw.pool.ch1.note ≠ 255) ∧
      (s1.hw.pool.occupied_channels.testBit 2 = true ↔ s1.hw.pool.ch2.note ≠ 255) ∧
      s1.hw.pool.occupied_channels < 8 := by
  have hc : s.hw.pool.consistent := by rw [h0]; exact empty_pool_consistent
  exact apply_ops_consistent ops s hc ha

/-- Witness for C2: a sequence of nine operations from the initial globals. -/
theorem occupancy_invariant_witness :
    (initial_state [] []).hw.pool = empty_pool ∧
    (∀ op ∈ [PoolOp.play 48 8, PoolOp.play 50 16, PoolOp.tick, PoolOp.stop 0, PoolOp.play 87 255,
             PoolOp.play 0 1, PoolOp.play 39 3, PoolOp.tick, PoolOp.tick], op.admissible) ∧
    ∃ s1, apply_ops [PoolOp.play 48 8, PoolOp.play 50 16, PoolOp.tick, PoolOp.stop 0,
                     PoolOp.play 87 255, PoolOp.play 0 1, PoolOp.play 39 3, PoolOp.tick,
                     PoolOp.tick] (initial_state [] []) = some s1 ∧
      (s1.hw.pool.occupied_channels.testBit 0 = true ↔ s1.hw.pool.ch0.note ≠ 255) ∧
      (s1.hw.pool.occupied_channels.testBit 1 = true ↔ s1.hw.pool.ch1.note ≠ 255) ∧
      (s1.hw.pool.occupied_channels.testBit 2 = true ↔ s1.hw.pool.ch2.note ≠ 255) ∧
      s1.hw.pool.occupied_channels < 8 :=
  have ha : ∀ op ∈ [PoolOp.play 48 8, PoolOp.play 50 16, PoolOp.tick, PoolOp.stop 0,
      PoolOp.play 87 255, PoolOp.play 0 1, PoolOp.play 39 3, PoolOp.tick, PoolOp.tick],
      op.admissible := by
    simp [PoolOp.admissible]
  ⟨rfl, ha, occupancy_invariant (initial_state [] []) _ rfl ha⟩

/-- What the parser tests on a digit character, for the ten digits. -/
theorem digit_char_facts : ∀ d < 10,
    is_digit (Nat.digitChar d) = true ∧ (Nat.digitChar d).toNat - 48 = d ∧
    Nat.digitChar d ≠ '/' ∧ Nat.digitChar d ≠ Char.ofNat 0 ∧
    is_space (Nat.digitChar d) = false ∧ Nat.digitChar d ≠ '-' ∧ Nat.digitChar d ≠ '+' := by
  decide

/-- The digit accumulation of `atoi` on a digit string is the left fold. -/
theorem atoi_digits_digit_string (ds : List Nat) (h : ∀ d ∈ ds, d < 10) (acc : Nat) :
    atoi_digits acc (digit_string ds) = ds.foldl (fun a d => 10 * a + d) acc := by
  induction ds generalizing acc with
  | nil => rfl
  | cons d ds ih =>
    have hd := digit_char_facts d (h d (List.mem_cons_self _ _))
    simp only [digit_string, List.map_cons, atoi_digits, hd.1, if_true, hd.2.1, List.foldl_cons]
    exact ih (fun x hx => h x (List.mem_cons_of_mem _ hx)) _

/-- The left fold over digits in terms of the decimal value. -/
theorem foldl_digits_eq (ds : List Nat) (acc : Nat) :
    ds.foldl (fun a d => 10 * a + d) acc = acc * 10 ^ ds.length + digit_value ds := by
  induction ds generalizing acc with
  | nil => simp [digit_value]
  | cons d ds ih =>
    rw [List.foldl_cons, ih, digit_value, digit_value, List.reverse_cons, Nat.ofDigits_append,
      List.length_reverse, List.length_cons, Nat.ofDigits_singleton]
    ring

/-- `atoi` of a digit string is its decimal value. -/
theorem atoi_digit_string (ds : List Nat) (h : ∀ d ∈ ds, d < 10) :
    atoi (digit_string ds) = (digit_value ds : Int) := by
  cases ds with
  | nil => simp [atoi, digit_string, skip_space, atoi_digits, digit_value]
  | cons d ds =>
    have hd := digit_char_facts d (h d (List.mem_cons_self _ _))
    have hs : skip_space (digit_string (d :: ds)) = digit_string (d :: ds) := by
      simp [digit_string, skip_space, hd.2.2.2.2.1]
    have := atoi_digits_digit_string (d :: ds) h 0
    rw [foldl_digits_eq] at this
    unfold atoi
    rw [hs]
    simp only [digit_string, List.map_cons] at this ⊢
    split
    · rename_i heq; simp at heq; exact absurd heq.1 hd.2.2.2.2.2.1
    · rename_i heq; simp at heq; exact absurd heq.1 hd.2.2.2.2.2.2
    · rw [this]; simp


/-- A numeral of `k` digits is below `10^k`. -/
theorem digit_value_lt (ds : List Nat) (h : ∀ d ∈ ds, d < 10) :
    digit_value ds < 10 ^ ds.length := by
  have := Nat.ofDigits_lt_base_pow_length (b := 10) (l := ds.reverse) (by norm_num)
    (fun x hx => h x (List.mem_reverse.mp hx))
  simpa [digit_value] using this

/-- The loop of `string_to_note_length` over a concatenation. -/
theorem note_length_loop_append (a b : List Char) (st : NoteLen) :
    note_length_loop (a ++ b) st = (note_length_loop a st).bind (note_length_loop b) := by
  induction a generalizing st with
  | nil => rfl
  | cons c cs ih =>
    simp only [List.cons_append, note_length_loop]
    cases note_length_step st c with
    | none => rfl
    | some st1 => exact ih st1

/-- The loop of `string_to_note_length` over a run of digits that fits the buffer. -/
theorem note_length_loop_digits (ds : List Nat) (h : ∀ d ∈ ds, d < 10) (st : NoteLen)
    (hlen : st.current_number_string.length + ds.length ≤ 4) (hne : ds ≠ []) :
    note_length_loop (digit_string ds) st
      = some { st with no_numbers_set := 0,
                       current_number_string := st.current_number_string ++ digit_string ds } := by
  induction ds generalizing st with
  | nil => exact absurd rfl hne
  | cons d ds ih =>
    have hd := digit_char_facts d (h d (List.mem_cons_self _ _))
    have hl : st.current_number_string.length < 4 := by
      simp only [List.length_cons] at hlen; omega
    simp only [digit_string, List.map_cons, note_length_loop, note_length_step, hd.2.2.1,
      if_false, hd.1, if_true, hl]
    by_cases hds : ds = []
    · subst hds; simp [note_length_loop]
    · have := ih (fun x hx => h x (List.mem_cons_of_mem _ hx))
        { st with no_numbers_set := 0,
                  current_number_string := st.current_number_string ++ [Nat.digitChar d] }
        (by simp only [List.length_append, List.length_cons, List.length_nil] at hlen ⊢; omega) hds
      simp only [digit_string] at this
      rw [this]
      simp

/-- A digit string holds no terminator. -/
theorem digit_string_no_nul (ds : List Nat) (h : ∀ d ∈ ds, d < 10) :
    ∀ c ∈ digit_string ds, c ≠ Char.ofNat 0 := by
  intro c hc
  simp only [digit_string, List.mem_map] at hc
  obtain ⟨d, hd, rfl⟩ := hc
  exact (digit_char_facts d (h d hd)).2.2.2.1

/-- A string without terminator is read to its end. -/
theorem takeWhile_no_nul (str : List Char) (h : ∀ c ∈ str, c ≠ Char.ofNat 0) :
    str.takeWhile (fun c => c ≠ Char.ofNat 0) = str := by
  rw [List.takeWhile_eq_self_iff]
  intro c hc
  simpa using h c hc

/-- C3: `string_to_note_length` computes numerator * 32 / denominator with
rounded-down division: a string of one to three digits writing `n` gives
`32*n`; a string "n/d" of two such numerals with `n >= 1` and `d >= 1` gives
`floor(32*n/d)`; and "/d" with `d >= 1` takes the numerator as 1 and gives
`floor(32/d)`. -/
theorem string_to_note_length_numeral (ns ds : List Nat)
    (hn : short_numeral ns) (hd : short_numeral ds) :
    string_to_note_length (digit_string ns) = some (32 * digit_value ns) ∧
    (1 ≤ digit_value ns → 1 ≤ digit_value ds →
      string_to_note_length (digit_string ns ++ '/' :: digit_string ds)
        = some (32 * digit_value ns / digit_value ds)) ∧
    (1 ≤ digit_value ds →
      string_to_note_length ('/' :: digit_string ds) = some (32 / digit_value ds)) := by
  obtain ⟨hn10, hn1, hn3⟩ := hn
  obtain ⟨hd10, hd1, hd3⟩ := hd
  have hnne : ns ≠ [] := by intro h; simp [h] at hn1
  have hdne : ds ≠ [] := by intro h; simp [h] at hd1
  have hnv : digit_value ns < 1000 :=
    lt_of_lt_of_le (digit_value_lt ns hn10) (by
      calc 10 ^ ns.length ≤ 10 ^ 3 := Nat.pow_le_pow_right (by norm_num) hn3
        _ = 1000 := by norm_num)
  have hdv : digit_value ds < 1000 :=
    lt_of_lt_of_le (digit_value_lt ds hd10) (by
      calc 10 ^ ds.length ≤ 10 ^ 3 := Nat.pow_le_pow_right (by norm_num) hd3
        _ = 1000 := by norm_num)
  have hnlen : (digit_string ns).length = ns.length := by simp [digit_string]
  have hdlen : (digit_string ds).length = ds.length := by simp [digit_string]
  have hu32 : ∀ v : Nat, v < 1000 → to_u32 (v : Int) = v := by
    intro v hv; unfold to_u32; omega
  refine ⟨?_, ?_, ?_⟩
  · unfold string_to_note_length note_length_operands
    rw [takeWhile_no_nul _ (digit_string_no_nul ns hn10)]
    have hl := note_length_loop_digits ns hn10
      { fraction := 0, no_numbers_set := 1, current_number_string := [], n := 1 }
      (by simp; omega) hnne
    simp only [hl, List.nil_append, hnlen, atoi_digit_string ns hn10, hu32 _ hnv]
    have h1 : ns.length < 256 := by omega
    have h2 : ns.length < 4 := by omega
    simp only [h1, h2, if_true, ne_eq, not_true_eq_false, if_false]
    simp only [one_ne_zero, if_false, Nat.div_one]
    congr 1
    omega
  · intro hn0 hd0
    unfold string_to_note_length note_length_operands
    have hnul : ∀ c ∈ digit_string ns ++ '/' :: digit_string ds, c ≠ Char.ofNat 0 := by
      intro c hc
      rcases List.mem_append.mp hc with h | h
      · exact digit_string_no_nul ns hn10 c h
      · rcases List.mem_cons.mp h with h | h
        · subst h; decide
        · exact digit_string_no_nul ds hd10 c h
    rw [takeWhile_no_nul _ hnul]
    dsimp only
    rw [note_length_loop_append]
    have hl := note_length_loop_digits ns hn10
      { fraction := 0, no_numbers_set := 1, current_number_string := [], n := 1 }
      (by simp; omega) hnne
    have h2 : ns.length < 4 := by omega
    have hn0' : digit_value ns ≠ 0 := by omega
    simp only [hl, Option.some_bind, note_length_loop, note_length_step, List.nil_append, hnlen,
      h2, if_true, atoi_digit_string ns hn10, hu32 _ hnv, hn0', if_false]
    have hl2 := note_length_loop_digits ds hd10
      { fraction := (0 + 1) % 256, no_numbers_set := 0, current_number_string := [],
        n := digit_value ns }
      (by simp; omega) hdne
    simp only [hl2, List.nil_append, hdlen, atoi_digit_string ds hd10, hu32 _ hdv]
    have h3 : (digit_string ns ++ '/' :: digit_string ds).length < 256 := by
      simp [hnlen, hdlen]; omega
    have h4 : ds.length < 4 := by omega
    have hd0' : digit_value ds ≠ 0 := by omega
    simp only [h3, h4, if_true]
    simp only [Nat.zero_add, Nat.one_mod, ne_eq, one_ne_zero, not_false_eq_true, if_true,
      not_true_eq_false, if_false, hd0']
    congr 1
    have hq : digit_value ns * 32 % 4294967296 / digit_value ds ≤ digit_value ns * 32 := by
      rw [Nat.mod_eq_of_lt (by omega)]
      exact Nat.div_le_self _ _
    rw [Nat.mod_eq_of_lt (by omega), Nat.mod_eq_of_lt (by omega), Nat.mul_comm]
  · intro hd0
    unfold string_to_note_length note_length_operands
    have hnul : ∀ c ∈ '/' :: digit_string ds, c ≠ Char.ofNat 0 := by
      intro c hc
      rcases List.mem_cons.mp hc with h | h
      · subst h; decide
      · exact digit_string_no_nul ds hd10 c h
    rw [takeWhile_no_nul _ hnul]
    have hl2 := note_length_loop_digits ds hd10
      { fraction := (0 + 1) % 256, no_numbers_set := 1, current_number_string := [],
        n := 1 }
      (by simp; omega) hdne
    have ha0 : atoi [] = 0 := by decide
    simp only [note_length_loop, note_length_step, List.length_nil, Nat.zero_lt_succ, if_true,
      ha0]
    have hz : to_u32 0 = 0 := by decide
    simp only [hz, if_true, hl2, List.nil_append, hdlen, atoi_digit_string ds hd10, hu32 _ hdv]
    have h3 : ('/' :: digit_string ds).length < 256 := by
      simp [hdlen]; omega
    have h4 : ds.length < 4 := by omega
    have hd0' : digit_value ds ≠ 0 := by omega
    simp only [h3, h4, if_true]
    simp only [Nat.zero_add, Nat.one_mod, ne_eq, one_ne_zero, not_false_eq_true, if_true,
      not_true_eq_false, if_false, hd0']
    congr 1
    have hq : 1 * 32 % 4294967296 / digit_value ds ≤ 32 := by
      norm_num
      exact Nat.div_le_self _ _
    rw [Nat.mod_eq_of_lt (by omega)]


/-- Witness for C3: "3" gives 96, "1/2" gives 16, "/2" gives 16. -/
theorem string_to_note_length_numeral_witness :
    short_numeral [3] ∧ short_numeral [1] ∧ short_numeral [2] ∧
    string_to_note_length "3".toList = some 96 ∧
    string_to_note_length "1/2".toList = some 16 ∧
    string_to_note_length "/2".toList = some 16 :=
  have h3 : short_numeral [3] := ⟨by decide, by decide, by decide⟩
  have h1 : short_numeral [1] := ⟨by decide, by decide, by decide⟩
  have h2 : short_numeral [2] := ⟨by decide, by decide, by decide⟩
  ⟨h3, h1, h2, (string_to_note_length_numeral [3] [2] h3 h2).1,
    (string_to_note_length_numeral [1] [2] h1 h2).2.1 (by decide) (by decide),
    (string_to_note_length_numeral [1] [2] h1 h2).2.2 (by decide)⟩

/-- C9: a string of `k` slashes and no digit, `1 <= k <= 14`, gives
`floor(32 / 2^k)`, which is 0 from six slashes on. -/
theorem string_to_note_length_slashes (k : Nat) (h1 : 1 ≤ k) (h14 : k ≤ 14) :
    string_to_note_length (List.replicate k '/') = some (32 / 2 ^ k) ∧
    (6 ≤ k → string_to_note_length (List.replicate k '/') = some 0) := by
  interval_cases k <;> exact ⟨by decide, by decide⟩

/-- Witness for C9: one to six slashes give 16, 8, 4, 2, 1, 0, and fourteen give 0. -/
theorem string_to_note_length_slashes_witness :
    string_to_note_length "/".toList = some 16 ∧
    string_to_note_length "//".toList = some 8 ∧
    string_to_note_length "///".toList = some 4 ∧
    string_to_note_length "////".toList = some 2 ∧
    string_to_note_length "/////".toList = some 1 ∧
    string_to_note_length "//////".toList = some 0 ∧
    string_to_note_length "//////////////".toList = some 0 :=
  ⟨(string_to_note_length_slashes 1 (by decide) (by decide)).1,
   (string_to_note_length_slashes 2 (by decide) (by decide)).1,
   (string_to_note_length_slashes 3 (by decide) (by decide)).1,
   (string_to_note_length_slashes 4 (by decide) (by decide)).1,
   (string_to_note_length_slashes 5 (by decide) (by decide)).1,
   (string_to_note_length_slashes 6 (by decide) (by decide)).2 (by decide),
   (string_to_note_length_slashes 14 (by decide) (by decide)).2 (by decide)⟩

/-- C10, evaluation at the failing input "3/": the denominator reaches the
division as 0, so `string_to_note_length` has no defined result, while "3"
gives 96. -/
theorem empty_denominator_is_zero :
    note_length_operands "3/".toList = some (3, 0) ∧
    string_to_note_length "3/".toList = none ∧
    string_to_note_length "3".toList = some 96 := by
  decide

/-- For every numeral `n >= 1` of one to three digits the string "n/" reaches
the division with denominator 0. -/
theorem empty_denominator_general (ns : List Nat) (hn : short_numeral ns)
    (h1 : 1 ≤ digit_value ns) :
    note_length_operands (digit_string ns ++ ['/']) = some (digit_value ns, 0) ∧
    string_to_note_length (digit_string ns ++ ['/']) = none := by
  obtain ⟨hn10, hn1, hn3⟩ := hn
  have hnne : ns ≠ [] := by intro h; simp [h] at hn1
  have hnv : digit_value ns < 1000 :=
    lt_of_lt_of_le (digit_value_lt ns hn10) (by
      calc 10 ^ ns.length ≤ 10 ^ 3 := Nat.pow_le_pow_right (by norm_num) hn3
        _ = 1000 := by norm_num)
  have hnlen : (digit_string ns).length = ns.length := by simp [digit_string]
  have hu32 : to_u32 (digit_value ns : Int) = digit_value ns := by unfold to_u32; omega
  have hops : note_length_operands (digit_string ns ++ ['/']) = some (digit_value ns, 0) := by
    unfold note_length_operands
    have hnul : ∀ c ∈ digit_string ns ++ ['/'], c ≠ Char.ofNat 0 := by
      intro c hc
      rcases List.mem_append.mp hc with h | h
      · exact digit_string_no_nul ns hn10 c h
      · rcases List.mem_cons.mp h with h | h
        · subst h; decide
        · simp at h
    rw [takeWhile_no_nul _ hnul]
    dsimp only
    rw [note_length_loop_append]
    have hl := note_length_loop_digits ns hn10
      { fraction := 0, no_numbers_set := 1, current_number_string := [], n := 1 }
      (by simp; omega) hnne
    have h2 : ns.length < 4 := by omega
    have hn0 : digit_value ns ≠ 0 := by omega
    have h3 : (digit_string ns ++ ['/']).length < 256 := by simp [hnlen]; omega
    have ha0 : atoi [] = 0 := by decide
    have hz : to_u32 0 = 0 := by decide
    simp only [hl, Option.some_bind, note_length_loop, note_length_step, List.nil_append, hnlen,
      h2, if_true, atoi_digit_string ns hn10, hu32, hn0, if_false, h3, List.length_nil,
      Nat.zero_lt_succ, ha0, hz]
    simp
  exact ⟨hops, by simp [string_to_note_length, hops]⟩

/-- The reset loop of `changeKey` overwrites all seven entries. -/
theorem reset_key_of_length (ks : List Nat) (h : ks.length = 7) : reset_key ks = C_MAJOR := by
  match ks, h with
  | [a, b, c, d, e, f, g], _ => rfl

/-- After the skip loop the prior content of `key_signature` plays no part. -/
theorem apply_key_reference (key modifier : Char) (ks : List Nat) (h : ks.length = 7) :
    apply_key key modifier ks = apply_key key modifier C_MAJOR := by
  simp only [apply_key, reset_key_of_length ks h, reset_key_of_length C_MAJOR rfl]

/-- Once a key letter is found, `changeKey` does not depend on the prior table. -/
theorem changeKey_reference (str : List Char) (ks : List Nat) (j : Nat) (h : ks.length = 7)
    (hj : key_letter_index str 256 0 = some (some j)) :
    changeKey str ks = changeKey str C_MAJOR := by
  simp only [changeKey, hj, apply_key_reference _ _ ks h]

/-- C4: from any prior table, key "C" gives the reference scale `C_MAJOR`, key
"F" lowers B alone by one semitone, key "G" raises F alone by one semitone,
the sharp keys G, D, A, E, B, F#, C# raise exactly the first 1..7 letters of
the order F, C, G, D, A, E, B, and the flat keys F, Bb, Eb, Ab, Db, Gb, Cb
lower exactly the first 1..7 letters of the order B, E, A, D, G, C, F. -/
theorem changeKey_major_signatures (ks : List Nat) (h : ks.length = 7) :
    changeKey "C".toList ks = some C_MAJOR ∧
    changeKey "F".toList ks = some [A4, B4 - 1, C4, D4, E4, F4, G4] ∧
    changeKey "G".toList ks = some [A4, B4, C4, D4, E4, F4 + 1, G4] ∧
    (∀ k < 7, changeKey (sharp_keys.getD k "").toList ks
        = some (shifted_scale 1 (sharp_order.take (k + 1)))) ∧
    (∀ k < 7, changeKey (flat_keys.getD k "").toList ks
        = some (shifted_scale (-1) (flat_order.take (k + 1)))) := by
  refine ⟨?_, ?_, ?_, ?_, ?_⟩
  · rw [changeKey_reference _ ks 0 h (by decide)]; decide
  · rw [changeKey_reference _ ks 0 h (by decide)]; decide
  · rw [changeKey_reference _ ks 0 h (by decide)]; decide
  · intro k hk
    interval_cases k <;> rw [changeKey_reference _ ks 0 h (by decide)] <;> decide
  · intro k hk
    interval_cases k <;> rw [changeKey_reference _ ks 0 h (by decide)] <;> decide

/-- Witness for C4: the keys C, F, G, C# and Eb applied to an arbitrary table. -/
theorem changeKey_major_signatures_witness :
    [3, 1, 4, 1, 5, 9, 2].length = 7 ∧
    changeKey "C".toList [3, 1, 4, 1, 5, 9, 2] = some [48, 50, 39, 41, 43, 44, 46] ∧
    changeKey "F".toList [3, 1, 4, 1, 5, 9, 2] = some [48, 49, 39, 41, 43, 44, 46] ∧
    changeKey "G".toList [3, 1, 4, 1, 5, 9, 2] = some [48, 50, 39, 41, 43, 45, 46] ∧
    changeKey "C#".toList [3, 1, 4, 1, 5, 9, 2] = some [49, 51, 40, 42, 44, 45, 47] ∧
    changeKey "Eb".toList [3, 1, 4, 1, 5, 9, 2] = some [47, 49, 39, 41, 42, 44, 46] :=
  ⟨rfl, (changeKey_major_signatures [3, 1, 4, 1, 5, 9, 2] rfl).1,
    (changeKey_major_signatures [3, 1, 4, 1, 5, 9, 2] rfl).2.1,
    (changeKey_major_signatures [3, 1, 4, 1, 5, 9, 2] rfl).2.2.1,
    (changeKey_major_signatures [3, 1, 4, 1, 5, 9, 2] rfl).2.2.2.1 6 (by decide),
    (changeKey_major_signatures [3, 1, 4, 1, 5, 9, 2] rfl).2.2.2.2 2 (by decide)⟩


/-- A character between `A` and `G` is one of the seven letters. -/
theorem key_letter_cases (c : Char) (h1 : 'A' ≤ c) (h2 : c ≤ 'G') :
    c ∈ ['A', 'B', 'C', 'D', 'E', 'F', 'G'] := by
  have e : c = Char.ofNat c.toNat := (Char.ofNat_toNat c).symm
  have l1 : 65 ≤ c.toNat := h1
  have l2 : c.toNat ≤ 71 := h2
  generalize c.toNat = n at e l1 l2
  subst e
  interval_cases n <;> decide

/-- `apply_key` looks at the modifier only to tell `b`, `#` and anything else apart. -/
theorem apply_key_modifier_class (key modifier : Char) (ks : List Nat) :
    apply_key key modifier ks
      = apply_key key (if modifier = 'b' then 'b' else if modifier = '#' then '#' else ' ') ks := by
  by_cases hb : modifier = 'b'
  · simp [hb]
  · by_cases hs : modifier = '#'
    · simp [hs]
    · simp [apply_key, hb, hs]

/-- For each key letter and modifier class both loops of `changeKey` finish in range. -/
theorem apply_key_table : ∀ key ∈ ['A', 'B', 'C', 'D', 'E', 'F', 'G'], ∀ m ∈ ['b', '#', ' '],
    (apply_key key m C_MAJOR).map List.length = some 7 := by decide

/-- For a key letter `A` .. `G`, `apply_key` returns a table that depends on neither the prior table nor anything but key and modifier. -/
theorem apply_key_total (key modifier : Char) (ks : List Nat) (h7 : ks.length = 7)
    (h1 : 'A' ≤ key) (h2 : key ≤ 'G') :
    ∃ t, apply_key key modifier ks = some t ∧ t.length = 7 ∧
      ∀ ks1 : List Nat, ks1.length = 7 → apply_key key modifier ks1 = some t := by
  have hk := key_letter_cases key h1 h2
  have hm : (if modifier = 'b' then 'b' else if modifier = '#' then '#' else ' ')
      ∈ ['b', '#', ' '] := by
    split_ifs <;> simp
  have ht := apply_key_table key hk _ hm
  rw [← apply_key_modifier_class] at ht
  cases hr : apply_key key modifier C_MAJOR with
  | none => rw [hr] at ht; simp at ht
  | some t =>
    rw [hr] at ht
    refine ⟨t, ?_, by simpa using ht, ?_⟩
    · rw [apply_key_reference _ _ ks h7, hr]
    · intro ks1 h1
      rw [apply_key_reference _ _ ks1 h1, hr]


/-- A read inside the string yields one of its characters. -/
theorem char_at_mem (str : List Char) (i : Nat) (h : i < str.length) : char_at str i ∈ str := by
  unfold char_at
  rw [List.getD_eq_getElem _ _ h]
  exact List.getElem_mem h

/-- The skip loop walks from `j` to the first key letter `i` when `i` is below 256. -/
theorem key_letter_index_steps (str : List Char) (hs : is_cstring str) (i : Nat)
    (hi : i < 256) (hl : i < str.length) (h1 : 'A' ≤ char_at str i) (h2 : char_at str i ≤ 'G') :
    ∀ n j fuel, j + n = i → n < fuel →
      (∀ k, j ≤ k → k < i → ¬ ('A' ≤ char_at str k ∧ char_at str k ≤ 'G')) →
      key_letter_index str fuel j = some (some i) := by
  intro n
  induction n with
  | zero =>
    intro j fuel hj hf _
    obtain ⟨f, rfl⟩ : ∃ f, fuel = f + 1 := ⟨fuel - 1, by omega⟩
    have : j = i := by omega
    subst this
    have hc : ¬ (char_at str j < 'A' ∨ char_at str j > 'G') := by
      rintro (h | h)
      · exact absurd h1 (not_le.mpr h)
      · exact absurd h2 (not_le.mpr h)
    simp only [key_letter_index, hc, if_false]
  | succ n ih =>
    intro j fuel hj hf hmin
    obtain ⟨f, rfl⟩ : ∃ f, fuel = f + 1 := ⟨fuel - 1, by omega⟩
    have hnl := hmin j (le_refl _) (by omega)
    have hc : char_at str j < 'A' ∨ char_at str j > 'G' := by
      by_contra hcon
      push_neg at hcon
      exact hnl ⟨hcon.1, hcon.2⟩
    have hmod : (j + 1) % 256 = j + 1 := Nat.mod_eq_of_lt (by omega)
    have hnn : char_at str (j + 1) ≠ Char.ofNat 0 := hs _ (char_at_mem str (j + 1) (by omega))
    simp only [key_letter_index, hc, if_true, hmod, hnn, if_false]
    exact ih (j + 1) f (by omega) (by omega) (fun k hk1 hk2 => hmin k (by omega) hk2)

/-- The skip loop stops at a key letter when one stands among the first 256 characters. -/
theorem key_letter_index_found (str : List Char) (hs : is_cstring str)
    (h : has_key_letter_before 256 str) :
    ∃ j, key_letter_index str 256 0 = some (some j) ∧
      'A' ≤ char_at str j ∧ char_at str j ≤ 'G' := by
  classical
  have hex : ∃ i, i < 256 ∧ i < str.length ∧ 'A' ≤ char_at str i ∧ char_at str i ≤ 'G' := h
  obtain ⟨hi, hl, h1, h2⟩ := Nat.find_spec hex
  refine ⟨Nat.find hex, ?_, h1, h2⟩
  apply key_letter_index_steps str hs (Nat.find hex) hi hl h1 h2 (Nat.find hex) 0 256
    (by omega) hi
  intro k _ hk hcon
  exact Nat.find_min hex hk ⟨by omega, by omega, hcon.1, hcon.2⟩

/-- For such a key string `changeKey` returns a table fixed by the string alone. -/
theorem changeKey_total (str : List Char) (hs : is_cstring str)
    (h : has_key_letter_before 256 str) (ks : List Nat) (h7 : ks.length = 7) :
    ∃ t, changeKey str ks = some t ∧ t.length = 7 ∧
      ∀ ks1 : List Nat, ks1.length = 7 → changeKey str ks1 = some t := by
  obtain ⟨j, hj, h1, h2⟩ := key_letter_index_found str hs h
  obtain ⟨t, ht, hlen, hall⟩ := apply_key_total _ (char_at str (j + 1)) ks h7 h1 h2
  refine ⟨t, by simp only [changeKey, hj, ht], hlen, ?_⟩
  intro ks1 hk1
  simp only [changeKey, hj, hall ks1 hk1]

/-- Key strings within reach of the 8-bit index: when the first letter `A` ..
`G` stands among the first 256 characters, `changeKey` returns, for every
prior content of the seven-entry table, a table that depends only on the key
string; applying the same key twice gives the table of applying it once, and
applying `k2` after `k1` gives the table of applying `k2` alone. -/
theorem changeKey_rebuilds (k1 k2 : List Char) (ks : List Nat) (h7 : ks.length = 7)
    (hs1 : is_cstring k1) (hl1 : has_key_letter_before 256 k1)
    (hs2 : is_cstring k2) (hl2 : has_key_letter_before 256 k2) :
    ∃ t1 t2, changeKey k1 ks = some t1 ∧ changeKey k2 ks = some t2 ∧
      (∀ ks1 : List Nat, ks1.length = 7 → changeKey k1 ks1 = some t1) ∧
      changeKey k1 t1 = some t1 ∧
      changeKey k2 t1 = some t2 := by
  obtain ⟨t1, e1, len1, all1⟩ := changeKey_total k1 hs1 hl1 ks h7
  obtain ⟨t2, e2, _, all2⟩ := changeKey_total k2 hs2 hl2 ks h7
  exact ⟨t1, t2, e1, e2, all1, all1 t1 len1, all2 t1 len1⟩

/-- An instance of the rebuild: the keys " Bb" and "G" from the table of D major. -/
theorem changeKey_rebuilds_witness :
    ∃ t1 t2, changeKey " Bb\n".toList [48, 50, 40, 41, 43, 45, 46] = some t1 ∧
      changeKey "G".toList [48, 50, 40, 41, 43, 45, 46] = some t2 ∧
      (∀ ks1 : List Nat, ks1.length = 7 → changeKey " Bb\n".toList ks1 = some t1) ∧
      changeKey " Bb\n".toList t1 = some t1 ∧
      changeKey "G".toList t1 = some t2 :=
  changeKey_rebuilds " Bb\n".toList "G".toList [48, 50, 40, 41, 43, 45, 46] rfl
    (by unfold is_cstring; decide) ⟨1, by decide, by decide, by decide, by decide⟩
    (by unfold is_cstring; decide) ⟨0, by decide, by decide, by decide, by decide⟩

/-- On the key string of 256 blanks and a G the skip loop never stops, whatever
the number of tests allowed: the 8-bit index wraps from 255 to 0 before it
reaches the letter. -/
theorem long_junk_key_loops (fuel : Nat) :
    ∀ j, j < 256 → key_letter_index long_junk_key fuel j = none := by
  induction fuel with
  | zero => intro j _; rfl
  | succ f ih =>
    intro j hj
    have hc : ∀ k, k < 256 → char_at long_junk_key k = ' ' := by
      intro k hk
      have hlen : k < (List.replicate 256 ' ' ++ ['G']).length := by
        simp only [List.length_append, List.length_replicate, List.length_singleton]; omega
      have hlen2 : k < (List.replicate 256 ' ').length := by
        simp only [List.length_replicate]; exact hk
      unfold char_at long_junk_key
      rw [List.getD_eq_getElem _ _ hlen, List.getElem_append_left hlen2, List.getElem_replicate]
    have hm : (j + 1) % 256 < 256 := Nat.mod_lt _ (by norm_num)
    have hlt : (' ' : Char) < 'A' := by decide
    have hne : (' ' : Char) ≠ Char.ofNat 0 := by decide
    simp only [key_letter_index, hc j hj, hc _ hm, hlt, true_or, if_true, hne, if_false]
    exact ih _ hm

set_option maxRecDepth 100000 in
/-- C8, evaluation at the failing input: the key string of 256 blanks followed
by `G` is a C string of 257 characters (it fits the line buffer) and contains
a letter `A` .. `G`, yet the skip loop of `changeKey` has not stopped after
any number of tests, because the `uint8_t` index wraps from 255 to 0 before
it reaches the letter; so `changeKey` yields no table on it, neither on a
first nor on a second application, while the key "G" alone gives the
signature of G major from every table. -/
theorem changeKey_long_junk :
    is_cstring long_junk_key ∧ long_junk_key.length = 257 ∧
    (∃ c ∈ long_junk_key, 'A' ≤ c ∧ c ≤ 'G') ∧
    (255 + 1) % 256 = 0 ∧
    (∀ fuel, key_letter_index long_junk_key fuel 0 = none) ∧
    changeKey long_junk_key [48, 50, 39, 41, 43, 44, 46] = none ∧
    changeKey "G".toList [48, 50, 39, 41, 43, 44, 46] = some [48, 50, 39, 41, 43, 45, 46] ∧
    changeKey "G".toList [48, 50, 39, 41, 43, 45, 46] = some [48, 50, 39, 41, 43, 45, 46] := by
  refine ⟨?_, ?_, ⟨'G', ?_, by decide, by decide⟩, by decide, ?_, ?_, by decide, by decide⟩
  · intro c hc
    simp only [long_junk_key, List.mem_append, List.mem_replicate, List.mem_singleton] at hc
    rcases hc with ⟨_, rfl⟩ | rfl <;> decide
  · simp only [long_junk_key, List.length_append, List.length_replicate, List.length_singleton]
  · simp only [long_junk_key, List.mem_append, List.mem_singleton, or_true]
  · intro fuel
    exact long_junk_key_loops fuel 0 (by norm_num)
  · simp only [changeKey, long_junk_key_loops 256 0 (by norm_num)]


/-- Every pitch below 88 indexes `note_step`. -/
theorem note_step_defined (n : Nat) (h : n < 88) : (note_step[n]?).isSome = true := by
  have hl : note_step.length = 88 := rfl
  rw [List.getElem?_eq_getElem (by omega)]
  rfl

set_option maxRecDepth 10000 in
/-- Every index below 256 is inside `sine`. -/
theorem sine_defined (i : Nat) (h : i < 256) : (sine[i]?).isSome = true := by
  have hl : sine.length = 256 := rfl
  rw [List.getElem?_eq_getElem (by omega)]
  rfl

/-- The advanced phase of a channel with a pitch below 88 exists and is at most 511. -/
theorem advance_tick_defined (c : Channel) (h : c.note < 88) :
    ∃ t, advance_tick c = some t ∧ t ≤ 511 := by
  have hs := note_step_defined c.note h
  obtain ⟨step, hstep⟩ := Option.isSome_iff_exists.mp hs
  exact ⟨((c.tick + step) % 65536) &&& 511, by simp only [advance_tick, hstep], Nat.and_le_right⟩

/-- Every waveform has a sample at every phase up to 511. -/
theorem wave_sample_defined (wave t : Nat) (h : t ≤ 511) : ∃ smp, wave_sample wave t = some smp := by
  unfold wave_sample
  split_ifs
  · have hi : t >>> 1 < 256 := by rw [Nat.shiftRight_eq_div_pow]; omega
    exact Option.isSome_iff_exists.mp (sine_defined _ hi)
  all_goals exact ⟨_, rfl⟩

/-- A channel with a valid note is off, or has an advanced phase and a sample. -/
theorem channel_mix_cases (c : Channel) (hv : valid_note c.note) :
    c.note = OFF ∨ (c.note ≠ OFF ∧ ∃ t smp, advance_tick c = some t ∧
      wave_sample c.wave t = some smp ∧ channel_sample c = some smp) := by
  by_cases hon : c.note = OFF
  · exact Or.inl hon
  · have hlt : c.note < 88 := by
      rcases hv with h | h
      · exact absurd h hon
      · exact h
    obtain ⟨t, ht, hle⟩ := advance_tick_defined c hlt
    obtain ⟨smp, hsmp⟩ := wave_sample_defined c.wave t hle
    exact Or.inr ⟨hon, t, smp, ht, hsmp, by simp only [channel_sample, ht, hsmp]⟩

/-- C5: on a mixing pass (`pwm_in_use` set, `tick_scaler` 0, every note off or
an index of `note_step`) the interrupt routine returns, every sounding channel
contributes a sample, and the level written to `OCR1A` and `OCR3A` is the
rounded-down quotient of the sum of the samples of the sounding channels by
their number; when no channel sounds, both registers keep their value. -/
theorem mixing_pass_average (w : Wave) (hp : w.pwm_in_use ≠ 0) (hs : w.tick_scaler = 0)
    (hv : ∀ c ∈ w.pool.toList, valid_note c.note) :
    ∃ w1, TIMER1_OVF w = some w1 ∧
      (w.pool.sounding.filterMap channel_sample).length = w.pool.sounding.length ∧
      (w.pool.sounding = [] → w1.OCR1A = w.OCR1A ∧ w1.OCR3A = w.OCR3A) ∧
      (w.pool.sounding ≠ [] →
        w1.OCR1A = (w.pool.sounding.filterMap channel_sample).sum / w.pool.sounding.length ∧
        w1.OCR3A = (w.pool.sounding.filterMap channel_sample).sum / w.pool.sounding.length) := by
  obtain ⟨⟨c0, c1, c2, occ⟩, pwm, ts, o1, o3⟩ := w
  simp only at hp hs
  subst hs
  have hv0 : valid_note c0.note := hv c0 (by simp [Pool.toList])
  have hv1 : valid_note c1.note := hv c1 (by simp [Pool.toList])
  have hv2 : valid_note c2.note := hv c2 (by simp [Pool.toList])
  rcases channel_mix_cases c0 hv0 with h0 | ⟨h0, t0, s0, ht0, hw0, hs0⟩ <;>
  rcases channel_mix_cases c1 hv1 with h1 | ⟨h1, t1, s1, ht1, hw1, hs1⟩ <;>
  rcases channel_mix_cases c2 hv2 with h2 | ⟨h2, t2, s2, ht2, hw2, hs2⟩
  all_goals
    simp [TIMER1_OVF, mixing_pass, mix_channel, Pool.getChan, Pool.setChan, Pool.sounding,
      Pool.toList, hp, *]
  all_goals omega

/-- Witness for C5: one sounding channel gives its own sample 255, two give
`floor((255 + 67)/2)`, none leaves the level 77 in place. -/
theorem mixing_pass_average_witness :
    (∃ w1, TIMER1_OVF (mixing_wave ⟨48, SQUARE, 8, 300⟩ silent_channel silent_channel 1) = some w1 ∧
      channel_sample ⟨48, SQUARE, 8, 300⟩ = some 255 ∧ w1.OCR1A = 255 ∧ w1.OCR3A = 255) ∧
    (∃ w1, TIMER1_OVF (mixing_wave ⟨48, SQUARE, 8, 300⟩ silent_channel ⟨39, SAWTOOTH, 8, 100⟩ 5)
        = some w1 ∧
      channel_sample ⟨39, SAWTOOTH, 8, 100⟩ = some 67 ∧ w1.OCR1A = (255 + 67) / 2 ∧
      w1.OCR3A = (255 + 67) / 2) ∧
    (∃ w1, TIMER1_OVF (mixing_wave silent_channel silent_channel silent_channel 0) = some w1 ∧
      w1.OCR1A = 77 ∧ w1.OCR3A = 77) := by
  have hv : ∀ a b c : Channel, valid_note a.note → valid_note b.note → valid_note c.note →
      ∀ o, ∀ x ∈ (mixing_wave a b c o).pool.toList, valid_note x.note := by
    intro a b c ha hb hc o x hx
    simp only [mixing_wave, Pool.toList, List.mem_cons, List.mem_singleton, List.not_mem_nil,
      or_false] at hx
    rcases hx with rfl | rfl | rfl <;> assumption
  have hoff : valid_note silent_channel.note := Or.inl rfl
  have h48 : valid_note (48 : Nat) := Or.inr (by decide)
  have h39 : valid_note (39 : Nat) := Or.inr (by decide)
  refine ⟨?_, ?_, ?_⟩
  · obtain ⟨w1, h1, _, _, h4⟩ := mixing_pass_average
      (mixing_wave ⟨48, SQUARE, 8, 300⟩ silent_channel silent_channel 1) (by decide) rfl
      (hv _ _ _ h48 hoff hoff 1)
    have h5 := h4 (by decide)
    exact ⟨w1, h1, by decide, h5.1.trans (by decide), h5.2.trans (by decide)⟩
  · obtain ⟨w1, h1, _, _, h4⟩ := mixing_pass_average
      (mixing_wave ⟨48, SQUARE, 8, 300⟩ silent_channel ⟨39, SAWTOOTH, 8, 100⟩ 5) (by decide) rfl
      (hv _ _ _ h48 hoff h39 5)
    have h5 := h4 (by decide)
    exact ⟨w1, h1, by decide, h5.1.trans (by decide), h5.2.trans (by decide)⟩
  · obtain ⟨w1, h1, _, h3, _⟩ := mixing_pass_average
      (mixing_wave silent_channel silent_channel silent_channel 0) (by decide) rfl
      (hv _ _ _ hoff hoff hoff 0)
    have h5 := h3 (by decide)
    exact ⟨w1, h1, h5.1, h5.2⟩

set_option maxRecDepth 100000 in
/-- C6: playing the line "A B2 [CE]" from index 0 with the default settings and
no further line runs to `ABC_STOPPED` and makes exactly four calls of
`channel_play`, in this order: (48, 8) on beat-tick 1, (50, 16) on beat-tick
10, and (39, 8) then (43, 8) both on beat-tick 27, that is within one scan
pass. -/
theorem sequencer_commits_in_order :
    (abc_play 100 100 (initial_state "A B2 [CE]".toList [])).map
        (fun s => (s.played, s.abc_playing, s.beat))
      = some ([{ beat := 1, note := 48, duration := 8 },
               { beat := 10, note := 50, duration := 16 },
               { beat := 27, note := 39, duration := 8 },
               { beat := 27, note := 43, duration := 8 }], ABC_STOPPED, 37) := by
  decide

/-- C7, counterexample: the `Q:` handler sets `bpmLimit` to 320 for
"Q:1/2=240" and to 1281 for "Q:1/4=120". -/
theorem tempo_half_note_240 :
    tempo_header "Q:1/2=240".toList = some 320 ∧
    tempo_header "Q:1/4=120".toList = some 1281 ∧
    tempo_header "Q:1/2=240".toList ≠ tempo_header "Q:1/4=120".toList := by
  decide

/-- C7 (amended): the `Q:` handler computes the same threshold, 320, for
"Q:1/2=240" as for "Q:1/4=480"; the half-note directive with the threshold
1281 of "Q:1/4=120" is "Q:1/2=60". -/
theorem tempo_half_note_doubles :
    tempo_header "Q:1/2=240".toList = tempo_header "Q:1/4=480".toList ∧
    tempo_header "Q:1/2=240".toList = some 320 ∧
    tempo_header "Q:1/2=60".toList = tempo_header "Q:1/4=120".toList ∧
    tempo_header "Q:1/2=60".toList = some 1281 ∧
    tempo_header "Q:1/2=240\n".toList = tempo_header "Q:1/4=480\n".toList ∧
    tempo_header "Q:1/2=240\n".toList = some 320 := by
  decide

/-- The `|=` of `channel_play` on an 8-bit mask changes no bit but that of the chosen slot. -/
theorem play_mask_other_bits (occ fc i : Nat) (hocc : occ < 256) (hfc : fc ≤ 2) (hi : i ≠ fc) :
    ((occ ||| (1 <<< fc)) % 256).testBit i = occ.testBit i := by
  have h2 : 1 <<< fc < 2 ^ 8 := by
    interval_cases fc <;> decide
  have hlt : occ ||| (1 <<< fc) < 2 ^ 8 := Nat.or_lt_two_pow (by simpa using hocc) h2
  rw [Nat.mod_eq_of_lt (by simpa using hlt), Nat.testBit_or, Nat.one_shiftLeft,
    Nat.testBit_two_pow]
  simp [Ne.symm hi]

/-- C11: `channel_play` writes only the slot it chooses. In that slot the note
becomes the pitch, `time_until_release` the duration and the phase 0, and the
waveform stays; every other slot keeps all its fields; every occupancy bit
other than the chosen slot's is unchanged; with mask 7 the chosen slot is 2,
slots 0 and 1 are untouched and the mask stays 7. -/
theorem channel_play_frame (p : Pool) (note duration : Nat)
    (hocc : p.occupied_channels < 256) :
    ∃ q c, channel_play p note duration = some q ∧
      p.getChan (free_channel p.occupied_channels) = some c ∧
      q.getChan (free_channel p.occupied_channels)
        = some { note := note % 256, wave := c.wave, time_until_release := duration % 256,
                 tick := 0 } ∧
      (∀ i, i ≠ free_channel p.occupied_channels → q.getChan i = p.getChan i) ∧
      (∀ i, i ≠ free_channel p.occupied_channels →
        q.occupied_channels.testBit i = p.occupied_channels.testBit i) ∧
      (p.occupied_channels = 7 →
        free_channel p.occupied_channels = 2 ∧ q.ch0 = p.ch0 ∧ q.ch1 = p.ch1 ∧
        q.occupied_channels = 7) := by
  obtain ⟨c0, c1, c2, occ⟩ := p
  simp only at hocc ⊢
  have hle := free_channel_le occ
  have hbits := fun i => play_mask_other_bits occ (free_channel occ) i hocc hle
  have h7 : occ = 7 → free_channel occ = 2 := by rintro rfl; decide
  rcases free_channel_cases occ with hf | hf | hf
  · refine ⟨{ ch0 := { note := note % 256, wave := c0.wave, time_until_release := duration % 256, tick := 0 }, ch1 := c1, ch2 := c2, occupied_channels := (occ ||| (1 <<< 0)) % 256 }, c0, by simp [channel_play, not_occupied_guard_true, hf, Pool.getChan, Pool.setChan],
      by simp [hf, Pool.getChan], by simp [hf, Pool.getChan], ?_, ?_, ?_⟩
    · intro i hi
      rw [hf] at hi
      match i, hi with
      | 1, _ => rfl
      | 2, _ => rfl
      | (_ + 3), _ => rfl
    · intro i hi; rw [hf] at hbits hi; exact hbits i hi
    · intro h; have := h7 h; omega
  · refine ⟨{ ch0 := c0, ch1 := { note := note % 256, wave := c1.wave, time_until_release := duration % 256, tick := 0 }, ch2 := c2, occupied_channels := (occ ||| (1 <<< 1)) % 256 }, c1, by simp [channel_play, not_occupied_guard_true, hf, Pool.getChan, Pool.setChan],
      by simp [hf, Pool.getChan], by simp [hf, Pool.getChan], ?_, ?_, ?_⟩
    · intro i hi
      rw [hf] at hi
      match i, hi with
      | 0, _ => rfl
      | 2, _ => rfl
      | (_ + 3), _ => rfl
    · intro i hi; rw [hf] at hbits hi; exact hbits i hi
    · intro h; have := h7 h; omega
  · refine ⟨{ ch0 := c0, ch1 := c1, ch2 := { note := note % 256, wave := c2.wave, time_until_release := duration % 256, tick := 0 }, occupied_channels := (occ ||| (1 <<< 2)) % 256 }, c2, by simp [channel_play, not_occupied_guard_true, hf, Pool.getChan, Pool.setChan],
      by simp [hf, Pool.getChan], by simp [hf, Pool.getChan], ?_, ?_, ?_⟩
    · intro i hi
      rw [hf] at hi
      match i, hi with
      | 0, _ => rfl
      | 1, _ => rfl
      | (_ + 3), _ => rfl
    · intro i hi; rw [hf] at hbits hi; exact hbits i hi
    · intro h
      subst h
      exact ⟨hf, rfl, rfl, by show (7 ||| 1 <<< 2) % 256 = 7; decide⟩

/-- Witness for C11: a fourth note on a full pool. -/
theorem channel_play_frame_witness :
    ∃ q c, channel_play { ch0 := ⟨48, 0, 3, 17⟩, ch1 := ⟨50, 1, 2, 9⟩, ch2 := ⟨39, 2, 1, 5⟩,
                          occupied_channels := 7 } 43 8 = some q ∧
      (Pool.mk ⟨48, 0, 3, 17⟩ ⟨50, 1, 2, 9⟩ ⟨39, 2, 1, 5⟩ 7).getChan (free_channel 7) = some c ∧
      q.getChan (free_channel 7)
        = some { note := 43 % 256, wave := c.wave, time_until_release := 8 % 256, tick := 0 } ∧
      (∀ i, i ≠ free_channel 7 →
        q.getChan i = (Pool.mk ⟨48, 0, 3, 17⟩ ⟨50, 1, 2, 9⟩ ⟨39, 2, 1, 5⟩ 7).getChan i) ∧
      (∀ i, i ≠ free_channel 7 → q.occupied_channels.testBit i = (7 : Nat).testBit i) ∧
      ((7 : Nat) = 7 →
        free_channel 7 = 2 ∧ q.ch0 = ⟨48, 0, 3, 17⟩ ∧ q.ch1 = ⟨50, 1, 2, 9⟩ ∧
        q.occupied_channels = 7) :=
  channel_play_frame { ch0 := ⟨48, 0, 3, 17⟩, ch1 := ⟨50, 1, 2, 9⟩, ch2 := ⟨39, 2, 1, 5⟩,
                       occupied_channels := 7 } 43 8 (by decide)

/-- The initialisation at the head of `abc_load_file` makes every channel
silent (off, sine, 0 ticks, phase 0) and leaves `occupied_channels` as it was. -/
theorem abc_load_init_channels (s : State) :
    ∃ s1, abc_load_init s = some s1 ∧
      s1.hw.pool.ch0 = silent_channel ∧ s1.hw.pool.ch1 = silent_channel ∧
      s1.hw.pool.ch2 = silent_channel ∧
      s1.hw.pool.occupied_channels = s.hw.pool.occupied_channels ∧
      s1.time_until_next_note = 0 :=
  ⟨_, rfl, rfl, rfl, rfl, rfl, rfl⟩

/-- C12, evaluation at the failing input: from a pool with three sounding
voices and mask 7, the initialisation of `abc_load_file` turns every note off
and leaves the mask at 7, and the next `channel_play` stores its note in slot
2, not slot 0. -/
theorem abc_load_init_keeps_mask :
    (abc_load_init { initial_state [] [] with hw := { (initial_state [] []).hw with pool := full_pool } }).map
        (fun s => s.hw.pool)
      = some { ch0 := silent_channel, ch1 := silent_channel, ch2 := silent_channel,
               occupied_channels := 7 } ∧
    (channel_play { ch0 := silent_channel, ch1 := silent_channel, ch2 := silent_channel,
                    occupied_channels := 7 } 48 8).map
        (fun q => (q.ch0.note, q.ch1.note, q.ch2.note, q.occupied_channels))
      = some (255, 255, 48, 7) := by
  decide

/-- The digit search of `parse_lf_tag` stops at once on a digit. -/
theorem digit_index_at_digit (tagstring : List Char) (fuel i : Nat)
    (h : ¬ (char_at tagstring i < '0' ∨ char_at tagstring i > '9')) :
    digit_index tagstring (fuel + 1) i = some (some i) := by
  simp only [digit_index, h, if_false]

/-- On a tag that starts with "lf-wave:" and two digits, `parse_lf_tag` stores
the second digit as the waveform of the channel named by the first. -/
theorem parse_lf_tag_digits (x y : Nat) (hx : x ≤ 9) (hy : y ≤ 9) (more : List Char)
    (p : Pool) :
    parse_lf_tag (lf_wave ++ Nat.digitChar x :: Nat.digitChar y :: more) p
      = match p.getChan x with
        | none => none
        | some c => p.setChan x { c with wave := y } := by
  have hall : ((List.range 8).all fun i =>
      lf_wave.getD i ' ' = char_at (lf_wave ++ Nat.digitChar x :: Nat.digitChar y :: more) i)
      = true := by
    simp [lf_wave, char_at, List.range, List.range.loop]
  have h8 : char_at (lf_wave ++ Nat.digitChar x :: Nat.digitChar y :: more) 8 = Nat.digitChar x := by
    simp [lf_wave, char_at]
  have h9 : char_at (lf_wave ++ Nat.digitChar x :: Nat.digitChar y :: more) 9 = Nat.digitChar y := by
    simp [lf_wave, char_at]
  have hd : ∀ d ≤ 9, ¬ (Nat.digitChar d < '0' ∨ Nat.digitChar d > '9') ∧
      (Nat.digitChar d).toNat - 48 = d := by decide
  have d8 := digit_index_at_digit (lf_wave ++ Nat.digitChar x :: Nat.digitChar y :: more) 127 8
    (by rw [h8]; exact (hd x hx).1)
  have d9 := digit_index_at_digit (lf_wave ++ Nat.digitChar x :: Nat.digitChar y :: more) 127 9
    (by rw [h9]; exact (hd y hy).1)
  simp only [parse_lf_tag, hall, if_true, d8, Nat.reduceAdd, Nat.reduceLeDiff, Nat.reduceGT,
    if_false, d9, h8, (hd x hx).2, h9, (hd y hy).2]

/-- C13: for a channel digit `x` in 0..2 and a waveform digit `y` in 0..3,
`parse_lf_tag` on a tag that starts with "lf-wave:", the digit `x` and the
digit `y` sets `channels[x].wave` to `y`; note, ticks and phase of slot `x`,
every field of the other slots and the occupancy mask are unchanged. -/
theorem parse_lf_tag_sets_wave (x y : Nat) (hx : x ≤ 2) (hy : y ≤ 3) (more : List Char)
    (p : Pool) :
    ∃ q c, parse_lf_tag (lf_wave ++ Nat.digitChar x :: Nat.digitChar y :: more) p = some q ∧
      p.getChan x = some c ∧
      q.getChan x = some { note := c.note, wave := y, time_until_release := c.time_until_release,
                           tick := c.tick } ∧
      (∀ i, i ≠ x → q.getChan i = p.getChan i) ∧
      q.occupied_channels = p.occupied_channels := by
  rw [parse_lf_tag_digits x y (by omega) (by omega)]
  obtain ⟨c0, c1, c2, occ⟩ := p
  interval_cases x
  · refine ⟨{ ch0 := { c0 with wave := y }, ch1 := c1, ch2 := c2, occupied_channels := occ }, c0,
      rfl, rfl, rfl, ?_, rfl⟩
    intro i hi
    match i, hi with
    | 1, _ => rfl
    | 2, _ => rfl
    | (_ + 3), _ => rfl
  · refine ⟨{ ch0 := c0, ch1 := { c1 with wave := y }, ch2 := c2, occupied_channels := occ }, c1,
      rfl, rfl, rfl, ?_, rfl⟩
    intro i hi
    match i, hi with
    | 0, _ => rfl
    | 2, _ => rfl
    | (_ + 3), _ => rfl
  · refine ⟨{ ch0 := c0, ch1 := c1, ch2 := { c2 with wave := y }, occupied_channels := occ }, c2,
      rfl, rfl, rfl, ?_, rfl⟩
    intro i hi
    match i, hi with
    | 0, _ => rfl
    | 1, _ => rfl
    | (_ + 3), _ => rfl

/-- Witness for C13: the tag "lf-wave:13" sets the waveform of channel 1 to sawtooth. -/
theorem parse_lf_tag_sets_wave_witness :
    (1 : Nat) ≤ 2 ∧ (3 : Nat) ≤ 3 ∧
    parse_lf_tag "lf-wave:13\n".toList full_pool
      = some { full_pool with ch1 := { full_pool.ch1 with wave := 3 } } ∧
    ∃ q c, parse_lf_tag (lf_wave ++ Nat.digitChar 1 :: Nat.digitChar 3 :: ['\n']) full_pool = some q ∧
      full_pool.getChan 1 = some c ∧
      q.getChan 1 = some { note := c.note, wave := 3, time_until_release := c.time_until_release,
                           tick := c.tick } ∧
      (∀ i, i ≠ 1 → q.getChan i = full_pool.getChan i) ∧
      q.occupied_channels = full_pool.occupied_channels :=
  ⟨by decide, by decide, by decide,
    parse_lf_tag_sets_wave 1 3 (by decide) (by decide) ['\n'] full_pool⟩

/-- A tag that differs from "lf-wave:" in one of its first eight characters
leaves the pool as it is. -/
theorem parse_lf_tag_prefix_mismatch (tagstring : List Char) (p : Pool)
    (h : ∃ i, i < 8 ∧ char_at tagstring i ≠ lf_wave.getD i ' ') :
    parse_lf_tag tagstring p = some p := by
  obtain ⟨i, hi, hne⟩ := h
  have hall : ((List.range 8).all fun i => lf_wave.getD i ' ' = char_at tagstring i) = false := by
    by_contra hcon
    have ht := (Bool.not_eq_false _).mp hcon
    rw [List.all_eq_true] at ht
    have := ht i (List.mem_range.mpr hi)
    exact hne (of_decide_eq_true this).symm
  simp only [parse_lf_tag, hall]
  rfl

/-- C14, evaluation at the failing input: the tag string "lf-wave:" has the
prefix and no digit, but the digit search tests for the terminator only after
stepping, so it walks over the terminator into the bytes an earlier line left
in the buffer (here the digits 0 and 3) and sets the waveform of channel 0 to
3. The same happens when the line "I:lf-wave:" ends the file after the line
"W:verse no 03". -/
theorem parse_lf_tag_reads_past_terminator :
    stale_tag.takeWhile (fun c => c ≠ Char.ofNat 0) = "lf-wave:".toList ∧
    parse_lf_tag stale_tag empty_pool
      = some { empty_pool with ch0 := { silent_channel with wave := SAWTOOTH } } ∧
    parse_lf_tag stale_tag empty_pool ≠ some empty_pool ∧
    (read_next_line ["I:lf-wave:".toList]
        (playing_state "W:verse no 03\n".toList ["I:lf-wave:".toList])).map
        (fun s => s.hw.pool)
      = some { empty_pool with ch0 := { silent_channel with wave := SAWTOOTH } } := by
  decide

/-- `channel_play` always returns. -/
theorem channel_play_total (p : Pool) (note duration : Nat) :
    ∃ q, channel_play p note duration = some q := by
  rcases free_channel_cases p.occupied_channels with hf | hf | hf <;>
    simp [channel_play, not_occupied_guard_true, hf, Pool.getChan, Pool.setChan]

/-- `channel_play` keeps the one-sided occupancy invariant, whatever the pitch. -/
theorem channel_play_marked (p q : Pool) (note duration : Nat)
    (hm : p.marked) (hq : channel_play p note duration = some q) : q.marked := by
  obtain ⟨c0, c1, c2, occ⟩ := p
  obtain ⟨h0, h1, h2, hlt⟩ := hm
  simp only at h0 h1 h2 hlt
  have hb := play_mask_bits occ hlt
  have hl := play_mask_lt occ hlt
  rcases free_channel_cases occ with hf | hf | hf <;>
    simp [channel_play, not_occupied_guard_true, hf, Pool.getChan, Pool.setChan] at hq <;>
    subst hq <;>
    rw [hf] at hb hl <;>
    simp_all [Pool.marked, hb 0, hb 1, hb 2]

/-- `channel_play` with a pitch other than 0xFF keeps the occupancy invariant. -/
theorem channel_play_consistent_of_ne (p q : Pool) (note duration : Nat)
    (hc : p.consistent) (hne : note % 256 ≠ OFF)
    (hq : channel_play p note duration = some q) : q.consistent := by
  obtain ⟨c0, c1, c2, occ⟩ := p
  obtain ⟨h0, h1, h2, hlt⟩ := hc
  simp only at h0 h1 h2 hlt
  have hb := play_mask_bits occ hlt
  have hl := play_mask_lt occ hlt
  rcases free_channel_cases occ with hf | hf | hf <;>
    simp [channel_play, not_occupied_guard_true, hf, Pool.getChan, Pool.setChan] at hq <;>
    subst hq <;>
    rw [hf] at hb hl <;>
    simp_all [Pool.consistent, hb 0, hb 1, hb 2]

/-- `channel_play` with the pitch 0xFF leaves the chosen slot off with its bit
set, which breaks the occupancy invariant. -/
theorem channel_play_off (p q : Pool) (note duration : Nat)
    (hlt : p.occupied_channels < 8) (hoff : note % 256 = OFF)
    (hq : channel_play p note duration = some q) :
    (q.getChan (free_channel p.occupied_channels)).map (fun c => c.note) = some OFF ∧
    mask_bit q.occupied_channels (free_channel p.occupied_channels) = true ∧
    ¬ q.consistent := by
  obtain ⟨c0, c1, c2, occ⟩ := p
  simp only at hlt
  have hb := play_mask_bits occ hlt
  rcases free_channel_cases occ with hf | hf | hf <;>
    simp [channel_play, not_occupied_guard_true, hf, Pool.getChan, Pool.setChan] at hq <;>
    subst hq <;>
    rw [hf] at hb <;>
    simp_all [Pool.consistent, Pool.getChan, hb 0, hb 1, hb 2]

/-- A commit changes the pool by one call of `channel_play`. -/
theorem playNoteIfAvailable_pool (s : State)
    (hcommit : s.note_flags &&& rest ≠ 0 ∨ s.next_note ≠ 255) :
    ∃ b s1 q, playNoteIfAvailable s = some (b, s1) ∧
      channel_play s.hw.pool (to_u8 ((s.next_note : Int) + s.accidental_shift))
        (s.length % 256) = some q ∧
      s1.hw.pool = q := by
  obtain ⟨q, hq⟩ := channel_play_total s.hw.pool
    (to_u8 ((s.next_note : Int) + s.accidental_shift)) (s.length % 256)
  simp only [playNoteIfAvailable, hcommit, if_true, hq]
  split_ifs
  all_goals exact ⟨_, _, q, rfl, rfl, rfl⟩

/-- The mask after `channel_play`. -/
theorem channel_play_mask (p q : Pool) (note duration : Nat)
    (hq : channel_play p note duration = some q) :
    q.occupied_channels
      = (p.occupied_channels ||| (1 <<< free_channel p.occupied_channels)) % 256 := by
  obtain ⟨c0, c1, c2, occ⟩ := p
  rcases free_channel_cases occ with hf | hf | hf <;>
    simp [channel_play, not_occupied_guard_true, hf, Pool.getChan, Pool.setChan] at hq <;>
    subst hq <;>
    simp [hf]

/-- The slot chosen after an allocation: another slot when the allocation went
to slot 0 or 1, slot 2 again when it went to slot 2. -/
theorem free_channel_after_play : ∀ occ < 8,
    (free_channel occ < 2 →
      free_channel ((occ ||| (1 <<< free_channel occ)) % 256) ≠ free_channel occ) ∧
    (free_channel occ = 2 → free_channel ((occ ||| (1 <<< free_channel occ)) % 256) = 2) := by
  decide

/-- The two-sided occupancy invariant implies the one-sided one. -/
theorem consistent_marked (p : Pool) (h : p.consistent) : p.marked :=
  ⟨h.1.mpr, h.2.1.mpr, h.2.2.1.mpr, h.2.2.2⟩

/-- C15 (amended): a commit by `playNoteIfAvailable` from a pool that satisfies
the occupancy invariant yields a pool that satisfies it again when the
committed pitch `next_note + accidental_shift` (as `uint8_t`) is not 0xFF;
when that pitch is 0xFF, as it is for a rest with the pending pitch unset and
no accidental, the allocated slot is left with note off and its occupancy bit
set, so the invariant fails and only the one-sided invariant (a slot whose
note is not off has its bit set) is kept; the next allocation then passes
over that off slot when it is slot 0 or 1 and chooses it again when it is
slot 2. -/
theorem commit_occupancy (s : State)
    (hcommit : s.note_flags &&& rest ≠ 0 ∨ s.next_note ≠ 255) :
    ∃ b s1, playNoteIfAvailable s = some (b, s1) ∧
      (s.hw.pool.marked → s1.hw.pool.marked) ∧
      (s.hw.pool.consistent → s1.hw.pool.marked) ∧
      (s.hw.pool.consistent → to_u8 ((s.next_note : Int) + s.accidental_shift) ≠ 255 →
        s1.hw.pool.consistent) ∧
      (s.next_note = 255 → s.accidental_shift = 0 →
        to_u8 ((s.next_note : Int) + s.accidental_shift) = 255) ∧
      (s.hw.pool.consistent → to_u8 ((s.next_note : Int) + s.accidental_shift) = 255 →
        (s1.hw.pool.getChan (free_channel s.hw.pool.occupied_channels)).map (fun c => c.note)
          = some 255 ∧
        s1.hw.pool.occupied_channels.testBit (free_channel s.hw.pool.occupied_channels) = true ∧
        ¬ s1.hw.pool.consistent ∧
        (free_channel s.hw.pool.occupied_channels < 2 →
          free_channel s1.hw.pool.occupied_channels
            ≠ free_channel s.hw.pool.occupied_channels) ∧
        (free_channel s.hw.pool.occupied_channels = 2 →
          free_channel s1.hw.pool.occupied_channels = 2)) := by
  obtain ⟨b, s1, q, hp, hq, hpool⟩ := playNoteIfAvailable_pool s hcommit
  have hu8 : to_u8 ((s.next_note : Int) + s.accidental_shift) % 256
      = to_u8 ((s.next_note : Int) + s.accidental_shift) := by
    unfold to_u8; omega
  refine ⟨b, s1, hp, ?_, ?_, ?_, ?_, ?_⟩
  · intro hm; rw [hpool]; exact channel_play_marked _ _ _ _ hm hq
  · intro hc; rw [hpool]; exact channel_play_marked _ _ _ _ (consistent_marked _ hc) hq
  · intro hc hne; rw [hpool]
    exact channel_play_consistent_of_ne _ _ _ _ hc (by rw [hu8]; exact hne) hq
  · intro hn ha
    rw [hn, ha]
    decide
  · intro hc hoff
    have hoffq := channel_play_off _ _ _ _ hc.2.2.2 (by rw [hu8]; exact hoff) hq
    have hmask := channel_play_mask _ _ _ _ hq
    have hnext := free_channel_after_play _ hc.2.2.2
    rw [hpool]
    refine ⟨hoffq.1, hoffq.2.1, hoffq.2.2, ?_, ?_⟩
    · intro hlt; rw [hmask]; exact hnext.1 hlt
    · intro h2; rw [hmask]; exact hnext.2 h2

set_option maxRecDepth 100000 in
/-- Witness for C15 (amended): on the empty pool the commit of the pending note
A4 keeps the invariant, and the commit of a rest with no pending pitch leaves
slot 0 off with bit 0 set, after which slot 1 is the next to be chosen; in
the chord "[CEzG] " the rest is committed to slot 2 and G then takes slot 2. -/
theorem commit_occupancy_witness :
    (∃ b s1, playNoteIfAvailable note_pending_state = some (b, s1) ∧
      s1.hw.pool.consistent) ∧
    (∃ b s1, playNoteIfAvailable rest_pending_state = some (b, s1) ∧
      s1.hw.pool.marked ∧ ¬ s1.hw.pool.consistent ∧
      s1.hw.pool.occupied_channels.testBit 0 = true ∧
      free_channel s1.hw.pool.occupied_channels ≠ 0) ∧
    (beat_tick 100 (playing_state "[CEzG] ".toList [])).map
        (fun s => (s.played.map (fun c => c.note), s.hw.pool.ch2.note,
                   s.hw.pool.occupied_channels))
      = some ([39, 43, 255, 46], 46, 7) ∧
    (beat_tick 100 (playing_state "^z ".toList [])).map
        (fun s => (s.played.map (fun c => c.note), s.hw.pool.ch0.note,
                   s.hw.pool.occupied_channels))
      = some ([0], 0, 1) := by
  refine ⟨?_, ?_, by decide, by decide⟩
  · obtain ⟨b, s1, h1, _, _, hcons, _, _⟩ := commit_occupancy note_pending_state (by decide)
    exact ⟨b, s1, h1, hcons empty_pool_consistent (by decide)⟩
  · obtain ⟨b, s1, h1, _, hmarked, _, hpitch, hoff⟩ :=
      commit_occupancy rest_pending_state (by decide)
    have h255 := hpitch rfl rfl
    obtain ⟨_, hbit, hnot, hnext, _⟩ := hoff empty_pool_consistent h255
    exact ⟨b, s1, h1, hmarked empty_pool_consistent, hnot, hbit, hnext (by decide)⟩

/-- C15, counterexample: from the empty pool the commit of a rest (rest flag
set, pending pitch unset) leaves slot 0 with note 0xFF and bit 0 set; the
first beat-tick on the line "z " ends in that pool. -/
theorem rest_commit_breaks_invariant :
    rest_pending_state.hw.pool.consistent ∧
    rest_pending_state.note_flags &&& rest ≠ 0 ∧ rest_pending_state.next_note = 255 ∧
    (∃ s1, playNoteIfAvailable rest_pending_state = some (true, s1) ∧
      s1.hw.pool.ch0.note = 255 ∧ s1.hw.pool.occupied_channels.testBit 0 = true ∧
      ¬ s1.hw.pool.consistent) ∧
    (beat_tick 100 (playing_state "z ".toList [])).map (fun s => s.hw.pool)
      = some { empty_pool with ch0 := { silent_channel with time_until_release := 8 },
                               occupied_channels := 1 } := by
  refine ⟨empty_pool_consistent, by decide, rfl, ⟨_, rfl, rfl, by decide, ?_⟩, by decide⟩
  intro h
  have h0 := h.1
  exact absurd rfl (h0.mp (by decide))

/-- Bits 0..2 of a mask after `&= ~(1 << i)`, for any 8-bit or wider mask. -/
theorem clear_bit_testBit (occ i j : Nat) (hi : i ≤ 2) (hj : j ≤ 2) :
    (clear_bit occ i).testBit j = (occ.testBit j && decide (j ≠ i)) := by
  have h256 : (256 : Nat) = 2 ^ 8 := by norm_num
  have h1 : ∀ j ≤ 2, Nat.testBit 65535 j = true := by decide
  have h2 : ∀ i ≤ 2, ∀ j ≤ 2, ((1 <<< i) % 65536).testBit j = decide (i = j) := by decide
  unfold clear_bit
  rw [h256, Nat.testBit_mod_two_pow, Nat.testBit_and, Nat.testBit_xor, h1 j hj, h2 i hi j hj]
  interval_cases i <;> interval_cases j <;> simp

/-- The if/else of the countdown loop for slot `j`: the other slots and their
bits stay; slot `j` is decremented, or released when its count is 0. -/
theorem countdown_pool_slots (j : Nat) (p : Pool) (hj : j ≤ 2) :
    ∃ q c, countdown_pool j p = some q ∧ p.getChan j = some c ∧
      (∀ i, i ≤ 2 → i ≠ j → q.getChan i = p.getChan i ∧
        q.occupied_channels.testBit i = p.occupied_channels.testBit i) ∧
      (c.time_until_release ≠ 0 →
        q.getChan j = some { c with time_until_release := c.time_until_release - 1 } ∧
        q.occupied_channels = p.occupied_channels) ∧
      (c.time_until_release = 0 →
        q.getChan j = some { c with note := OFF } ∧
        q.occupied_channels.testBit j = false) := by
  obtain ⟨c0, c1, c2, occ⟩ := p
  have hb := fun i hi => clear_bit_testBit occ j i hj hi
  interval_cases j
  · by_cases ht : c0.time_until_release = 0
    · have hq : countdown_pool 0 ⟨c0, c1, c2, occ⟩ = some { ch0 := { c0 with note := OFF }, ch1 := c1, ch2 := c2, occupied_channels := clear_bit occ 0 } := by
        simp only [countdown_pool, Pool.getChan, Pool.setChan, ht, if_true]
      refine ⟨_, c0, hq, rfl, ?_, fun h => absurd ht h,
        fun _ => ⟨rfl, by simpa using hb 0 (by omega)⟩⟩
      intro i hi hne
      interval_cases i
      · exact absurd rfl hne
      · exact ⟨rfl, by simpa using hb 1 (by omega)⟩
      · exact ⟨rfl, by simpa using hb 2 (by omega)⟩
    · have hq : countdown_pool 0 ⟨c0, c1, c2, occ⟩ = some { ch0 := { c0 with time_until_release := c0.time_until_release - 1 }, ch1 := c1, ch2 := c2, occupied_channels := occ } := by
        simp only [countdown_pool, Pool.getChan, Pool.setChan, ht, if_false]
      refine ⟨_, c0, hq, rfl, ?_, fun _ => ⟨rfl, rfl⟩, fun h => absurd h ht⟩
      intro i hi hne
      interval_cases i
      · exact absurd rfl hne
      · exact ⟨rfl, rfl⟩
      · exact ⟨rfl, rfl⟩
  · by_cases ht : c1.time_until_release = 0
    · have hq : countdown_pool 1 ⟨c0, c1, c2, occ⟩ = some { ch0 := c0, ch1 := { c1 with note := OFF }, ch2 := c2, occupied_channels := clear_bit occ 1 } := by
        simp only [countdown_pool, Pool.getChan, Pool.setChan, ht, if_true]
      refine ⟨_, c1, hq, rfl, ?_, fun h => absurd ht h,
        fun _ => ⟨rfl, by simpa using hb 1 (by omega)⟩⟩
      intro i hi hne
      interval_cases i
      · exact ⟨rfl, by simpa using hb 0 (by omega)⟩
      · exact absurd rfl hne
      · exact ⟨rfl, by simpa using hb 2 (by omega)⟩
    · have hq : countdown_pool 1 ⟨c0, c1, c2, occ⟩ = some { ch0 := c0, ch1 := { c1 with time_until_release := c1.time_until_release - 1 }, ch2 := c2, occupied_channels := occ } := by
        simp only [countdown_pool, Pool.getChan, Pool.setChan, ht, if_false]
      refine ⟨_, c1, hq, rfl, ?_, fun _ => ⟨rfl, rfl⟩, fun h => absurd h ht⟩
      intro i hi hne
      interval_cases i
      · exact ⟨rfl, rfl⟩
      · exact absurd rfl hne
      · exact ⟨rfl, rfl⟩
  · by_cases ht : c2.time_until_release = 0
    · have hq : countdown_pool 2 ⟨c0, c1, c2, occ⟩ = some { ch0 := c0, ch1 := c1, ch2 := { c2 with note := OFF }, occupied_channels := clear_bit occ 2 } := by
        simp only [countdown_pool, Pool.getChan, Pool.setChan, ht, if_true]
      refine ⟨_, c2, hq, rfl, ?_, fun h => absurd ht h,
        fun _ => ⟨rfl, by simpa using hb 2 (by omega)⟩⟩
      intro i hi hne
      interval_cases i
      · exact ⟨rfl, by simpa using hb 0 (by omega)⟩
      · exact ⟨rfl, by simpa using hb 1 (by omega)⟩
      · exact absurd rfl hne
    · have hq : countdown_pool 2 ⟨c0, c1, c2, occ⟩ = some { ch0 := c0, ch1 := c1, ch2 := { c2 with time_until_release := c2.time_until_release - 1 }, occupied_channels := occ } := by
        simp only [countdown_pool, Pool.getChan, Pool.setChan, ht, if_false]
      refine ⟨_, c2, hq, rfl, ?_, fun _ => ⟨rfl, rfl⟩, fun h => absurd h ht⟩
      intro i hi hne
      interval_cases i
      · exact ⟨rfl, rfl⟩
      · exact ⟨rfl, rfl⟩
      · exact absurd rfl hne

/-- One iteration of the countdown loop changes the pool by its if/else. -/
theorem countdown_slot_state (j : Nat) (s : State) (hj : j ≤ 2) :
    ∃ s1 q, countdown_slot j s = some s1 ∧ countdown_pool j s.hw.pool = some q ∧
      s1.hw.pool = q := by
  obtain ⟨q, c, hq, _⟩ := countdown_pool_slots j s.hw.pool hj
  simp only [countdown_slot, hq]
  split_ifs
  · exact ⟨_, q, rfl, rfl, by rw [abc_stop_pool]⟩
  · exact ⟨_, q, rfl, rfl, rfl⟩

/-- The iteration for slot `j` leaves another slot `i` and its bit alone. -/
theorem countdown_slot_other (j i : Nat) (s : State) (hj : j ≤ 2) (hi : i ≤ 2) (hne : i ≠ j) :
    ∃ s1, countdown_slot j s = some s1 ∧
      s1.hw.pool.getChan i = s.hw.pool.getChan i ∧
      s1.hw.pool.occupied_channels.testBit i = s.hw.pool.occupied_channels.testBit i := by
  obtain ⟨s1, q, h1, hq, hp⟩ := countdown_slot_state j s hj
  obtain ⟨q', c, hq', _, hother, _, _⟩ := countdown_pool_slots j s.hw.pool hj
  rw [hq] at hq'
  cases hq'
  refine ⟨s1, h1, ?_, ?_⟩
  · rw [hp]; exact (hother i hi hne).1
  · rw [hp]; exact (hother i hi hne).2

/-- The iteration for slot `i` decrements it, or releases it when its count is 0. -/
theorem countdown_slot_self (i : Nat) (s : State) (c : Channel) (hi : i ≤ 2)
    (hc : s.hw.pool.getChan i = some c) :
    ∃ s1, countdown_slot i s = some s1 ∧
      (c.time_until_release ≠ 0 →
        s1.hw.pool.getChan i = some { c with time_until_release := c.time_until_release - 1 } ∧
        s1.hw.pool.occupied_channels.testBit i = s.hw.pool.occupied_channels.testBit i) ∧
      (c.time_until_release = 0 →
        s1.hw.pool.getChan i = some { c with note := OFF } ∧
        s1.hw.pool.occupied_channels.testBit i = false) := by
  obtain ⟨s1, q, h1, hq, hp⟩ := countdown_slot_state i s hi
  obtain ⟨q', c', hq', hc', _, hdec, hrel⟩ := countdown_pool_slots i s.hw.pool hi
  rw [hq] at hq'
  cases hq'
  rw [hc] at hc'
  cases hc'
  refine ⟨s1, h1, ?_, ?_⟩
  · intro h; rw [hp]; exact ⟨(hdec h).1, by rw [(hdec h).2]⟩
  · intro h; rw [hp]; exact hrel h

/-- What one run of the countdown loop does to slot `i`. -/
theorem countdown_slot_view (s : State) (i : Nat) (c : Channel) (hi : i ≤ 2)
    (hc : s.hw.pool.getChan i = some c) :
    ∃ s1, countdown s = some s1 ∧
      (c.time_until_release ≠ 0 →
        s1.hw.pool.getChan i = some { c with time_until_release := c.time_until_release - 1 } ∧
        s1.hw.pool.occupied_channels.testBit i = s.hw.pool.occupied_channels.testBit i) ∧
      (c.time_until_release = 0 →
        s1.hw.pool.getChan i = some { c with note := OFF } ∧
        s1.hw.pool.occupied_channels.testBit i = false) := by
  interval_cases i
  · obtain ⟨a, ha, hdec, hrel⟩ := countdown_slot_self 0 s c (by omega) hc
    obtain ⟨b, hb, hb1, hb2⟩ := countdown_slot_other 1 0 a (by omega) (by omega) (by omega)
    obtain ⟨d, hd, hd1, hd2⟩ := countdown_slot_other 2 0 b (by omega) (by omega) (by omega)
    refine ⟨d, by simp only [countdown, ha, hb, hd], ?_, ?_⟩
    · intro h; rw [hd1, hb1, hd2, hb2]; exact hdec h
    · intro h; rw [hd1, hb1, hd2, hb2]; exact hrel h
  · obtain ⟨a, ha, ha1, ha2⟩ := countdown_slot_other 0 1 s (by omega) (by omega) (by omega)
    obtain ⟨b, hb, hdec, hrel⟩ := countdown_slot_self 1 a c (by omega) (by rw [ha1]; exact hc)
    obtain ⟨d, hd, hd1, hd2⟩ := countdown_slot_other 2 1 b (by omega) (by omega) (by omega)
    refine ⟨d, by simp only [countdown, ha, hb, hd], ?_, ?_⟩
    · intro h; rw [hd1, hd2, ← ha2]; exact hdec h
    · intro h; rw [hd1, hd2]; exact hrel h
  · obtain ⟨a, ha, ha1, ha2⟩ := countdown_slot_other 0 2 s (by omega) (by omega) (by omega)
    obtain ⟨b, hb, hb1, hb2⟩ := countdown_slot_other 1 2 a (by omega) (by omega) (by omega)
    obtain ⟨d, hd, hdec, hrel⟩ := countdown_slot_self 2 b c (by omega)
      (by rw [hb1, ha1]; exact hc)
    refine ⟨d, by simp only [countdown, ha, hb, hd], ?_, ?_⟩
    · intro h; rw [← ha2, ← hb2]; exact hdec h
    · intro h; exact hrel h

/-- A slot with count `d` is held, with its bit, through `d` runs of the countdown loop. -/
theorem countdown_n_holds (d : Nat) :
    ∀ (s : State) (i : Nat) (c : Channel), i ≤ 2 → s.hw.pool.getChan i = some c →
      c.time_until_release = d →
      ∃ s1, countdown_n d s = some s1 ∧
        s1.hw.pool.getChan i = some { c with time_until_release := 0 } ∧
        s1.hw.pool.occupied_channels.testBit i = s.hw.pool.occupied_channels.testBit i := by
  induction d with
  | zero =>
    intro s i c _ hc hd
    refine ⟨s, rfl, ?_, rfl⟩
    rw [hc, ← hd]
  | succ n ih =>
    intro s i c hi hc hd
    obtain ⟨a, ha, hdec, _⟩ := countdown_slot_view s i c hi hc
    obtain ⟨ha1, ha2⟩ := hdec (by omega)
    obtain ⟨b, hb, hb1, hb2⟩ := ih a i _ hi ha1 (by simp only [hd]; omega)
    exact ⟨b, by simp only [countdown_n, ha, hb], hb1, by rw [hb2, ha2]⟩

/-- C16 (amended): a voice in slot `i` with `time_until_release = d` that is
not allocated again still sounds after `d` beat-ticks of the countdown loop
(note unchanged, count 0, bit set) and is off after exactly `d + 1` beat-ticks
(note 0xFF, bit clear): a beat-tick releases the channels whose count is
already 0 and decrements the others. -/
theorem release_after_countdown (s : State) (i d : Nat) (c : Channel) (hi : i ≤ 2)
    (hc : s.hw.pool.getChan i = some c) (hd : c.time_until_release = d)
    (hon : c.note ≠ 255) (hbit : s.hw.pool.occupied_channels.testBit i = true) :
    ∃ s1 s2, countdown_n d s = some s1 ∧ countdown_n (d + 1) s = some s2 ∧
      s1.hw.pool.getChan i = some { c with time_until_release := 0 } ∧
      (s1.hw.pool.getChan i).map (fun x => x.note) ≠ some 255 ∧
      s1.hw.pool.occupied_channels.testBit i = true ∧
      (s2.hw.pool.getChan i).map (fun x => x.note) = some 255 ∧
      s2.hw.pool.occupied_channels.testBit i = false := by
  obtain ⟨s1, h1, hg, hb⟩ := countdown_n_holds d s i c hi hc hd
  obtain ⟨s2, h2, _, hrel⟩ := countdown_slot_view s1 i _ hi hg
  obtain ⟨hr1, hr2⟩ := hrel rfl
  have hn : ∀ (n : Nat) (a b : State), countdown_n n a = some b →
      ∀ e, countdown b = some e → countdown_n (n + 1) a = some e := by
    intro n
    induction n with
    | zero =>
      intro a b hab e he
      simp only [countdown_n] at hab
      cases hab
      simp only [countdown_n, he]
    | succ m ihm =>
      intro a b hab e he
      simp only [countdown_n] at hab
      cases hx : countdown a with
      | none => rw [hx] at hab; cases hab
      | some x =>
        rw [hx] at hab
        have := ihm x b hab e he
        simp only [countdown_n, hx] at this ⊢
        exact this
  refine ⟨s1, s2, h1, hn d s s1 h1 s2 h2, hg, ?_, by rw [hb, hbit], ?_, hr2⟩
  · rw [hg]; simpa using hon
  · rw [hr1]; rfl

/-- Witness for C16 (amended): A4 allocated with duration 3 on the empty pool. -/
theorem release_after_countdown_witness :
    ∃ s1 s2, countdown_n 3 (allocated_state 3) = some s1 ∧
      countdown_n (3 + 1) (allocated_state 3) = some s2 ∧
      s1.hw.pool.getChan 0 = some { (⟨48, 0, 3, 0⟩ : Channel) with time_until_release := 0 } ∧
      (s1.hw.pool.getChan 0).map (fun x => x.note) ≠ some 255 ∧
      s1.hw.pool.occupied_channels.testBit 0 = true ∧
      (s2.hw.pool.getChan 0).map (fun x => x.note) = some 255 ∧
      s2.hw.pool.occupied_channels.testBit 0 = false :=
  release_after_countdown (allocated_state 3) 0 3 ⟨48, 0, 3, 0⟩ (by decide) (by decide) rfl
    (by decide) (by decide)

/-- C16, counterexample: a voice allocated with duration 1 is still on after
one beat-tick (count 0, bit set) and off after two. -/
theorem voice_outlasts_duration :
    (allocated_state 1).hw.pool.ch0 = ⟨48, 0, 1, 0⟩ ∧
    (countdown_n 1 (allocated_state 1)).map
        (fun s => (s.hw.pool.ch0.note, s.hw.pool.ch0.time_until_release,
                   s.hw.pool.occupied_channels.testBit 0)) = some (48, 0, true) ∧
    (countdown_n 2 (allocated_state 1)).map
        (fun s => (s.hw.pool.ch0.note, s.hw.pool.ch0.time_until_release,
                   s.hw.pool.occupied_channels.testBit 0)) = some (255, 0, false) := by
  decide

set_option maxRecDepth 100000 in
/-- C17 (amended): when `playNoteIfAvailable` commits while the chord flag is
set, it returns 0 and resets the pending pitch, the accidental shift, the
rest and natural flags, and also the pending length, which becomes
`default_note_length`; so in "[C2E]" with default note length 8 the member C
is committed with duration 16 and the member E with duration 8. -/
theorem chord_member_resets_length (s : State)
    (hcommit : s.note_flags &&& rest ≠ 0 ∨ s.next_note ≠ 255)
    (hchord : s.note_flags &&& chord ≠ 0) :
    (∃ s1, playNoteIfAvailable s = some (false, s1) ∧
      s1.next_note = 255 ∧ s1.accidental_shift = 0 ∧
      s1.note_flags = s.note_flags &&& (255 ^^^ (rest ||| natural)) ∧
      s1.length = s.default_note_length) ∧
    (abc_play 100 100 (initial_state "[C2E]".toList [])).map
        (fun st => st.played.map (fun c => (c.note, c.duration)))
      = some [(39, 16), (43, 8)] := by
  refine ⟨?_, by decide⟩
  obtain ⟨q, hq⟩ := channel_play_total s.hw.pool
    (to_u8 ((s.next_note : Int) + s.accidental_shift)) (s.length % 256)
  simp only [playNoteIfAvailable, hcommit, if_true, hq, hchord, if_false]
  exact ⟨_, rfl, rfl, rfl, rfl, rfl⟩

/-- Witness for C17 (amended): the commit of C4 with length 16 inside "[C2E]". -/
theorem chord_member_resets_length_witness :
    (∃ s1, playNoteIfAvailable chord_member_state = some (false, s1) ∧
      s1.next_note = 255 ∧ s1.accidental_shift = 0 ∧
      s1.note_flags = chord_member_state.note_flags &&& (255 ^^^ (rest ||| natural)) ∧
      s1.length = chord_member_state.default_note_length) ∧
    (abc_play 100 100 (initial_state "[C2E]".toList [])).map
        (fun st => st.played.map (fun c => (c.note, c.duration)))
      = some [(39, 16), (43, 8)] :=
  chord_member_resets_length chord_member_state (by decide) (by decide)

set_option maxRecDepth 100000 in
/-- C17, counterexample: with the chord flag set and pending length 16 (default
8) the commit leaves the pending length 8, and playing "[C2E]" commits C with
duration 16 and E with duration 8, both on beat-tick 1. -/
theorem chord_member_length_not_kept :
    chord_member_state.length = 16 ∧ chord_member_state.default_note_length = 8 ∧
    (playNoteIfAvailable chord_member_state).map (fun r => (r.1, r.2.length)) = some (false, 8) ∧
    (abc_play 100 100 (initial_state "[C2E]".toList [])).map
        (fun st => st.played)
      = some [{ beat := 1, note := 39, duration := 16 }, { beat := 1, note := 43, duration := 8 }] := by
  decide

/-- After `playNoteIfAvailable` the pending length is what it was or the default. -/
theorem playNoteIfAvailable_length (s s1 : State) (b : Bool)
    (h : playNoteIfAvailable s = some (b, s1)) :
    (s1.length = s.length ∨ s1.length = s.default_note_length) ∧
    s1.default_note_length = s.default_note_length := by
  unfold playNoteIfAvailable at h
  split_ifs at h with h1 h2 h3
  all_goals first
    | (cases hq : channel_play s.hw.pool (to_u8 ((s.next_note : Int) + s.accidental_shift))
          (s.length % 256) with
        | none => simp only [hq] at h; cases h
        | some q =>
          simp only [hq] at h
          split_ifs at h
          all_goals
            simp only [Option.some.injEq, Prod.mk.injEq] at h
            obtain ⟨_, rfl⟩ := h
            first
              | exact ⟨Or.inl rfl, rfl⟩
              | exact ⟨Or.inr rfl, rfl⟩)
    | (simp only [Option.some.injEq, Prod.mk.injEq] at h
       obtain ⟨_, rfl⟩ := h
       exact ⟨Or.inl rfl, rfl⟩)

/-- `playNoteIfAvailable` keeps the lengths within 16 bits. -/
theorem playNoteIfAvailable_16bit (s s1 : State) (b : Bool)
    (h : playNoteIfAvailable s = some (b, s1)) (hr : s.lengths_16bit) : s1.lengths_16bit := by
  obtain ⟨hl, hd⟩ := playNoteIfAvailable_length s s1 b h
  unfold State.lengths_16bit at hr ⊢
  rcases hl with hl | hl <;> rw [hl, hd] <;> simp only [hr.1, hr.2, and_self]

/-- `playNoteOrBreak` followed by a step that leaves the lengths alone keeps them within 16 bits. -/
theorem play_or_break_16bit (s s1 : State) (b : Bool) (k : State → Option State)
    (hk : ∀ a c, k a = some c →
      c.length = a.length ∧ c.default_note_length = a.default_note_length)
    (h : play_or_break s k = some (b, s1)) (hr : s.lengths_16bit) : s1.lengths_16bit := by
  unfold play_or_break at h
  cases hp : playNoteIfAvailable s with
  | none => simp only [hp] at h; cases h
  | some r =>
    obtain ⟨b1, s2⟩ := r
    have h2 := playNoteIfAvailable_16bit s s2 b1 hp hr
    cases b1 with
    | true =>
      simp only [hp, Option.some.injEq, Prod.mk.injEq] at h
      obtain ⟨_, rfl⟩ := h
      exact h2
    | false =>
      simp only [hp] at h
      cases hk2 : k s2 with
      | none => simp only [hk2] at h; cases h
      | some s3 =>
        simp only [hk2, Option.some.injEq, Prod.mk.injEq] at h
        obtain ⟨_, rfl⟩ := h
        obtain ⟨e1, e2⟩ := hk s2 s3 hk2
        unfold State.lengths_16bit at h2 ⊢
        rw [e1, e2]; exact h2

/-- Fetching lines changes neither the pending length nor the default. -/
theorem read_next_line_length (file : List (List Char)) :
    ∀ s s1 : State, read_next_line file s = some s1 →
      s1.length = s.length ∧ s1.default_note_length = s.default_note_length := by
  induction file with
  | nil =>
    intro s s1 h
    simp only [read_next_line, Option.some.injEq] at h
    subst h
    exact ⟨rfl, rfl⟩
  | cons line more ih =>
    intro s s1 h
    simp only [read_next_line] at h
    split_ifs at h with hc hK hI
    · cases hk : changeKey (List.drop 2 (f_gets_into (s.readlinebuffer.getD []) line))
          s.key_signature with
      | none => simp only [hk] at h; cases h
      | some ks =>
        simp only [hk] at h
        have h3 := ih _ _ h
        exact h3
    · cases hp : parse_lf_tag (List.drop 2 (f_gets_into (s.readlinebuffer.getD []) line))
          s.hw.pool with
      | none => simp only [hp] at h; cases h
      | some q =>
        simp only [hp] at h
        have h3 := ih _ _ h
        exact h3
    · dsimp only at h
      have h3 := ih _ _ h
      exact h3
    · simp only [Option.some.injEq] at h
      subst h
      exact ⟨rfl, rfl⟩

/-- One iteration of the scan loop keeps the lengths within 16 bits. -/
theorem scan_char_16bit (s s1 : State) (b : Bool)
    (h : scan_char s = some (b, s1)) (hr : s.lengths_16bit) : s1.lengths_16bit := by
  by_cases h1 : '/' ≤ current_char s ∧ current_char s ≤ '9'
  · simp only [scan_char, eq_true h1, ne_eq, not_true_eq_false, not_false_eq_true, if_true,
      if_false] at h
    cases hs1 : store_numstring s.numstring
        (to_u16 ((s.readline_index : Int) -
          (if s.number_mode = 0 then to_i8 s.readline_index else s.number_mode)))
        (current_char s) with
    | none => simp only [hs1] at h; cases h
    | some ns1 =>
      simp only [hs1] at h
      split at h
      · cases h
      · simp only [Option.some.injEq, Prod.mk.injEq] at h
        obtain ⟨_, rfl⟩ := h
        exact hr
  by_cases h2 : s.number_mode = 0
  swap
  · simp only [scan_char, eq_false h1, eq_false h2, ne_eq, not_true_eq_false, not_false_eq_true,
      if_true, if_false] at h
    cases hv : string_to_note_length s.numstring with
    | none => simp only [hv] at h; cases h
    | some v =>
      simp only [hv, Option.some.injEq, Prod.mk.injEq] at h
      obtain ⟨_, rfl⟩ := h
      have hl0 : ((v * s.default_note_length) % 65536) >>> 5 ≤ 2047 := by
        rw [Nat.shiftRight_eq_div_pow]
        have := Nat.mod_lt (v * s.default_note_length) (by norm_num : 0 < 65536)
        omega
      refine ⟨?_, hr.2⟩
      show (if s.note_flags &&& rest ≠ 0 then
          (if ((v * s.default_note_length) % 65536) >>> 5 = 0 then 1
           else ((v * s.default_note_length) % 65536) >>> 5) * 3 / 2
        else (if ((v * s.default_note_length) % 65536) >>> 5 = 0 then 1
           else ((v * s.default_note_length) % 65536) >>> 5)) < 65536
      split_ifs <;> omega
  by_cases h3 : 'A' ≤ current_char s ∧ current_char s ≤ 'G'
  · simp only [scan_char, eq_false h1, eq_true h2, eq_true h3, ne_eq, not_true_eq_false,
      not_false_eq_true, if_true, if_false] at h
    exact play_or_break_16bit _ _ _ _
        (by
          intro a c hk
          split at hk
          · cases hk
          · simp only [Option.some.injEq] at hk; subst hk; exact ⟨rfl, rfl⟩)
        h hr
  by_cases h4 : 'a' ≤ current_char s ∧ current_char s ≤ 'g'
  · simp only [scan_char, eq_false h1, eq_true h2, eq_false h3, eq_true h4, ne_eq,
      not_true_eq_false, not_false_eq_true, if_true, if_false] at h
    exact play_or_break_16bit _ _ _ _
        (by
          intro a c hk
          split at hk
          · cases hk
          · simp only [Option.some.injEq] at hk; subst hk; exact ⟨rfl, rfl⟩)
        h hr
  by_cases h5 : current_char s = ','
  · simp only [scan_char, eq_false h1, eq_true h2, eq_false h3, eq_false h4, eq_true h5, ne_eq,
      not_true_eq_false, not_false_eq_true, if_true, if_false] at h
    simp only [Option.some.injEq, Prod.mk.injEq] at h
    obtain ⟨_, rfl⟩ := h
    split_ifs <;> exact hr
  by_cases h6 : current_char s = '\''
  · simp only [scan_char, eq_false h1, eq_true h2, eq_false h3, eq_false h4, eq_false h5, eq_true
      h6, ne_eq, not_true_eq_false, not_false_eq_true, if_true, if_false] at h
    simp only [Option.some.injEq, Prod.mk.injEq] at h
    obtain ⟨_, rfl⟩ := h
    split_ifs <;> exact hr
  by_cases h7 : current_char s = '_'
  · simp only [scan_char, eq_false h1, eq_true h2, eq_false h3, eq_false h4, eq_false h5, eq_false
      h6, eq_true h7, ne_eq, not_true_eq_false, not_false_eq_true, if_true, if_false] at h
    exact play_or_break_16bit _ _ _ _
        (by
          intro a c hk
          simp only [Option.some.injEq] at hk; subst hk; exact ⟨rfl, rfl⟩)
        h hr
  by_cases h8 : current_char s = '^'
  · simp only [scan_char, eq_false h1, eq_true h2, eq_false h3, eq_false h4, eq_false h5, eq_false
      h6, eq_false h7, eq_true h8, ne_eq, not_true_eq_false, not_false_eq_true, if_true, if_false]
      at h
    exact play_or_break_16bit _ _ _ _
        (by
          intro a c hk
          simp only [Option.some.injEq] at hk; subst hk; exact ⟨rfl, rfl⟩)
        h hr
  by_cases h9 : current_char s = '='
  · simp only [scan_char, eq_false h1, eq_true h2, eq_false h3, eq_false h4, eq_false h5, eq_false
      h6, eq_false h7, eq_false h8, eq_true h9, ne_eq, not_true_eq_false, not_false_eq_true,
      if_true, if_false] at h
    exact play_or_break_16bit _ _ _ _
        (by
          intro a c hk
          simp only [Option.some.injEq] at hk; subst hk; exact ⟨rfl, rfl⟩)
        h hr
  by_cases h10 : current_char s = Char.ofNat 0 ∨ current_char s = '%'
  · simp only [scan_char, eq_false h1, eq_true h2, eq_false h3, eq_false h4, eq_false h5, eq_false
      h6, eq_false h7, eq_false h8, eq_false h9, eq_true h10, ne_eq, not_true_eq_false,
      not_false_eq_true, if_true, if_false] at h
    cases hrd : read_next_line s.file s with
    | none => simp only [hrd] at h; cases h
    | some s2 =>
      obtain ⟨e1, e2⟩ := read_next_line_length s.file s s2 hrd
      simp only [hrd] at h
      split_ifs at h
      all_goals
        simp only [Option.some.injEq, Prod.mk.injEq] at h
        obtain ⟨_, rfl⟩ := h
        unfold State.lengths_16bit at hr ⊢
        show s2.length < 65536 ∧ s2.default_note_length < 65536
        rw [e1, e2]; exact hr
  by_cases h11 : current_char s = ' ' ∨ current_char s = '|'
  · simp only [scan_char, eq_false h1, eq_true h2, eq_false h3, eq_false h4, eq_false h5, eq_false
      h6, eq_false h7, eq_false h8, eq_false h9, eq_false h10, eq_true h11, ne_eq,
      not_true_eq_false, not_false_eq_true, if_true, if_false] at h
    exact play_or_break_16bit _ _ _ _
        (by
          intro a c hk
          simp only [Option.some.injEq] at hk; subst hk; exact ⟨rfl, rfl⟩)
        h hr
  by_cases h12 : current_char s = '['
  · simp only [scan_char, eq_false h1, eq_true h2, eq_false h3, eq_false h4, eq_false h5, eq_false
      h6, eq_false h7, eq_false h8, eq_false h9, eq_false h10, eq_false h11, eq_true h12, ne_eq,
      not_true_eq_false, not_false_eq_true, if_true, if_false] at h
    exact play_or_break_16bit _ _ _ _
        (by
          intro a c hk
          simp only [Option.some.injEq] at hk; subst hk; exact ⟨rfl, rfl⟩)
        h hr
  by_cases h13 : current_char s = ']'
  · simp only [scan_char, eq_false h1, eq_true h2, eq_false h3, eq_false h4, eq_false h5, eq_false
      h6, eq_false h7, eq_false h8, eq_false h9, eq_false h10, eq_false h11, eq_false h12, eq_true
      h13, ne_eq, not_true_eq_false, not_false_eq_true, if_true, if_false] at h
    exact play_or_break_16bit _ _ _ _
        (by
          intro a c hk
          simp only [Option.some.injEq] at hk; subst hk; exact ⟨rfl, rfl⟩)
        h hr
  by_cases h14 : current_char s = 'z' ∨ current_char s = 'x'
  · simp only [scan_char, eq_false h1, eq_true h2, eq_false h3, eq_false h4, eq_false h5, eq_false
      h6, eq_false h7, eq_false h8, eq_false h9, eq_false h10, eq_false h11, eq_false h12,
      eq_false h13, eq_true h14, ne_eq, not_true_eq_false, not_false_eq_true, if_true, if_false]
      at h
    exact play_or_break_16bit _ _ _ _
        (by
          intro a c hk
          simp only [Option.some.injEq] at hk; subst hk; exact ⟨rfl, rfl⟩)
        h hr
  by_cases h15 : current_char s = '-'
  · simp only [scan_char, eq_false h1, eq_true h2, eq_false h3, eq_false h4, eq_false h5, eq_false
      h6, eq_false h7, eq_false h8, eq_false h9, eq_false h10, eq_false h11, eq_false h12,
      eq_false h13, eq_false h14, eq_true h15, ne_eq, not_true_eq_false, not_false_eq_true,
      if_true, if_false] at h
    simp only [Option.some.injEq, Prod.mk.injEq] at h
    obtain ⟨_, rfl⟩ := h
    exact hr
  simp only [scan_char, eq_false h1, eq_true h2, eq_false h3, eq_false h4, eq_false h5, eq_false
    h6, eq_false h7, eq_false h8, eq_false h9, eq_false h10, eq_false h11, eq_false h12, eq_false
    h13, eq_false h14, eq_false h15, ne_eq, not_true_eq_false, not_false_eq_true, if_true,
    if_false] at h
  exact play_or_break_16bit _ _ _ _
      (by
        intro a c hk
        simp only [Option.some.injEq] at hk; subst hk; exact ⟨rfl, rfl⟩)
      h hr


/-- The scan loop keeps the lengths within 16 bits. -/
theorem scan_loop_16bit (fuel : Nat) :
    ∀ s s1 : State, scan_loop fuel s = some s1 → s.lengths_16bit → s1.lengths_16bit := by
  induction fuel with
  | zero => intro s s1 h _; cases h
  | succ n ih =>
    intro s s1 h hr
    simp only [scan_loop] at h
    cases hc : scan_char s with
    | none => simp only [hc] at h; cases h
    | some r =>
      obtain ⟨b, s2⟩ := r
      have h2 := scan_char_16bit s s2 b hc hr
      cases b with
      | true =>
        simp only [hc, Option.some.injEq] at h
        subst h
        exact h2
      | false =>
        simp only [hc] at h
        exact ih _ s1 h h2

/-- One iteration of the countdown loop leaves the sequencer variables alone. -/
theorem countdown_slot_length (j : Nat) (s s1 : State) (h : countdown_slot j s = some s1) :
    s1.length = s.length ∧ s1.default_note_length = s.default_note_length ∧
    s1.abc_playing ≤ s.abc_playing ∧ s1.time_until_next_note = s.time_until_next_note := by
  unfold countdown_slot at h
  cases hq : countdown_pool j s.hw.pool with
  | none => simp only [hq] at h; cases h
  | some q =>
    simp only [hq] at h
    split_ifs at h
    all_goals
      simp only [Option.some.injEq] at h
      subst h
      exact ⟨rfl, rfl, by simp [abc_stop], rfl⟩

/-- The countdown loop leaves the lengths alone. -/
theorem countdown_length (s s1 : State) (h : countdown s = some s1) :
    s1.length = s.length ∧ s1.default_note_length = s.default_note_length := by
  unfold countdown at h
  cases h0 : countdown_slot 0 s with
  | none => simp only [h0] at h; cases h
  | some a =>
    simp only [h0] at h
    cases h1 : countdown_slot 1 a with
    | none => simp only [h1] at h; cases h
    | some b =>
      simp only [h1] at h
      obtain ⟨a1, a2, _⟩ := countdown_slot_length 0 s a h0
      obtain ⟨b1, b2, _⟩ := countdown_slot_length 1 a b h1
      obtain ⟨c1, c2, _⟩ := countdown_slot_length 2 b s1 h
      exact ⟨by rw [c1, b1, a1], by rw [c2, b2, a2]⟩

/-- Throughout playback the pending length fits 16 bits: a beat-tick that
starts with `length` and `default_note_length` below 65536 ends so. -/
theorem beat_tick_16bit (fuel : Nat) (s s1 : State)
    (h : beat_tick fuel s = some s1) (hr : s.lengths_16bit) : s1.lengths_16bit := by
  unfold beat_tick at h
  cases hc : countdown { s with beat := s.beat + 1 } with
  | none => simp only [hc] at h; cases h
  | some a =>
    obtain ⟨e1, e2⟩ := countdown_length _ a hc
    have ha : a.lengths_16bit := by
      unfold State.lengths_16bit at hr ⊢
      rw [e1, e2]; exact hr
    simp only [hc] at h
    split_ifs at h
    · cases hs : scan_loop fuel (scan_init a) with
      | none => simp only [hs] at h; cases h
      | some b =>
        simp only [hs, Option.some.injEq] at h
        subst h
        exact scan_loop_16bit fuel _ b hs ⟨ha.2, ha.2⟩
    · simp only [Option.some.injEq] at h
      subst h
      exact ha

/-- The wait scheduled by a commit, and the rest flag after it. -/
theorem playNoteIfAvailable_wait (s : State)
    (hcommit : s.note_flags &&& rest ≠ 0 ∨ s.next_note ≠ 255) :
    ∃ b s1, playNoteIfAvailable s = some (b, s1) ∧
      s1.time_until_next_note
        = (if s.note_flags &&& rest ≠ 0 then s.length % 65536
           else if s.length < s.time_until_next_note then s.length % 65536
           else s.time_until_next_note) ∧
      (s.note_flags &&& rest = 0 → s1.note_flags &&& rest = 0) := by
  obtain ⟨q, hq⟩ := channel_play_total s.hw.pool
    (to_u8 ((s.next_note : Int) + s.accidental_shift)) (s.length % 256)
  have hmask : ∀ f : Nat, (f &&& (255 ^^^ (rest ||| natural))) &&& rest = 0 := by
    intro f
    have h63 : (255 ^^^ (rest ||| natural)) &&& rest = 0 := by decide
    rw [Nat.and_assoc, h63]
    exact Nat.and_zero f
  simp only [playNoteIfAvailable, hcommit, if_true, hq]
  by_cases hch : s.note_flags &&& chord = 0
  · simp only [hch, if_true]
    exact ⟨_, _, rfl, rfl, fun h => h⟩
  · simp only [hch, if_false]
    exact ⟨_, _, rfl, rfl, fun _ => hmask _⟩

/-- Committing non-rest members one after the other leaves the minimum of the wait and their lengths. -/
theorem commit_members_wait (ls : List (Nat × Nat)) :
    ∀ s : State, s.note_flags &&& rest = 0 → s.time_until_next_note < 65536 →
      (∀ m ∈ ls, m.1 ≠ 255) →
      ∃ s1, commit_members ls s = some s1 ∧
        s1.time_until_next_note = (ls.map Prod.snd).foldl min s.time_until_next_note := by
  induction ls with
  | nil => intro s _ _ _; exact ⟨s, rfl, rfl⟩
  | cons m more ih =>
    intro s hrest ht hp
    obtain ⟨pitch, len⟩ := m
    have hpitch : pitch ≠ 255 := hp (pitch, len) (List.mem_cons_self _ _)
    obtain ⟨b, s1, h1, hw, hr⟩ := playNoteIfAvailable_wait
      { s with next_note := pitch, length := len } (Or.inr hpitch)
    simp only [hrest, ne_eq, not_true_eq_false, if_false] at hw
    have hmin : s1.time_until_next_note = min s.time_until_next_note len := by
      rw [hw]
      split_ifs with hlt
      · rw [Nat.mod_eq_of_lt (by omega)]; omega
      · omega
    obtain ⟨s2, h2, hw2⟩ := ih s1 (hr hrest) (by rw [hmin]; omega)
      (fun x hx => hp x (List.mem_cons_of_mem _ hx))
    refine ⟨s2, by simp only [commit_members, h1, h2], ?_⟩
    rw [hw2, hmin]
    rfl

/-- C18: when `playNoteIfAvailable` commits, `time_until_next_note` becomes the
pending length (as `uint16_t`; the length itself whenever it fits 16 bits, as
it does throughout playback) if the rest flag is set, and otherwise the
minimum of the pending length and the previous wait, so a non-rest commit
never increases the wait; and after the commits of the non-rest members of a
chord, from the wait 255 set at the start of the scan pass, the wait is the
minimum of 255 and the lengths of all members. -/
theorem commit_schedules_wait (s : State) (ls : List (Nat × Nat))
    (hcommit : s.note_flags &&& rest ≠ 0 ∨ s.next_note ≠ 255)
    (ht : s.time_until_next_note < 65536) (hp : ∀ m ∈ ls, m.1 ≠ 255) :
    (∃ b s1, playNoteIfAvailable s = some (b, s1) ∧
      (s.note_flags &&& rest ≠ 0 → s1.time_until_next_note = s.length % 65536) ∧
      (s.note_flags &&& rest ≠ 0 → s.length < 65536 → s1.time_until_next_note = s.length) ∧
      (s.note_flags &&& rest = 0 →
        s1.time_until_next_note = min s.length s.time_until_next_note ∧
        s1.time_until_next_note ≤ s.time_until_next_note)) ∧
    (∃ s2, commit_members ls { scan_init s with note_flags := chord } = some s2 ∧
      s2.time_until_next_note = (ls.map Prod.snd).foldl min 255) := by
  constructor
  · obtain ⟨b, s1, h1, hw, _⟩ := playNoteIfAvailable_wait s hcommit
    refine ⟨b, s1, h1, ?_, ?_, ?_⟩
    · intro hr; rw [hw, if_pos hr]
    · intro hr hl; rw [hw, if_pos hr, Nat.mod_eq_of_lt hl]
    · intro hr
      have hr' : ¬ (s.note_flags &&& rest ≠ 0) := by simp [hr]
      rw [hw, if_neg hr']
      split_ifs with hlt
      · rw [Nat.mod_eq_of_lt (by omega)]
        exact ⟨(Nat.min_eq_left (by omega)).symm, by omega⟩
      · exact ⟨(Nat.min_eq_right (by omega)).symm, le_refl _⟩
  · exact commit_members_wait ls { scan_init s with note_flags := chord }
      (by show chord &&& rest = 0; decide) (by show (255 : Nat) < 65536; decide) hp

set_option maxRecDepth 100000 in
/-- Witness for C18: a chord member of length 16, the members of lengths 32,
16 and 8, and the scan passes over "[C4E2G]" (wait 8), "[C32E64]" (wait 255)
and the rest "z4 " (wait 48). -/
theorem commit_schedules_wait_witness :
    ((∃ b s1, playNoteIfAvailable chord_member_state = some (b, s1) ∧
      (chord_member_state.note_flags &&& rest ≠ 0 →
        s1.time_until_next_note = chord_member_state.length % 65536) ∧
      (chord_member_state.note_flags &&& rest ≠ 0 → chord_member_state.length < 65536 →
        s1.time_until_next_note = chord_member_state.length) ∧
      (chord_member_state.note_flags &&& rest = 0 →
        s1.time_until_next_note
          = min chord_member_state.length chord_member_state.time_until_next_note ∧
        s1.time_until_next_note ≤ chord_member_state.time_until_next_note)) ∧
    (∃ s2, commit_members [(39, 32), (43, 16), (46, 8)]
        { scan_init chord_member_state with note_flags := chord } = some s2 ∧
      s2.time_until_next_note = ([(39, 32), (43, 16), (46, 8)].map Prod.snd).foldl min 255)) ∧
    (beat_tick 100 (playing_state "[C4E2G]".toList [])).map
        (fun s => (s.played.map (fun c => c.duration), s.time_until_next_note))
      = some ([32, 16, 8], 8) ∧
    (beat_tick 100 (playing_state "[C32E64]".toList [])).map
        (fun s => s.time_until_next_note) = some 255 ∧
    (beat_tick 100 (playing_state "z4 ".toList [])).map
        (fun s => s.time_until_next_note) = some 48 :=
  ⟨commit_schedules_wait chord_member_state [(39, 32), (43, 16), (46, 8)] (by decide) (by decide)
      (by decide), by decide, by decide, by decide⟩

/-- The conversion step of the scan, from a state in which a run has been
stored: when `number_mode` is set, the current character is not a numeral
and `string_to_note_length(numstring) = v` with
`v * default_note_length < 65536`, the pending length becomes
`max(1, floor(v * default_note_length / 32))`, or the rounded-down 1.5-fold of
that value when the rest flag is set; it is at least 1 in both cases; the
run is closed and the current character is read again. -/
theorem numeral_run_length (s : State) (v : Nat)
    (hc : ¬ ('/' ≤ current_char s ∧ current_char s ≤ '9'))
    (hm : s.number_mode ≠ 0)
    (hv : string_to_note_length s.numstring = some v)
    (hprod : v * s.default_note_length < 65536) :
    ∃ s1, scan_char s = some (false, s1) ∧
      s1.length = (if s.note_flags &&& rest ≠ 0
                   then 3 * max 1 (v * s.default_note_length / 32) / 2
                   else max 1 (v * s.default_note_length / 32)) ∧
      1 ≤ s1.length ∧ s1.number_mode = 0 ∧
      s1.readline_index = (s.readline_index + 65535) % 65536 := by
  have hshift : ((v * s.default_note_length) % 65536) >>> 5 = v * s.default_note_length / 32 := by
    rw [Nat.mod_eq_of_lt hprod, Nat.shiftRight_eq_div_pow]
  have hmax : (if v * s.default_note_length / 32 = 0 then 1 else v * s.default_note_length / 32)
      = max 1 (v * s.default_note_length / 32) := by
    split_ifs with h
    · rw [h]; rfl
    · omega
  have hpos : 1 ≤ max 1 (v * s.default_note_length / 32) := le_max_left _ _
  simp only [scan_char, hc, if_false, hm, ne_eq, not_false_eq_true, if_true, hv, hshift, hmax]
  refine ⟨_, rfl, ?_, ?_, rfl, rfl⟩
  · show (if s.note_flags &&& rest ≠ 0 then max 1 (v * s.default_note_length / 32) * 3 / 2
        else max 1 (v * s.default_note_length / 32)) = _
    split_ifs
    · rw [Nat.mul_comm]
    · rfl
  · show 1 ≤ (if s.note_flags &&& rest ≠ 0 then max 1 (v * s.default_note_length / 32) * 3 / 2
        else max 1 (v * s.default_note_length / 32))
    split_ifs
    · omega
    · exact hpos

/-- An instance of the conversion step: the run "2" after B in "A B2 " gives length 16. -/
theorem numeral_run_length_witness :
    ∃ s1, scan_char numeral_done_state = some (false, s1) ∧
      s1.length = (if numeral_done_state.note_flags &&& rest ≠ 0
                   then 3 * max 1 (64 * numeral_done_state.default_note_length / 32) / 2
                   else max 1 (64 * numeral_done_state.default_note_length / 32)) ∧
      1 ≤ s1.length ∧ s1.number_mode = 0 ∧
      s1.readline_index = (numeral_done_state.readline_index + 65535) % 65536 :=
  numeral_run_length numeral_done_state 64 (by decide) (by decide) (by decide) (by decide)

set_option maxRecDepth 1000000 in
/-- C19, evaluation at the failing inputs: with default note length 8 the
numeral "2" converts to 64 and the claimed pending length is
`max(1, floor(64 * 8 / 32)) = 16`. For the run "2" at index 1 of "A2 " the
scan sets the pending length to 16, and to 24 under the rest flag in "z2 ".
For the same run at index 0 of "2A " the assignment
`number_mode=readline_index` leaves `number_mode` 0, the run is never
converted, the pending length is still 8 when the scan has passed the run,
and A is committed with duration 8. For the run "12" at index 0 of "12A " the
pending length becomes 16, where the claimed value is 96. -/
theorem numeral_run_at_line_start :
    string_to_note_length "2".toList = some 64 ∧ max 1 (64 * 8 / 32) = 16 ∧
    string_to_note_length "12".toList = some 384 ∧ max 1 (384 * 8 / 32) = 96 ∧
    (scan_steps 3 (scan_init (playing_state "A2 ".toList []))).map
        (fun s => (s.number_mode, s.length)) = some (0, 16) ∧
    (scan_steps 3 (scan_init (playing_state "z2 ".toList []))).map
        (fun s => (s.number_mode, s.length)) = some (0, 3 * 16 / 2) ∧
    (scan_steps 1 (scan_init (playing_state "2A ".toList []))).map
        (fun s => (s.readline_index, s.number_mode,
                   s.numstring.takeWhile (fun c => c ≠ Char.ofNat 0)))
      = some (1, 0, "2".toList) ∧
    (scan_steps 2 (scan_init (playing_state "2A ".toList []))).map
        (fun s => (s.readline_index, s.number_mode, s.length, s.next_note))
      = some (2, 0, 8, 48) ∧
    (scan_loop 100 (scan_init (playing_state "2A ".toList []))).map
        (fun s => (s.length, s.played.map (fun c => (c.note, c.duration))))
      = some (8, [(48, 8)]) ∧
    (scan_steps 3 (scan_init (playing_state "12A ".toList []))).map
        (fun s => (s.number_mode, s.length,
                   s.numstring.takeWhile (fun c => c ≠ Char.ofNat 0)))
      = some (0, 16, "2".toList) := by
  decide

set_option maxRecDepth 1000000 in
/-- C20, evaluation at the failing inputs: the run "12" at index 1 reaches the
parser whole (A committed with duration 96), but at index 0 only "2" is left
in `numstring` (duration 16) and the single-digit run "2" at index 0 is never
converted (duration 8); a run at index 127 works, and for a run at index 128
`number_mode` becomes -128 and the store goes to `numstring[256]`, outside
the buffer. -/
theorem numeral_run_depends_on_index :
    (beat_tick 100 (playing_state " 12A ".toList [])).map
        (fun s => (s.numstring.takeWhile (fun c => c ≠ Char.ofNat 0), s.played))
      = some ("12".toList, [{ beat := 1, note := 48, duration := 96 }]) ∧
    (beat_tick 100 (playing_state "12A ".toList [])).map
        (fun s => (s.numstring.takeWhile (fun c => c ≠ Char.ofNat 0), s.played))
      = some ("2".toList, [{ beat := 1, note := 48, duration := 16 }]) ∧
    (beat_tick 100 (playing_state "2A ".toList [])).map
        (fun s => (s.numstring.takeWhile (fun c => c ≠ Char.ofNat 0), s.played))
      = some ("2".toList, [{ beat := 1, note := 48, duration := 8 }]) ∧
    (beat_tick 1000 (playing_state (List.replicate 126 ' ' ++ "A2 ".toList) [])).map
        (fun s => s.played) = some [{ beat := 1, note := 48, duration := 16 }] ∧
    beat_tick 1000 (playing_state (List.replicate 127 ' ' ++ "A2 ".toList) []) = none ∧
    to_i8 128 = -128 ∧ to_u16 (128 - to_i8 128) = 256 ∧
    store_numstring (List.replicate 16 (Char.ofNat 0)) 256 '2' = none ∧
    scan_char { scan_init (playing_state (List.replicate 127 ' ' ++ "A2 ".toList) []) with
                next_note := 48, readline_index := 128 } = none := by
  decide


/-- The count left on a channel drops by one per countdown, down to 0. -/
theorem remaining_counted (c : Channel) : c.counted.remaining = c.remaining - 1 := by
  unfold Channel.counted Channel.remaining
  by_cases h0 : c.time_until_release = 0
  · simp [h0]
  · by_cases hn : c.note = OFF
    · simp [h0, hn]
    · simp [h0, hn]

/-- A channel sounds after the countdown exactly when it sounded with a count above 0. -/
theorem counted_note (c : Channel) : c.counted.note ≠ OFF ↔ c.remaining ≠ 0 := by
  unfold Channel.counted Channel.remaining
  by_cases h0 : c.time_until_release = 0
  · simp [h0]
  · by_cases hn : c.note = OFF
    · simp [h0, hn]
    · simp [h0, hn]

/-- The channels after one run of the countdown loop. -/
theorem countdown_channels (s : State) :
    ∃ s1, countdown s = some s1 ∧ s1.hw.pool.ch0 = s.hw.pool.ch0.counted ∧
      s1.hw.pool.ch1 = s.hw.pool.ch1.counted ∧ s1.hw.pool.ch2 = s.hw.pool.ch2.counted := by
  obtain ⟨a, ha, ha1, ha2⟩ := countdown_slot_view s 0 s.hw.pool.ch0 (by omega) rfl
  obtain ⟨b, hb, hb1, hb2⟩ := countdown_slot_view s 1 s.hw.pool.ch1 (by omega) rfl
  obtain ⟨c, hc, hc1, hc2⟩ := countdown_slot_view s 2 s.hw.pool.ch2 (by omega) rfl
  rw [ha] at hb hc
  cases hb
  cases hc
  have key : ∀ (x y : Channel),
      (x.time_until_release ≠ 0 →
        some y = some { x with time_until_release := x.time_until_release - 1 }) →
      (x.time_until_release = 0 → some y = some { x with note := OFF }) → y = x.counted := by
    intro x y h1 h2
    unfold Channel.counted
    by_cases h0 : x.time_until_release = 0
    · rw [if_pos h0]; exact Option.some.inj (h2 h0)
    · rw [if_neg h0]; exact Option.some.inj (h1 h0)
  refine ⟨a, ha, ?_, ?_, ?_⟩
  · exact key _ _ (fun h => (ha1 h).1) (fun h => (ha2 h).1)
  · exact key _ _ (fun h => (hb1 h).1) (fun h => (hb2 h).1)
  · exact key _ _ (fun h => (hc1 h).1) (fun h => (hc2 h).1)

/-- An empty mask stays empty under the if/else of the countdown loop. -/
theorem countdown_pool_mask_zero (j : Nat) (p q : Pool) (h : countdown_pool j p = some q)
    (h0 : p.occupied_channels = 0) : q.occupied_channels = 0 := by
  obtain ⟨c0, c1, c2, occ⟩ := p
  simp only at h0
  subst h0
  unfold countdown_pool at h
  match j with
  | 0 =>
    simp only [Pool.getChan, Pool.setChan] at h
    split_ifs at h <;> cases h <;> rfl
  | 1 =>
    simp only [Pool.getChan, Pool.setChan] at h
    split_ifs at h <;> cases h <;> rfl
  | 2 =>
    simp only [Pool.getChan, Pool.setChan] at h
    split_ifs at h <;> cases h <;> rfl
  | (_ + 3) => simp [Pool.getChan] at h

/-- One iteration of the countdown loop in a finishing song: afterwards the
song is still finishing and the mask is not empty, or the song is stopped,
the audio is off and the mask is empty. -/
theorem countdown_slot_finishing (j : Nat) (s : State) (hj : j ≤ 2)
    (h : s.abc_playing = ABC_FINISHING ∨
      (s.abc_playing = 0 ∧ s.hw.pwm_in_use = 0 ∧ s.hw.pool.occupied_channels = 0)) :
    ∃ s1, countdown_slot j s = some s1 ∧ s1.beat = s.beat ∧
      ((s1.abc_playing = ABC_FINISHING ∧ s1.hw.pool.occupied_channels ≠ 0) ∨
       (s1.abc_playing = 0 ∧ s1.hw.pwm_in_use = 0 ∧ s1.hw.pool.occupied_channels = 0)) := by
  obtain ⟨q, c, hq, _⟩ := countdown_pool_slots j s.hw.pool hj
  simp only [countdown_slot, hq]
  rcases h with hf | ⟨hs, hp, ho⟩
  · by_cases hz : q.occupied_channels = 0
    · rw [if_pos ⟨hz, hf⟩]
      refine ⟨_, rfl, rfl, Or.inr ⟨rfl, ?_, ?_⟩⟩
      · simp only [abc_stop, pwm_stop]
        split_ifs with hx
        · rfl
        · simpa using hx
      · rw [abc_stop_pool]; exact hz
    · rw [if_neg (fun hx => hz hx.1)]
      exact ⟨_, rfl, rfl, Or.inl ⟨hf, hz⟩⟩
  · have hne : ¬ (q.occupied_channels = 0 ∧ s.abc_playing = ABC_FINISHING) := by
      intro hx
      rw [hs] at hx
      exact absurd hx.2 (by decide)
    rw [if_neg hne]
    exact ⟨_, rfl, rfl, Or.inr ⟨hs, hp, countdown_pool_mask_zero j _ q hq ho⟩⟩

/-- The countdown loop in a finishing song: afterwards the song is still
finishing and the mask is not empty, or the song is stopped, the audio is off
and the mask is empty. -/
theorem countdown_finishing (s : State) (hf : s.abc_playing = ABC_FINISHING) :
    ∃ s1, countdown s = some s1 ∧ s1.beat = s.beat ∧
      ((s1.abc_playing = ABC_FINISHING ∧ s1.hw.pool.occupied_channels ≠ 0) ∨
       (s1.abc_playing = 0 ∧ s1.hw.pwm_in_use = 0 ∧ s1.hw.pool.occupied_channels = 0)) := by
  have weaken : ∀ x : State,
      ((x.abc_playing = ABC_FINISHING ∧ x.hw.pool.occupied_channels ≠ 0) ∨
       (x.abc_playing = 0 ∧ x.hw.pwm_in_use = 0 ∧ x.hw.pool.occupied_channels = 0)) →
      (x.abc_playing = ABC_FINISHING ∨
       (x.abc_playing = 0 ∧ x.hw.pwm_in_use = 0 ∧ x.hw.pool.occupied_channels = 0)) := by
    intro x hx
    rcases hx with h | h
    · exact Or.inl h.1
    · exact Or.inr h
  obtain ⟨a, ha, hab, hak⟩ := countdown_slot_finishing 0 s (by omega) (Or.inl hf)
  obtain ⟨b, hb, hbb, hbk⟩ := countdown_slot_finishing 1 a (by omega) (weaken a hak)
  obtain ⟨c, hc, hcb, hck⟩ := countdown_slot_finishing 2 b (by omega) (weaken b hbk)
  exact ⟨c, by simp only [countdown, ha, hb, hc], by rw [hcb, hbb, hab], hck⟩

/-- A mask below 8 is empty exactly when its three low bits are clear. -/
theorem mask_zero_iff : ∀ occ < 8,
    (occ = 0 ↔ (mask_bit occ 0 = false ∧ mask_bit occ 1 = false ∧ mask_bit occ 2 = false)) := by
  decide

/-- The countdown loop in a finishing song with a pool that satisfies the
occupancy invariant: the largest count drops by one, and the song stops
exactly when that count was 0. -/
theorem countdown_finishing_step (s : State) (hf : s.abc_playing = ABC_FINISHING)
    (hc : s.hw.pool.consistent) :
    ∃ s1, countdown s = some s1 ∧ s1.beat = s.beat ∧ s1.hw.pool.consistent ∧
      s1.hw.pool.max_remaining = s.hw.pool.max_remaining - 1 ∧
      (s.hw.pool.max_remaining ≠ 0 →
        s1.abc_playing = ABC_FINISHING ∧ s1.hw.pool.occupied_channels ≠ 0) ∧
      (s.hw.pool.max_remaining = 0 →
        s1.abc_playing = 0 ∧ s1.hw.pwm_in_use = 0 ∧ s1.hw.pool.occupied_channels = 0) := by
  obtain ⟨s1, h1, hbeat, hk⟩ := countdown_finishing s hf
  obtain ⟨s2, h2, hcons⟩ := countdown_consistent s hc
  obtain ⟨s3, h3, e0, e1, e2⟩ := countdown_channels s
  rw [h1] at h2 h3
  cases h2
  cases h3
  have hm : s1.hw.pool.max_remaining = s.hw.pool.max_remaining - 1 := by
    simp only [Pool.max_remaining, e0, e1, e2, remaining_counted]
    omega
  obtain ⟨b0, b1, b2, hlt⟩ := hcons
  have hz := mask_zero_iff _ hlt
  rw [e0] at b0
  rw [e1] at b1
  rw [e2] at b2
  rw [counted_note] at b0 b1 b2
  have hiff : s1.hw.pool.occupied_channels = 0 ↔ s.hw.pool.max_remaining = 0 := by
    rw [hz]
    simp only [Pool.max_remaining]
    constructor
    · rintro ⟨x0, x1, x2⟩
      have y0 : s.hw.pool.ch0.remaining = 0 := by
        by_contra hne
        rw [b0.mpr hne] at x0
        cases x0
      have y1 : s.hw.pool.ch1.remaining = 0 := by
        by_contra hne
        rw [b1.mpr hne] at x1
        cases x1
      have y2 : s.hw.pool.ch2.remaining = 0 := by
        by_contra hne
        rw [b2.mpr hne] at x2
        cases x2
      rw [y0, y1, y2]
      rfl
    · intro hmax
      have y0 : s.hw.pool.ch0.remaining = 0 := by omega
      have y1 : s.hw.pool.ch1.remaining = 0 := by omega
      have y2 : s.hw.pool.ch2.remaining = 0 := by omega
      refine ⟨?_, ?_, ?_⟩
      · by_contra hne
        exact (b0.mp (by simpa using hne)) y0
      · by_contra hne
        exact (b1.mp (by simpa using hne)) y1
      · by_contra hne
        exact (b2.mp (by simpa using hne)) y2
  refine ⟨s1, h1, hbeat, ⟨by rw [e0, counted_note]; exact b0, by rw [e1, counted_note]; exact b1,
    by rw [e2, counted_note]; exact b2, hlt⟩, hm, ?_, ?_⟩
  · intro hne
    rcases hk with hk | hk
    · exact hk
    · exact absurd (hiff.mp hk.2.2) hne
  · intro he
    rcases hk with hk | hk
    · exact absurd (hiff.mpr he) hk.2
    · exact hk

/-- One beat-tick of a finishing song with a pool that satisfies the occupancy
invariant: no scan pass runs, the largest count drops by one, and the song
stops exactly when that count was 0. -/
theorem beat_tick_finishing (fuel : Nat) (s : State) (hf : s.abc_playing = ABC_FINISHING)
    (hc : s.hw.pool.consistent) :
    ∃ s1, beat_tick fuel s = some s1 ∧ s1.beat = s.beat + 1 ∧ s1.hw.pool.consistent ∧
      s1.hw.pool.max_remaining = s.hw.pool.max_remaining - 1 ∧
      (s.hw.pool.max_remaining ≠ 0 →
        s1.abc_playing = ABC_FINISHING ∧ s1.hw.pool.occupied_channels ≠ 0) ∧
      (s.hw.pool.max_remaining = 0 →
        s1.abc_playing = 0 ∧ s1.hw.pwm_in_use = 0 ∧ s1.hw.pool.occupied_channels = 0) := by
  obtain ⟨s1, h1, hbeat, hcons, hm, hpos, hzero⟩ :=
    countdown_finishing_step { s with beat := s.beat + 1 } hf hc
  have hnp : ¬ (s1.abc_playing = ABC_PLAYING ∧ s1.time_until_next_note = 0) := by
    intro hx
    by_cases hmax : s.hw.pool.max_remaining = 0
    · have := (hzero hmax).1
      rw [this] at hx
      exact absurd hx.1 (by decide)
    · have := (hpos hmax).1
      rw [this] at hx
      exact absurd hx.1 (by decide)
  simp only [beat_tick, h1, if_neg hnp]
  exact ⟨_, rfl, hbeat, hcons, hm, hpos, hzero⟩

/-- The loop of `abc_play` is left at once in a stopped state. -/
theorem abc_play_loop_stopped (fuel n : Nat) (s : State) (h : s.abc_playing = 0) :
    abc_play_loop fuel n s = some s := by
  cases n with
  | zero => simp only [abc_play_loop, h, if_true]
  | succ m => simp only [abc_play_loop, h, if_true]

/-- A finishing song whose largest count is `m` is still finishing after each
of the first `m` beat-ticks and stops on beat-tick `m + 1`. -/
theorem finishing_run (fuel : Nat) (m : Nat) :
    ∀ s : State, s.abc_playing = ABC_FINISHING → s.hw.pool.consistent →
      s.hw.pool.max_remaining = m →
      (∀ k, k ≤ m → ∃ sk, abc_play_steps fuel k s = some sk ∧
        sk.abc_playing = ABC_FINISHING ∧ sk.beat = s.beat + k) ∧
      (∃ s1, abc_play_steps fuel (m + 1) s = some s1 ∧ s1.abc_playing = ABC_STOPPED ∧
        s1.hw.pwm_in_use = 0 ∧ s1.hw.pool.occupied_channels = 0 ∧ s1.beat = s.beat + (m + 1) ∧
        ∀ n, m + 1 ≤ n → abc_play_loop fuel n s = some s1) := by
  induction m with
  | zero =>
    intro s hf hc hm
    obtain ⟨s1, h1, hbeat, _, _, _, hzero⟩ := beat_tick_finishing fuel s hf hc
    obtain ⟨hs, hp, ho⟩ := hzero hm
    have hne : ¬ s.abc_playing = 0 := by rw [hf]; decide
    refine ⟨?_, s1, ?_, hs, hp, ho, hbeat, ?_⟩
    · intro k hk
      have : k = 0 := by omega
      subst this
      exact ⟨s, rfl, hf, rfl⟩
    · simp only [abc_play_steps, if_neg hne, h1]
    · intro n hn
      obtain ⟨n', rfl⟩ : ∃ n', n = n' + 1 := ⟨n - 1, by omega⟩
      simp only [abc_play_loop, if_neg hne, h1]
      exact abc_play_loop_stopped fuel n' s1 hs
  | succ m ih =>
    intro s hf hc hm
    obtain ⟨s1, h1, hbeat, hcons, hmax, hpos, _⟩ := beat_tick_finishing fuel s hf hc
    have hf1 := (hpos (by omega)).1
    obtain ⟨ihk, s2, hs2, hstop, hpwm, hocc, hb2, hloop⟩ := ih s1 hf1 hcons (by omega)
    have hne : ¬ s.abc_playing = 0 := by rw [hf]; decide
    refine ⟨?_, s2, ?_, hstop, hpwm, hocc, by omega, ?_⟩
    · intro k hk
      cases k with
      | zero => exact ⟨s, rfl, hf, rfl⟩
      | succ k' =>
        obtain ⟨sk, hsk, hfk, hbk⟩ := ihk k' (by omega)
        refine ⟨sk, ?_, hfk, by omega⟩
        simp only [abc_play_steps, if_neg hne, h1]
        exact hsk
    · simp only [abc_play_steps, if_neg hne, h1]
      exact hs2
    · intro n hn
      obtain ⟨n', rfl⟩ : ∃ n', n = n' + 1 := ⟨n - 1, by omega⟩
      simp only [abc_play_loop, if_neg hne, h1]
      exact hloop n' (by omega)

/-- C21: from every state in which the song is finishing (`ABC_FINISHING`) and
the pool satisfies the occupancy invariant, with `M` the largest
`time_until_release` among the occupied slots (0 when none is occupied): a
beat-tick leaves the song finishing when a slot is occupied afterwards and
stops it otherwise; the song is still finishing after each of the first `M`
beat-ticks; beat-tick `M + 1` ends in `ABC_STOPPED` with `pwm_in_use = 0` and
an empty mask; and the loop of `abc_play` returns that state whenever it is
given `M + 1` beat-ticks or more. -/
theorem finishing_song_stops (fuel : Nat) (s : State) (hf : s.abc_playing = ABC_FINISHING)
    (hc : s.hw.pool.consistent) :
    (∃ s1, beat_tick fuel s = some s1 ∧
      (s1.hw.pool.occupied_channels ≠ 0 → s1.abc_playing = ABC_FINISHING) ∧
      (s1.hw.pool.occupied_channels = 0 → s1.abc_playing = ABC_STOPPED ∧ s1.hw.pwm_in_use = 0)) ∧
    (∀ k, k ≤ s.hw.pool.max_remaining → ∃ sk, abc_play_steps fuel k s = some sk ∧
      sk.abc_playing = ABC_FINISHING ∧ sk.beat = s.beat + k) ∧
    (∃ s1, abc_play_steps fuel (s.hw.pool.max_remaining + 1) s = some s1 ∧
      s1.abc_playing = ABC_STOPPED ∧ s1.hw.pwm_in_use = 0 ∧ s1.hw.pool.occupied_channels = 0 ∧
      s1.beat = s.beat + (s.hw.pool.max_remaining + 1) ∧
      ∀ n, s.hw.pool.max_remaining + 1 ≤ n → abc_play_loop fuel n s = some s1) := by
  obtain ⟨s1, h1, _, _, _, hpos, hzero⟩ := beat_tick_finishing fuel s hf hc
  obtain ⟨hk, hstop⟩ := finishing_run fuel s.hw.pool.max_remaining s hf hc rfl
  refine ⟨⟨s1, h1, ?_, ?_⟩, hk, hstop⟩
  · intro hne
    by_cases hm : s.hw.pool.max_remaining = 0
    · exact absurd (hzero hm).2.2 hne
    · exact (hpos hm).1
  · intro he
    by_cases hm : s.hw.pool.max_remaining = 0
    · exact ⟨(hzero hm).1, (hzero hm).2.1⟩
    · exact absurd he (hpos hm).2

set_option maxRecDepth 100000 in
/-- Witness for C21: A4 with 3 and C4 with 5 beat-ticks left in a finishing
song: still finishing after beat-tick 5, stopped by beat-tick 6. -/
theorem finishing_song_stops_witness :
    finishing_state.hw.pool.max_remaining = 5 ∧
    (abc_play_steps 0 5 finishing_state).map (fun s => (s.abc_playing, s.beat))
      = some (ABC_FINISHING, 5) ∧
    (abc_play_loop 0 6 finishing_state).map (fun s => (s.abc_playing, s.hw.pwm_in_use, s.beat))
      = some (ABC_STOPPED, 0, 6) ∧
    abc_play_loop 0 5 finishing_state = none ∧
    ((∃ s1, beat_tick 0 finishing_state = some s1 ∧
      (s1.hw.pool.occupied_channels ≠ 0 → s1.abc_playing = ABC_FINISHING) ∧
      (s1.hw.pool.occupied_channels = 0 → s1.abc_playing = ABC_STOPPED ∧ s1.hw.pwm_in_use = 0)) ∧
    (∀ k, k ≤ finishing_state.hw.pool.max_remaining →
      ∃ sk, abc_play_steps 0 k finishing_state = some sk ∧
      sk.abc_playing = ABC_FINISHING ∧ sk.beat = finishing_state.beat + k) ∧
    (∃ s1, abc_play_steps 0 (finishing_state.hw.pool.max_remaining + 1) finishing_state = some s1 ∧
      s1.abc_playing = ABC_STOPPED ∧ s1.hw.pwm_in_use = 0 ∧ s1.hw.pool.occupied_channels = 0 ∧
      s1.beat = finishing_state.beat + (finishing_state.hw.pool.max_remaining + 1) ∧
      ∀ n, finishing_state.hw.pool.max_remaining + 1 ≤ n →
        abc_play_loop 0 n finishing_state = some s1)) :=
  ⟨by decide, by decide, by decide, by decide,
    finishing_song_stops 0 finishing_state (by decide)
      (by unfold Pool.consistent; decide)⟩


/-- A character that does not occur in a string, and is not the terminator, is
not read at any index. -/
theorem char_at_ne (str : List Char) (c : Char) (hc : c ∉ str) (h0 : c ≠ Char.ofNat 0)
    (j : Nat) : char_at str j ≠ c := by
  by_cases h : j < str.length
  · intro he
    exact hc (he ▸ char_at_mem str j h)
  · unfold char_at
    rw [List.getD_eq_default _ _ (by omega)]
    exact fun he => h0 he.symm

/-- The copy loop of the `Q:` handler stops at offset `n` when the first `'='`
after the tag stands there, `n` is at most 15 and no terminator comes before. -/
theorem tempo_base_end_found (line : List Char) (n : Nat) (hn : n ≤ 15)
    (hbefore : ∀ j, j < n → char_at line (j + 2) ≠ '=' ∧ char_at line (j + 2) ≠ Char.ofNat 0)
    (hat : char_at line (n + 2) = '=') :
    ∀ fuel i, i ≤ n → n ≤ i + fuel → tempo_base_end line fuel i = n := by
  intro fuel
  induction fuel with
  | zero =>
    intro i h1 h2
    simp only [tempo_base_end]
    omega
  | succ f ih =>
    intro i h1 h2
    by_cases hi : i < n
    · have h15 : i < 15 := by omega
      have hb := hbefore i hi
      have hnot : ¬ (char_at line (i + 2) = '=' ∨ char_at line (i + 2) = Char.ofNat 0) := by
        intro hx
        rcases hx with hx | hx
        · exact hb.1 hx
        · exact hb.2 hx
      simp only [tempo_base_end, if_pos h15, if_neg hnot]
      exact ih (i + 1) (by omega) (by omega)
    · have hin : i = n := by omega
      subst hin
      by_cases h15 : i < 15
      · simp only [tempo_base_end, if_pos h15, hat, true_or, if_true]
      · simp only [tempo_base_end, if_neg h15]

/-- The halving loop of the `Q:` handler on the base `8 * 2^k`: `k` halvings,
the tempo doubled `k` times. -/
theorem tempo_scale_down_pow (k : Nat) :
    ∀ fuel t, k < fuel → t * 2 ^ k < 65536 →
      tempo_scale_down fuel (8 * 2 ^ k) t = some (8, t * 2 ^ k) := by
  induction k with
  | zero =>
    intro fuel t hf _
    obtain ⟨f, rfl⟩ : ∃ f, fuel = f + 1 := ⟨fuel - 1, by omega⟩
    simp [tempo_scale_down]
  | succ k ih =>
    intro fuel t hf ht
    obtain ⟨f, rfl⟩ : ∃ f, fuel = f + 1 := ⟨fuel - 1, by omega⟩
    have hpos : 1 ≤ 2 ^ k := Nat.one_le_two_pow
    have hgt : 8 * 2 ^ (k + 1) > 8 := by rw [pow_succ]; omega
    have hhalf : (8 * 2 ^ (k + 1)) >>> 1 = 8 * 2 ^ k := by
      rw [Nat.shiftRight_eq_div_pow, pow_succ]; omega
    have ht2 : t * 2 * 2 ^ k < 65536 := by
      rw [pow_succ] at ht
      calc t * 2 * 2 ^ k = t * (2 ^ k * 2) := by ring
        _ < 65536 := ht
    have hsmall : t * 2 < 65536 := by
      calc t * 2 = t * 2 * 1 := by ring
        _ ≤ t * 2 * 2 ^ k := Nat.mul_le_mul_left _ hpos
        _ < 65536 := ht2
    have hdbl : (t <<< 1) % 65536 = t * 2 := by
      rw [Nat.shiftLeft_eq, pow_one, Nat.mod_eq_of_lt hsmall]
    simp only [tempo_scale_down, if_pos hgt, hhalf, hdbl]
    rw [ih f (t * 2) (by omega) ht2]
    congr 2
    rw [pow_succ]; ring

/-- A `Q:` line without `'='` is taken as a quarter-note tempo. -/
theorem tempo_header_no_base (text : List Char) (h : '=' ∉ text) :
    tempo_header ('Q' :: ':' :: text) = calculate_tempo_32nd (to_u16 (atoi text)) := by
  have hmem : '=' ∉ ('Q' :: ':' :: text) := by
    simp only [List.mem_cons, not_or]
    exact ⟨by decide, by decide, h⟩
  have hne := char_at_ne _ '=' hmem (by decide)
    (tempo_base_end ('Q' :: ':' :: text) 15 0 + 2)
  simp [tempo_header, hne, normalise_tempo]

/-- A `Q:` line with a base of at most 15 characters before the first `'='`:
the base is converted by `string_to_note_length`, the tempo is read behind the
`'='`, and the threshold is computed from the normalised tempo. -/
theorem tempo_header_with_base (base text : List Char) (hlen : base.length ≤ 15)
    (hb : ∀ c ∈ base, c ≠ '=' ∧ c ≠ Char.ofNat 0) :
    tempo_header ('Q' :: ':' :: (base ++ '=' :: text))
      = match string_to_note_length base with
        | none => none
        | some note_length =>
          match normalise_tempo note_length (to_u16 (atoi text)) with
          | none => none
          | some (_, tempo1) => calculate_tempo_32nd tempo1 := by
  have hchar : ∀ j, char_at ('Q' :: ':' :: (base ++ '=' :: text)) (j + 2)
      = char_at (base ++ '=' :: text) j := by
    intro j
    simp [char_at]
  have hbefore : ∀ j, j < base.length →
      char_at ('Q' :: ':' :: (base ++ '=' :: text)) (j + 2) ≠ '=' ∧
      char_at ('Q' :: ':' :: (base ++ '=' :: text)) (j + 2) ≠ Char.ofNat 0 := by
    intro j hj
    rw [hchar]
    have hm : char_at (base ++ '=' :: text) j ∈ base := by
      have := char_at_mem base j hj
      unfold char_at at this ⊢
      rw [List.getD_eq_getElem _ _ (by simp; omega), List.getElem_append_left hj]
      rw [List.getD_eq_getElem _ _ hj] at this
      exact this
    exact hb _ hm
  have hat : char_at ('Q' :: ':' :: (base ++ '=' :: text)) (base.length + 2) = '=' := by
    rw [hchar]
    unfold char_at
    rw [List.getD_eq_getElem _ _ (by simp)]
    rw [List.getElem_append_right (le_refl _)]
    simp
  have hi := tempo_base_end_found _ base.length hlen hbefore hat 15 0 (by omega) (by omega)
  have htake : (List.drop 2 ('Q' :: ':' :: (base ++ '=' :: text))).take base.length = base := by
    simp
  have hdrop : List.drop (base.length + 1 + 2) ('Q' :: ':' :: (base ++ '=' :: text)) = text := by
    simp
  simp only [tempo_header, hi, hat, if_true, htake, hdrop]
  cases hs : string_to_note_length base with
  | none => simp only []
  | some nl => simp only [hdrop]

/-- The doubling loop of the `Q:` handler on the bases 4, 2 and 1: one, two
and three doublings, the tempo halved as often. -/
theorem tempo_scale_up_small (t : Nat) :
    normalise_tempo 4 t = some (8, t / 2) ∧ normalise_tempo 2 t = some (8, t / 4) ∧
    normalise_tempo 1 t = some (8, t / 8) := by
  have h1 : t >>> 1 = t / 2 := by rw [Nat.shiftRight_eq_div_pow, pow_one]
  have h2 : (t / 2) >>> 1 = t / 4 := by
    rw [Nat.shiftRight_eq_div_pow, Nat.div_div_eq_div_mul]
  have h3 : (t / 4) >>> 1 = t / 8 := by
    rw [Nat.shiftRight_eq_div_pow, Nat.div_div_eq_div_mul]
  refine ⟨?_, ?_, ?_⟩
  · simp [normalise_tempo, tempo_scale_up, h1]
  · simp [normalise_tempo, tempo_scale_up, h1, h2]
  · simp [normalise_tempo, tempo_scale_up, h1, h2, h3]

/-- The adjustment of the tempo for the base `8 * 2^k`. -/
theorem normalise_tempo_pow (k t : Nat) (ht1 : 1 ≤ t) (ht : t * 2 ^ k < 65536) :
    normalise_tempo (8 * 2 ^ k) t = some (8, t * 2 ^ k) := by
  have hk : k < 17 := by
    by_contra hge
    have h16 : 2 ^ 17 ≤ 2 ^ k := Nat.pow_le_pow_right (by norm_num) (by omega)
    have : 1 * 2 ^ k ≤ t * 2 ^ k := Nat.mul_le_mul_right _ ht1
    norm_num at h16
    omega
  have hpos : 1 ≤ 2 ^ k := Nat.one_le_two_pow
  have hnlt : ¬ 8 * 2 ^ k < 8 := by omega
  by_cases h0 : k = 0
  · subst h0
    simp [normalise_tempo]
  · have hgt : 8 * 2 ^ k > 8 := by
      obtain ⟨j, rfl⟩ : ∃ j, k = j + 1 := ⟨k - 1, by omega⟩
      have : 1 ≤ 2 ^ j := Nat.one_le_two_pow
      rw [pow_succ]; omega
    simp only [normalise_tempo, if_neg hnlt, if_pos hgt]
    exact tempo_scale_down_pow k 17 t hk ht

/-- C22 (amended): the `Q:` handler of `abc_load_file`, with `t >= 1` the tempo
that is read (as `uint16_t`) from the text of the directive: a line "Q:"
followed by a text without `'='` sets `bpmLimit = floor(153750 / t)`; a line
whose base (the text before the first `'='`, of at most 15 characters, the
capacity of `note_length_string`) is converted by `string_to_note_length` to
`8 * 2^k` sets
`bpmLimit = floor(153750 / (t * 2^k))` when `t * 2^k < 65536`; a line whose
base is converted to `8 / 2^k`, `k` = 1, 2, 3, sets
`bpmLimit = floor(153750 / floor(t / 2^k))` when `floor(t / 2^k) >= 1`; and
"Q:1/2=60" and "Q:1/8=240" give the threshold 1281 of "Q:1/4=120". -/
theorem tempo_header_proportional (base text : List Char) (k t : Nat)
    (hlen : base.length ≤ 15) (hb : ∀ c ∈ base, c ≠ '=' ∧ c ≠ Char.ofNat 0)
    (ht : to_u16 (atoi text) = t) (ht1 : 1 ≤ t) :
    ('=' ∉ text → tempo_header ('Q' :: ':' :: text) = some (153750 / t)) ∧
    (string_to_note_length base = some (8 * 2 ^ k) → t * 2 ^ k < 65536 →
      tempo_header ('Q' :: ':' :: (base ++ '=' :: text)) = some (153750 / (t * 2 ^ k))) ∧
    (1 ≤ k → k ≤ 3 → string_to_note_length base = some (8 / 2 ^ k) → 1 ≤ t / 2 ^ k →
      tempo_header ('Q' :: ':' :: (base ++ '=' :: text)) = some (153750 / (t / 2 ^ k))) ∧
    tempo_header "Q:1/2=60".toList = tempo_header "Q:1/4=120".toList ∧
    tempo_header "Q:1/8=240".toList = tempo_header "Q:1/4=120".toList ∧
    tempo_header "Q:1/4=120".toList = some 1281 := by
  refine ⟨?_, ?_, ?_, by decide, by decide, by decide⟩
  · intro hno
    rw [tempo_header_no_base text hno, ht]
    simp only [calculate_tempo_32nd, if_neg (show ¬ t = 0 by omega)]
  · intro hs hlt
    have hpos : 1 ≤ 2 ^ k := Nat.one_le_two_pow
    have hne : ¬ t * 2 ^ k = 0 := by
      have : 1 * 1 ≤ t * 2 ^ k := Nat.mul_le_mul ht1 hpos
      omega
    rw [tempo_header_with_base base text hlen hb, hs, ht]
    simp only [normalise_tempo_pow k t ht1 hlt, calculate_tempo_32nd, if_neg hne]
  · intro hk1 hk3 hs hge
    rw [tempo_header_with_base base text hlen hb, hs, ht]
    obtain ⟨h4, h2, h1⟩ := tempo_scale_up_small t
    interval_cases k
    · have hne : ¬ t / 2 = 0 := by norm_num at hge; omega
      norm_num
      simp only [h4, calculate_tempo_32nd, if_neg hne]
    · have hne : ¬ t / 4 = 0 := by norm_num at hge; omega
      norm_num
      simp only [h2, calculate_tempo_32nd, if_neg hne]
    · have hne : ¬ t / 8 = 0 := by norm_num at hge; omega
      norm_num
      simp only [h1, calculate_tempo_32nd, if_neg hne]

/-- Witness for C22 (amended): "Q:120" with a newline (no base), "Q:1/2=60" (base 16,
`k` = 1) and "Q:1/8=240" (base 4, `k` = 1) all set the threshold 1281. -/
theorem tempo_header_proportional_witness :
    tempo_header ('Q' :: ':' :: "120\n".toList) = some (153750 / 120) ∧
    tempo_header ('Q' :: ':' :: ("1/2".toList ++ '=' :: "60".toList))
      = some (153750 / (60 * 2 ^ 1)) ∧
    tempo_header ('Q' :: ':' :: ("1/8".toList ++ '=' :: "240".toList))
      = some (153750 / (240 / 2 ^ 1)) ∧
    153750 / 120 = 1281 ∧ 153750 / (60 * 2 ^ 1) = 1281 ∧ 153750 / (240 / 2 ^ 1) = 1281 :=
  ⟨(tempo_header_proportional [] "120\n".toList 0 120 (by decide) (by decide) (by decide)
      (by decide)).1 (by decide),
   (tempo_header_proportional "1/2".toList "60".toList 1 60 (by decide) (by decide) (by decide)
      (by decide)).2.1 (by decide) (by decide),
   (tempo_header_proportional "1/8".toList "240".toList 1 240 (by decide) (by decide) (by decide)
      (by decide)).2.2.1 (by decide) (by decide) (by decide) (by decide),
   by decide, by decide, by decide⟩

set_option maxRecDepth 100000 in
/-- C22, counterexample: the base of 13 blanks and "1/2" has 16 characters and
is converted by `string_to_note_length` to `16 = 8 * 2^1`; with the tempo 60,
`60 * 2^1 < 65536` and the threshold of the claim is
`floor(153750 / (60 * 2^1)) = 1281`. But the copy loop `for(i=0;i<15;i++)`
ends at 15, before the `'='`; the line is handled as one without a base, the
tempo is read from the start of the text as 1, and the handler sets 153750.
With one blank less the base has 15 characters and the threshold is 1281. -/
theorem tempo_header_long_base :
    ("             1/2".toList).length = 16 ∧
    string_to_note_length "             1/2".toList = some (8 * 2 ^ 1) ∧
    to_u16 (atoi "60".toList) = 60 ∧ 60 * 2 ^ 1 < 65536 ∧
    153750 / (60 * 2 ^ 1) = 1281 ∧
    tempo_base_end "Q:             1/2=60".toList 15 0 = 15 ∧
    char_at "Q:             1/2=60".toList (15 + 2) = '2' ∧
    to_u16 (atoi "             1/2=60".toList) = 1 ∧
    tempo_header ('Q' :: ':' :: ("             1/2".toList ++ '=' :: "60".toList))
      = some 153750 ∧
    tempo_header ('Q' :: ':' :: ("             1/2".toList ++ '=' :: "60".toList))
      ≠ some (153750 / (60 * 2 ^ 1)) ∧
    ("            1/2".toList).length = 15 ∧
    tempo_header ('Q' :: ':' :: ("            1/2".toList ++ '=' :: "60".toList))
      = some 1281 := by
  decide


/-- The doubling loop of the `Q:` handler never leaves the base 0: whatever the
number of tests it is given, it has not returned. -/
theorem tempo_scale_up_zero (fuel : Nat) : ∀ tempo, tempo_scale_up fuel 0 tempo = none := by
  induction fuel with
  | zero => intro tempo; rfl
  | succ f ih =>
    intro tempo
    simp only [tempo_scale_up, Nat.zero_shiftLeft, Nat.zero_mod]
    simpa using ih (tempo >>> 1)

/-- The halving loop of the `Q:` handler returns within `fuel + 1` tests on
every base below `2^(fuel + 3)`. -/
theorem tempo_scale_down_ends (fuel : Nat) :
    ∀ note_length tempo, note_length < 2 ^ (fuel + 3) →
      ∃ r, tempo_scale_down (fuel + 1) note_length tempo = some r := by
  induction fuel with
  | zero =>
    intro nl t h
    have hle : ¬ nl > 8 := by norm_num at h; omega
    exact ⟨(nl, t), by simp only [tempo_scale_down, if_neg hle]⟩
  | succ f ih =>
    intro nl t h
    by_cases hgt : nl > 8
    · have hhalf : nl >>> 1 < 2 ^ (f + 3) := by
        rw [Nat.shiftRight_eq_div_pow, pow_one]
        rw [show f + 1 + 3 = (f + 3) + 1 by omega, pow_succ] at h
        omega
      obtain ⟨r, hr⟩ := ih (nl >>> 1) ((t <<< 1) % 65536) hhalf
      exact ⟨r, by rw [tempo_scale_down, if_pos hgt]; exact hr⟩
    · exact ⟨(nl, t), by rw [tempo_scale_down, if_neg hgt]⟩

/-- The adjustment of the tempo returns for every 16-bit base other than 0. -/
theorem normalise_tempo_ends (note_length tempo : Nat) (h1 : 1 ≤ note_length)
    (h2 : note_length < 65536) : ∃ r, normalise_tempo note_length tempo = some r := by
  by_cases hlt : note_length < 8
  · interval_cases note_length <;> simp [normalise_tempo, tempo_scale_up]
  · by_cases hgt : note_length > 8
    · obtain ⟨r, hr⟩ := tempo_scale_down_ends 16 note_length tempo (by norm_num; omega)
      exact ⟨r, by simp only [normalise_tempo, if_neg hlt, if_pos hgt]; exact hr⟩
    · exact ⟨(note_length, tempo), by simp only [normalise_tempo, if_neg hlt, if_neg hgt]⟩

/-- C23, evaluation at the failing inputs: `string_to_note_length` returns 0
for the bases "1/64", "0" and the empty base; with `note_length = 0` the loop
`while(note_length<8){ note_length <<= 1; tempo >>= 1; }` has not returned
after any number of tests of its condition, since `0 << 1` is 0; so the
handler yields no threshold for "Q:1/64=120", "Q:0=120" and "Q:=120". -/
theorem tempo_zero_base_never_ends :
    string_to_note_length "1/64".toList = some 0 ∧
    string_to_note_length "0".toList = some 0 ∧
    string_to_note_length [] = some 0 ∧
    (0 <<< 1) % 65536 = 0 ∧
    (∀ fuel tempo, tempo_scale_up fuel 0 tempo = none) ∧
    tempo_header "Q:1/64=120".toList = none ∧
    tempo_header "Q:0=120".toList = none ∧
    tempo_header "Q:=120".toList = none ∧
    tempo_header "Q:1/32=120".toList = some (153750 / (120 / 8)) := by
  refine ⟨by decide, by decide, by decide, by decide, ?_, by decide, by decide, by decide,
    by decide⟩
  intro fuel tempo
  exact tempo_scale_up_zero fuel tempo

/-- C24, evaluation: the initial value of `bpmLimit` is 1708, while
`calculate_tempo_32nd(120)`, `set_tempo(120)` and the header line "Q:1/4=120"
give 1281; the only tempo with the threshold 1708 is 90 quarter-notes per
minute. -/
theorem default_threshold_is_not_120 :
    (initial_state [] []).bpmLimit = 1708 ∧
    calculate_tempo_32nd 120 = some 1281 ∧
    set_tempo 120 = some 1281 ∧
    tempo_header "Q:1/4=120".toList = some 1281 ∧
    some (initial_state [] []).bpmLimit ≠ calculate_tempo_32nd 120 ∧
    calculate_tempo_32nd 90 = some 1708 ∧
    (∀ bpm, calculate_tempo_32nd bpm = some 1708 ↔ bpm = 90) := by
  refine ⟨rfl, by decide, by decide, by decide, by decide, by decide, ?_⟩
  intro bpm
  constructor
  · intro h
    unfold calculate_tempo_32nd at h
    by_cases h0 : bpm = 0
    · rw [if_pos h0] at h; cases h
    · rw [if_neg h0] at h
      have hd : 153750 / bpm = 1708 := Option.some.inj h
      have hpos : 0 < bpm := by omega
      have h1 : 1708 * bpm ≤ 153750 := by
        have := (Nat.le_div_iff_mul_le hpos).mp (le_of_eq hd.symm)
        omega
      have h2 : 153750 < 1709 * bpm := by
        have := (Nat.div_lt_iff_lt_mul hpos).mp (show 153750 / bpm < 1709 by omega)
        omega
      omega
  · intro h
    subst h
    decide


/-- The phase computed by `tick += note_step[note]; tick &= 511;` is the sum
modulo 512. -/
theorem advance_tick_mod (c : Channel) (h : c.note < 88) :
    advance_tick c = some ((c.tick + note_step.getD c.note 0) % 512) := by
  have hl : note_step.length = 88 := rfl
  have hg : note_step[c.note]? = some (note_step.getD c.note 0) := by
    rw [List.getElem?_eq_getElem (by omega), List.getD_eq_getElem _ _ (by omega)]
  have hand : ∀ x : Nat, (x % 65536) &&& 511 = x % 512 := by
    intro x
    have h1 := Nat.and_pow_two_sub_one_eq_mod (x % 65536) 9
    norm_num at h1
    exact h1
  simp only [advance_tick, hg, hand]

/-- A channel with a valid note is off, or its phase moves on modulo 512 and
its waveform has a sample there. -/
theorem channel_phase_cases (c : Channel) (hv : valid_note c.note) :
    (c.note = OFF ∧ c.advanced = c) ∨ (c.note ≠ OFF ∧ ∃ t smp,
      advance_tick c = some t ∧ wave_sample c.wave t = some smp ∧
      c.advanced = { c with tick := t }) := by
  by_cases hon : c.note = OFF
  · exact Or.inl ⟨hon, by simp only [Channel.advanced, hon, ne_eq, not_true_eq_false, if_false]⟩
  · have hlt : c.note < 88 := by
      rcases hv with h | h
      · exact absurd h hon
      · exact h
    obtain ⟨smp, hsmp⟩ := wave_sample_defined c.wave ((c.tick + note_step.getD c.note 0) % 512)
      (by omega)
    exact Or.inr ⟨hon, _, smp, advance_tick_mod c hlt, hsmp,
      by simp only [Channel.advanced, hon, ne_eq, not_false_eq_true, if_true]⟩

/-- C25: with every note off or an index of `note_step`, a firing of the
timer-1 interrupt that runs the mixing pass (`pwm_in_use` set, `tick_scaler`
0) returns and leaves a pool in which every channel that holds a note has the
phase `(tick + note_step[note]) mod 512`, at most 511, every channel that is
off is as before, and note, waveform, `time_until_release` and the occupancy
mask are unchanged; a firing with `tick_scaler` other than 0 leaves the whole
pool unchanged. -/
theorem mixing_pass_phase_only (w : Wave) (hv : ∀ c ∈ w.pool.toList, valid_note c.note) :
    (w.pwm_in_use ≠ 0 → w.tick_scaler = 0 →
      ∃ w1, TIMER1_OVF w = some w1 ∧
        w1.pool = { ch0 := w.pool.ch0.advanced, ch1 := w.pool.ch1.advanced,
                    ch2 := w.pool.ch2.advanced,
                    occupied_channels := w.pool.occupied_channels }) ∧
    (w.tick_scaler ≠ 0 → ∃ w1, TIMER1_OVF w = some w1 ∧ w1.pool = w.pool) ∧
    (∀ c ∈ w.pool.toList,
      (c.note = OFF → c.advanced = c) ∧
      (c.note ≠ OFF → ∃ step, note_step[c.note]? = some step ∧
        c.advanced = { note := c.note, wave := c.wave,
                       time_until_release := c.time_until_release,
                       tick := (c.tick + step) % 512 } ∧
        c.advanced.tick ≤ 511)) := by
  refine ⟨?_, ?_, ?_⟩
  · intro hp hs
    obtain ⟨⟨c0, c1, c2, occ⟩, pwm, ts, o1, o3⟩ := w
    simp only at hp hs
    subst hs
    have hv0 : valid_note c0.note := hv c0 (by simp [Pool.toList])
    have hv1 : valid_note c1.note := hv c1 (by simp [Pool.toList])
    have hv2 : valid_note c2.note := hv c2 (by simp [Pool.toList])
    rcases channel_phase_cases c0 hv0 with ⟨h0, ha0⟩ | ⟨h0, t0, s0, ht0, hw0, ha0⟩ <;>
    rcases channel_phase_cases c1 hv1 with ⟨h1, ha1⟩ | ⟨h1, t1, s1, ht1, hw1, ha1⟩ <;>
    rcases channel_phase_cases c2 hv2 with ⟨h2, ha2⟩ | ⟨h2, t2, s2, ht2, hw2, ha2⟩
    all_goals
      simp [TIMER1_OVF, mixing_pass, mix_channel, Pool.getChan, Pool.setChan, hp, *]
  · intro hs
    by_cases hp : w.pwm_in_use ≠ 0
    · exact ⟨{ w with tick_scaler := ((w.tick_scaler + 1) % 256) &&& 7 },
        by simp only [TIMER1_OVF, if_pos hp, if_neg hs], rfl⟩
    · exact ⟨w, by simp only [TIMER1_OVF, if_neg hp], rfl⟩
  · intro c hc
    have hvc := hv c hc
    constructor
    · intro hoff
      simp only [Channel.advanced, hoff, ne_eq, not_true_eq_false, if_false]
    · intro hon
      have hlt : c.note < 88 := by
        rcases hvc with h | h
        · exact absurd h hon
        · exact h
      have hl : note_step.length = 88 := rfl
      refine ⟨note_step.getD c.note 0, ?_, ?_, ?_⟩
      · rw [List.getElem?_eq_getElem (by omega), List.getD_eq_getElem _ _ (by omega)]
      · simp only [Channel.advanced, hon, ne_eq, not_false_eq_true, if_true]
      · simp only [Channel.advanced, hon, ne_eq, not_false_eq_true, if_true]
        omega

set_option maxRecDepth 10000 in
/-- Witness for C25: A4 (step 57) at phase 500 goes to phase 45, C4 (step 34)
at phase 100 to 134, the off channel stays; mask 5 stays. -/
theorem mixing_pass_phase_only_witness :
    (TIMER1_OVF (mixing_wave ⟨48, SQUARE, 8, 500⟩ silent_channel ⟨39, SAWTOOTH, 4, 100⟩ 5)).map
        (fun w => w.pool)
      = some { ch0 := ⟨48, SQUARE, 8, 45⟩, ch1 := silent_channel, ch2 := ⟨39, SAWTOOTH, 4, 134⟩,
               occupied_channels := 5 } ∧
    (∃ w1, TIMER1_OVF (mixing_wave ⟨48, SQUARE, 8, 500⟩ silent_channel ⟨39, SAWTOOTH, 4, 100⟩ 5)
        = some w1 ∧
      w1.pool = { ch0 := (⟨48, SQUARE, 8, 500⟩ : Channel).advanced,
                  ch1 := silent_channel.advanced,
                  ch2 := (⟨39, SAWTOOTH, 4, 100⟩ : Channel).advanced,
                  occupied_channels := 5 }) :=
  ⟨by decide,
   (mixing_pass_phase_only
      (mixing_wave ⟨48, SQUARE, 8, 500⟩ silent_channel ⟨39, SAWTOOTH, 4, 100⟩ 5)
      (by
        intro c hc
        simp only [mixing_wave, Pool.toList, List.mem_cons, List.mem_singleton,
          List.not_mem_nil, or_false] at hc
        rcases hc with rfl | rfl | rfl
        · exact Or.inr (by decide)
        · exact Or.inl rfl
        · exact Or.inr (by decide))).1 (by decide) rfl⟩


/-- On a tag "lf-wave:" followed by two digits, `parse_lf_tag` checks neither
digit against the channel table or the waveforms: a channel digit above 2 is a
store outside `channels`, and with a channel digit up to 2 every waveform
digit up to 9 is stored. -/
theorem parse_lf_tag_unchecked (x y : Nat) (hx : x ≤ 9) (hy : y ≤ 9) (more : List Char)
    (p : Pool) :
    (3 ≤ x → parse_lf_tag (lf_wave ++ Nat.digitChar x :: Nat.digitChar y :: more) p = none) ∧
    (x ≤ 2 → ∃ q c, parse_lf_tag (lf_wave ++ Nat.digitChar x :: Nat.digitChar y :: more) p
        = some q ∧ q.getChan x = some c ∧ c.wave = y) := by
  rw [parse_lf_tag_digits x y hx hy]
  obtain ⟨c0, c1, c2, occ⟩ := p
  constructor
  · intro h3
    obtain ⟨j, rfl⟩ : ∃ j, x = j + 3 := ⟨x - 3, by omega⟩
    rfl
  · intro h2
    interval_cases x
    · exact ⟨_, _, rfl, rfl, rfl⟩
    · exact ⟨_, _, rfl, rfl, rfl⟩
    · exact ⟨_, _, rfl, rfl, rfl⟩

/-- C26, evaluation at the failing inputs: the tag "lf-wave:39" passes the
prefix check and has two digits; `parse_lf_tag` stores to `channels[3].wave`,
outside the three-element channel table, whatever follows the digits and
whatever the pool; and the tag "lf-wave:09" stores the waveform 9, which is
none of sine, triangle, square and sawtooth, in channel 0. -/
theorem parse_lf_tag_writes_unchecked :
    parse_lf_tag "lf-wave:39\n".toList empty_pool = none ∧
    (∀ (more : List Char) (p : Pool), parse_lf_tag (lf_wave ++ '3' :: '9' :: more) p = none) ∧
    (empty_pool.getChan 3 = none ∧ CHANNELS = 3) ∧
    parse_lf_tag "lf-wave:09\n".toList empty_pool
      = some { empty_pool with ch0 := { silent_channel with wave := 9 } } ∧
    parse_lf_tag "lf-wave:09\n".toList empty_pool ≠ some empty_pool ∧
    (∀ (more : List Char) (p : Pool), ∃ q,
      parse_lf_tag (lf_wave ++ '0' :: '9' :: more) p = some q ∧ q.ch0.wave = 9) ∧
    parse_lf_tag "lf-wave:24\n".toList empty_pool
      = some { empty_pool with ch2 := { silent_channel with wave := 4 } } := by
  refine ⟨by decide, ?_, ⟨rfl, rfl⟩, by decide, by decide, ?_, by decide⟩
  · intro more p
    exact (parse_lf_tag_unchecked 3 9 (by decide) (by decide) more p).1 (by decide)
  · intro more p
    obtain ⟨q, c, hq, hc, hw⟩ :=
      (parse_lf_tag_unchecked 0 9 (by decide) (by decide) more p).2 (by decide)
    refine ⟨q, hq, ?_⟩
    have : q.ch0 = c := Option.some.inj hc
    rw [this, hw]


/-- The slot written by `channel_play` holds the pitch and the duration as
`uint8_t`. -/
theorem channel_play_slot (p q : Pool) (note duration : Nat)
    (hq : channel_play p note duration = some q) :
    ∃ c, q.getChan (free_channel p.occupied_channels) = some c ∧
      c.note = note % 256 ∧ c.time_until_release = duration % 256 ∧ c.tick = 0 := by
  obtain ⟨c0, c1, c2, occ⟩ := p
  rcases free_channel_cases occ with hf | hf | hf <;>
    simp [channel_play, not_occupied_guard_true, hf, Pool.getChan, Pool.setChan] at hq <;>
    subst hq <;>
    simp [hf, Pool.getChan]

set_option maxRecDepth 1000000 in
/-- C27, counterexample: in the chord "[z32A32]" at default note length 8 the
rest is committed with length 384 and sets the wait to 384; the note A, not a
rest, is then committed with length 256 (duration 0 in its slot) and leaves
the wait at 256, above 255. -/
theorem chord_wait_exceeds_255 :
    (beat_tick 100 (playing_state "[z32A32] ".toList [])).map
        (fun s => (s.played, s.time_until_next_note, s.hw.pool.ch1))
      = some ([{ beat := 1, note := 255, duration := 128 },
               { beat := 1, note := 48, duration := 0 }], 256, ⟨48, 0, 0, 0⟩) ∧
    (playNoteIfAvailable { long_note_state with time_until_next_note := 384 }).map
        (fun r => r.2.time_until_next_note) = some 256 ∧
    ¬ ((256 : Nat) ≤ 255) := by
  decide

set_option maxRecDepth 1000000 in
/-- C27 (amended): for every commit by `playNoteIfAvailable` of a note that is
not a rest, with pending length `L` and wait `w` before the commit, the
allocated slot gets `time_until_release = L mod 256`, which is `L` when
`L <= 255`; the wait after the commit is at most `w`, and it is
`min(L, w)`, hence at most 255, when `w <= 255`, as `w` is at the start of
every scan pass; so "A32 " at default note length 8 allocates A with
`time_until_release` 0 and the wait 255. -/
theorem commit_truncates_duration (s : State) (hpitch : s.next_note ≠ 255)
    (hrest : s.note_flags &&& rest = 0) :
    (∃ b s1 c, playNoteIfAvailable s = some (b, s1) ∧
      s1.hw.pool.getChan (free_channel s.hw.pool.occupied_channels) = some c ∧
      c.time_until_release = s.length % 256 ∧
      (s.length ≤ 255 → c.time_until_release = s.length) ∧
      s1.time_until_next_note ≤ s.time_until_next_note ∧
      (s.time_until_next_note ≤ 255 →
        s1.time_until_next_note = min s.length s.time_until_next_note ∧
        s1.time_until_next_note ≤ 255)) ∧
    (scan_init s).time_until_next_note = 255 ∧
    (beat_tick 100 (playing_state "A32 ".toList [])).map
        (fun s => (s.played, s.time_until_next_note, s.hw.pool.ch0.time_until_release))
      = some ([{ beat := 1, note := 48, duration := 0 }], 255, 0) := by
  refine ⟨?_, rfl, by decide⟩
  obtain ⟨b, s1, q, h1, hq, hp⟩ := playNoteIfAvailable_pool s (Or.inr hpitch)
  obtain ⟨b', s1', h1', hw, _⟩ := playNoteIfAvailable_wait s (Or.inr hpitch)
  rw [h1] at h1'
  cases h1'
  obtain ⟨c, hc, _, hd, _⟩ := channel_play_slot _ _ _ _ hq
  have hr' : ¬ (s.note_flags &&& rest ≠ 0) := by simp [hrest]
  rw [if_neg hr'] at hw
  rw [Nat.mod_mod] at hd
  refine ⟨b, s1, c, h1, by rw [hp]; exact hc, hd, ?_, ?_, ?_⟩
  · intro hl
    rw [hd, Nat.mod_eq_of_lt (by omega)]
  · rw [hw]
    split_ifs with hlt
    · have := Nat.mod_le s.length 65536
      omega
    · exact le_refl _
  · intro hw255
    rw [hw]
    split_ifs with hlt
    · rw [Nat.mod_eq_of_lt (by omega)]
      exact ⟨(Nat.min_eq_left (by omega)).symm, by omega⟩
    · exact ⟨(Nat.min_eq_right (by omega)).symm, hw255⟩

set_option maxRecDepth 1000000 in
/-- Witness for C27 (amended): the note A with pending length 256 and wait 255. -/
theorem commit_truncates_duration_witness :
    long_note_state.length = 256 ∧ long_note_state.time_until_next_note = 255 ∧
    (playNoteIfAvailable long_note_state).map
        (fun r => (r.2.hw.pool.ch0.time_until_release, r.2.time_until_next_note))
      = some (0, 255) ∧
    ((∃ b s1 c, playNoteIfAvailable long_note_state = some (b, s1) ∧
      s1.hw.pool.getChan (free_channel long_note_state.hw.pool.occupied_channels) = some c ∧
      c.time_until_release = long_note_state.length % 256 ∧
      (long_note_state.length ≤ 255 → c.time_until_release = long_note_state.length) ∧
      s1.time_until_next_note ≤ long_note_state.time_until_next_note ∧
      (long_note_state.time_until_next_note ≤ 255 →
        s1.time_until_next_note
          = min long_note_state.length long_note_state.time_until_next_note ∧
        s1.time_until_next_note ≤ 255)) ∧
    (scan_init long_note_state).time_until_next_note = 255 ∧
    (beat_tick 100 (playing_state "A32 ".toList [])).map
        (fun s => (s.played, s.time_until_next_note, s.hw.pool.ch0.time_until_release))
      = some ([{ beat := 1, note := 48, duration := 0 }], 255, 0)) :=
  ⟨by decide, by decide, by decide,
    commit_truncates_duration long_note_state (by decide) (by decide)⟩

end JPML
